import Mathlib

/-!
# Mir: observer multiplexer, compositor report, and three smaller pieces

A shallow embedding of pieces of the Mir display server:

* `ObserverMultiplexer` (`src/include/server/mir/observer_multiplexer.h`), the
  registry that fans a notification out to weakly held observers through
  executors;
* `logging::CompositorReport` (`src/server/logging/compositor_report.cpp`), the
  per-output frame accounting;
* the table `formats` and the specifier parser of
  `src/platform/graphics/drm_formats.cpp`;
* `camel_case_string` of the Wayland wrapper generator
  (`src/server/frontend_wayland/generator/wrapper_generator.cpp`);
* the compositor `Stream`, by its contract.

Objects are identified by natural numbers (their addresses).  Shared mutable
objects (`std::shared_ptr<WeakObserver>`) live in an explicit heap, a list
indexed by allocation order.  A run of the program is modelled as a sequence of
actions applied to a state, one action per call: calls on the multiplexer that
do not overlap in time, and closures that an executor runs one after another.
-/

namespace Mir

/-! ## ObserverMultiplexer: data model -/

/-- Identity (address) of an observer object. -/
abbrev Observer := Nat

/-- A `std::weak_ptr<Observer>`: `none` is the empty weak pointer, which is also
what `reset()` leaves behind. -/
abbrev WeakPtr := Option Observer

/-- Modelled from the spec: the `Executor` interface of `mir/executor.h`, which
is not part of the sources at hand.  An executor is an identity together with
the one thing `spawn` callers can observe: whether `spawn(work)` runs `work`
before it returns (`inline`) or stores it to run later. -/
structure Executor where
  id : Nat
  inline : Bool
deriving DecidableEq, Repr

/-- The member function pointer `f` and the arguments `args...` of a
`for_each_observer` or `for_single_observer` call.  `event` names the
notification; `failing` lists the observers on which `f(args...)` throws. -/
structure Notification where
  event : Nat
  failing : List Observer
deriving DecidableEq, Repr

/-- The class `WeakObserver`: a weak pointer to the observer and the executor
its notifications run on. -/
structure WeakObserver where
  observer : WeakPtr
  executor : Executor
deriving DecidableEq, Repr

/-- The class `WeakObserver::LockedObserver` when it converts to `true`: the
strong pointer obtained from the weak one and the executor of the slot. -/
structure LockedObserver where
  observer : Observer
  executor : Executor
deriving DecidableEq, Repr

/-- The closure handed to `Executor::spawn` by `for_each_observer` and
`for_single_observer`.  It captures the shared `WeakObserver` (as its heap
index) and the notification.  `executor` is the executor it was handed to and
`call` numbers the dispatching call that created it; both are bookkeeping. -/
structure Task where
  weak_observer : Nat
  n : Notification
  executor : Executor
  call : Nat
deriving DecidableEq, Repr

/-- One call of the member function on an observer, made by `task`. -/
structure Invocation where
  observer : Observer
  task : Task
deriving DecidableEq, Repr

/-- An `ObserverMultiplexer` together with the part of the world it talks to.

* `default_executor`, `observers`: the two data members of the class;
* `slots`: the heap of `WeakObserver` objects the shared pointers in
  `observers` and in queued closures point to;
* `expired`: the observers whose last strong reference has been dropped;
* `pending`: the closures stored by deferring executors, in submission order;
* `spawned`, `invoked`, `calls`: history of the `spawn` calls made, of the
  observer member functions called, and the number of dispatching calls. -/
structure State where
  default_executor : Executor
  slots : List WeakObserver
  observers : List Nat
  expired : List Observer
  pending : List Task
  spawned : List Task
  invoked : List Invocation
  calls : Nat
deriving DecidableEq, Repr

/-- How a call ended: it returned, or an exception left it.  Either way the
effects made so far stay. -/
inductive Outcome where
  | returned (s : State)
  | threw (s : State)
deriving DecidableEq, Repr

/-- State in which a call ended. -/
def Outcome.state : Outcome → State
  | .returned s => s
  | .threw s => s

/-- Whether an exception left the call. -/
def Outcome.has_thrown : Outcome → Bool
  | .returned _ => false
  | .threw _ => true

/-- The constructor `ObserverMultiplexer(Executor& default_executor)`. -/
def init (default_executor : Executor) : State :=
  { default_executor := default_executor
    slots := []
    observers := []
    expired := []
    pending := []
    spawned := []
    invoked := []
    calls := 0 }

/-! ## WeakObserver -/

/-- The call `std::weak_ptr::lock()`, as the raw pointer it yields: the observer
when the pointer is non-empty and the observer has not expired, else null. -/
def weak_lock (expired : List Observer) : WeakPtr → Option Observer
  | some o => if o ∈ expired then none else some o
  | none => none

/-- The member `WeakObserver::lock`. -/
def WeakObserver.lock (expired : List Observer) (w : WeakObserver) : Option LockedObserver :=
  match weak_lock expired w.observer with
  | some live_observer => some { observer := live_observer, executor := w.executor }
  | none => none

/-- The member `WeakObserver::maybe_reset`: the slot afterwards and the returned
flag. -/
def WeakObserver.maybe_reset (expired : List Observer) (w : WeakObserver)
    (unregistered_observer : Observer) : WeakObserver × Bool :=
  let self := weak_lock expired w.observer
  if self = some unregistered_observer then
    ({ w with observer := none }, true)
  else
    (w, self == none)

/-- Lock the `WeakObserver` at heap index `i` (a dangling index locks nothing). -/
def State.lock (s : State) (i : Nat) : Option LockedObserver :=
  match s.slots[i]? with
  | some w => w.lock s.expired
  | none => none

/-! ## ObserverMultiplexer: operations -/

/-- The two-argument `register_interest(observer, executor)`. -/
def register_interest (s : State) (observer : WeakPtr) (executor : Executor) : State :=
  { s with
    slots := s.slots ++ [{ observer := observer, executor := executor }]
    observers := s.observers ++ [s.slots.length] }

/-- The one-argument `register_interest(observer)`. -/
def register_interest_default (s : State) (observer : WeakPtr) : State :=
  register_interest s observer s.default_executor

/-- The `std::remove_if` of `unregister_interest`: `maybe_reset` is called once
on every candidate in order; candidates for which it returns true are dropped.
Returns the kept candidates and the heap afterwards. -/
def remove_if_maybe_reset (expired : List Observer) (observer : Observer) :
    List Nat → List WeakObserver → List Nat × List WeakObserver
  | [], slots => ([], slots)
  | candidate :: rest, slots =>
    match slots[candidate]? with
    | some w =>
      let r := w.maybe_reset expired observer
      let tail := remove_if_maybe_reset expired observer rest (slots.set candidate r.1)
      (if r.2 then tail.1 else candidate :: tail.1, tail.2)
    | none => remove_if_maybe_reset expired observer rest slots

/-- The member `unregister_interest(observer)`. -/
def unregister_interest (s : State) (observer : Observer) : State :=
  let r := remove_if_maybe_reset s.expired observer s.observers s.slots
  { s with observers := r.1, slots := r.2 }

/-- The member `empty()`. -/
def empty (s : State) : Bool :=
  s.observers.isEmpty

/-- The body of the closure built by the dispatching calls: lock the captured
`WeakObserver` again and, when that succeeds, call the member function. -/
def Task.run (s : State) (t : Task) : Outcome :=
  match s.lock t.weak_observer with
  | some observer =>
    let s1 := { s with invoked := s.invoked ++ [{ observer := observer.observer, task := t }] }
    if observer.observer ∈ t.n.failing then .threw s1 else .returned s1
  | none => .returned s

/-- The call `LockedObserver::spawn(work)`, that is `executor->spawn(work)`: an
inline executor runs the work before returning, letting its exception through;
any other executor stores it. -/
def spawn (s : State) (work : Task) : Outcome :=
  let s1 := { s with spawned := s.spawned ++ [work] }
  if work.executor.inline then
    work.run s1
  else
    .returned { s1 with pending := s1.pending ++ [work] }

/-- The loop of `for_each_observer` over `local_observers`. -/
def for_each_loop (n : Notification) (call : Nat) : List Nat → State → Outcome
  | [], s => .returned s
  | weak_observer :: rest, s =>
    match s.lock weak_observer with
    | some observer =>
      match spawn s { weak_observer := weak_observer, n := n,
                      executor := observer.executor, call := call } with
      | .returned s1 => for_each_loop n call rest s1
      | .threw s1 => .threw s1
    | none => for_each_loop n call rest s

/-- The member `for_each_observer(f, args...)`. -/
def for_each_observer (s : State) (n : Notification) : Outcome :=
  let local_observers := s.observers
  for_each_loop n s.calls local_observers { s with calls := s.calls + 1 }

/-- The loop of `for_single_observer` over `local_observers`. -/
def for_single_loop (target_observer : Observer) (n : Notification) (call : Nat) :
    List Nat → State → Outcome
  | [], s => .returned s
  | weak_observer :: rest, s =>
    match s.lock weak_observer with
    | some observer =>
      if observer.observer = target_observer then
        match spawn s { weak_observer := weak_observer, n := n,
                        executor := observer.executor, call := call } with
        | .returned s1 => for_single_loop target_observer n call rest s1
        | .threw s1 => .threw s1
      else
        for_single_loop target_observer n call rest s
    | none => for_single_loop target_observer n call rest s

/-- The member `for_single_observer(target_observer, f, args...)`. -/
def for_single_observer (s : State) (target_observer : Observer) (n : Notification) : Outcome :=
  let local_observers := s.observers
  for_single_loop target_observer n s.calls local_observers { s with calls := s.calls + 1 }

/-! ## Runs of the system -/

/-- The last strong reference to observer `o` is dropped. -/
def expire (s : State) (o : Observer) : State :=
  { s with expired := o :: s.expired }

/-- A deferring executor runs the stored closure at position `k` of `pending`.
An exception of the closure ends in the executor, not in the multiplexer. -/
def run_pending (s : State) (k : Nat) : State :=
  match s.pending[k]? with
  | some t => (t.run { s with pending := s.pending.eraseIdx k }).state
  | none => s

/-- What can happen to a multiplexer. -/
inductive Action where
  | register (observer : WeakPtr) (executor : Executor)
  | register_default (observer : WeakPtr)
  | unregister (observer : Observer)
  | for_each (n : Notification)
  | for_single (target_observer : Observer) (n : Notification)
  | expire (o : Observer)
  | run (k : Nat)
deriving DecidableEq, Repr

/-- Effect of one action. -/
def step (s : State) : Action → State
  | .register observer executor => register_interest s observer executor
  | .register_default observer => register_interest_default s observer
  | .unregister observer => unregister_interest s observer
  | .for_each n => (for_each_observer s n).state
  | .for_single target_observer n => (for_single_observer s target_observer n).state
  | .expire o => expire s o
  | .run k => run_pending s k

/-- Effect of a sequence of actions. -/
def run_actions (s : State) (acts : List Action) : State :=
  acts.foldl step s

/-! ## Callbacks that call back into the multiplexer

The member function called on an observer may itself call
`unregister_interest` on that observer.  The calls below are the ones above,
made by a thread of which the held mutexes are known; a call yields `none` when
the thread would wait for a mutex that it holds itself.  The dispatching calls
also follow the owners of each `WeakObserver`, which is a heap object shared by
the `shared_ptr` in `observers`, the copies of it in `local_observers` and the
ones captured by closures, and is destroyed with its mutex when the last of
them goes. -/

/-- The mutexes the running thread holds: `observer_mutex` of the multiplexer,
and the `WeakObserver::mutex` of heap slots, once for every acquisition. -/
structure Held where
  observer_mutex : Bool
  mutexes : List Nat
deriving DecidableEq, Repr

/-- Modelled from the spec: a `std::lock_guard` on `observer_mutex`, a
`PosixRWMutex` (`mir/posix_rw_mutex.h` is not part of the sources at hand).  The
lock is not recursive: a thread that holds it and locks it again waits for
itself. -/
def lock_observer_mutex (held : Held) : Option Held :=
  if held.observer_mutex then none else some { held with observer_mutex := true }

/-- A lock of the mutex of heap slot `i` by the running thread.  The owner of a
recursive mutex may lock it again; the owner of a plain one would wait for
itself.  `WeakObserver::mutex` is a `std::recursive_mutex`. -/
def lock_mutex (recursive : Bool) (held : Held) (i : Nat) : Option Held :=
  if recursive || !held.mutexes.contains i then
    some { held with mutexes := i :: held.mutexes }
  else none

/-- The member `WeakObserver::maybe_reset` of the `WeakObserver` at heap index
`i`, called by a thread that holds `held`. -/
def maybe_reset_held (held : Held) (expired : List Observer) (i : Nat) (w : WeakObserver)
    (unregistered_observer : Observer) : Option (WeakObserver × Bool) :=
  match lock_mutex true held i with
  | some _ => some (w.maybe_reset expired unregistered_observer)
  | none => none

/-- The `std::remove_if` of `unregister_interest`, run by a thread that holds
`held`. -/
def remove_if_held (held : Held) (expired : List Observer) (observer : Observer) :
    List Nat → List WeakObserver → Option (List Nat × List WeakObserver)
  | [], slots => some ([], slots)
  | candidate :: rest, slots =>
    match slots[candidate]? with
    | some w =>
      match maybe_reset_held held expired candidate w observer with
      | some r =>
        match remove_if_held held expired observer rest (slots.set candidate r.1) with
        | some tail => some (if r.2 then tail.1 else candidate :: tail.1, tail.2)
        | none => none
      | none => none
    | none => remove_if_held held expired observer rest slots

/-- The member `unregister_interest(observer)`, called by a thread that holds
`held`. -/
def unregister_interest_held (held : Held) (s : State) (observer : Observer) : Option State :=
  match lock_observer_mutex held with
  | some held1 =>
    match remove_if_held held1 s.expired observer s.observers s.slots with
    | some r => some { s with observers := r.1, slots := r.2 }
    | none => none
  | none => none

/-- The state `s` with the call of the member function on `observer` by the
closure `t` recorded. -/
def State.invoked_by (s : State) (observer : Observer) (t : Task) : State :=
  { s with invoked := s.invoked ++ [{ observer := observer, task := t }] }

/-- The call `invokable_mem_fn(observer, args...)` made by the closure `t`, on a
thread that holds `held`.  `u` lists the observers on which the member function
calls `unregister_interest` on the observer itself before it returns or
throws. -/
def invoke (u : List Observer) (held : Held) (s : State) (observer : Observer) (t : Task) :
    Option Outcome :=
  if observer ∈ u then
    match unregister_interest_held held (s.invoked_by observer t) observer with
    | some s2 => some (if observer ∈ t.n.failing then .threw s2 else .returned s2)
    | none => none
  else
    some (if observer ∈ t.n.failing then .threw (s.invoked_by observer t)
      else .returned (s.invoked_by observer t))

/-- The body of the closure built by the dispatching calls, run by a thread that
holds `held`: `weak_observer->lock()` takes the mutex of the slot, and the
`LockedObserver` keeps it for the call of the member function. -/
def Task.run_held (u : List Observer) (held : Held) (s : State) (t : Task) : Option Outcome :=
  match lock_mutex true held t.weak_observer with
  | some held1 =>
    match s.lock t.weak_observer with
    | some observer => invoke u held1 s observer.observer t
    | none => some (.returned s)
  | none => none

/-- The call `LockedObserver::spawn(work)` by a thread that holds `held`. -/
def spawn_held (u : List Observer) (held : Held) (s : State) (work : Task) : Option Outcome :=
  if work.executor.inline then
    Task.run_held u held { s with spawned := s.spawned ++ [work] } work
  else
    some (.returned { s with spawned := s.spawned ++ [work], pending := s.pending ++ [work] })

/-- How a call ended that a thread made of which the held mutexes are known:

* `ended a`: it returned or threw, with result `a`;
* `waits_for_itself`: the thread waits for a mutex that it holds itself;
* `destroys_locked_mutex s`: in the state `s` the last `shared_ptr` to a
  `WeakObserver` goes while the thread holds the mutex of that `WeakObserver`;
  a `std::recursive_mutex` is destroyed while it is owned, and unlocked after
  it was destroyed, and the behaviour of the program is undefined from there. -/
inductive Ending (α : Type) where
  | ended (a : α)
  | waits_for_itself
  | destroys_locked_mutex (s : State)
deriving DecidableEq, Repr

/-- The result of a call that cannot destroy a locked mutex. -/
def Ending.of_option {α : Type} : Option α → Ending α
  | some a => .ended a
  | none => .waits_for_itself

/-- The result of the call, passed through `f` when the call ended. -/
def Ending.map {α β : Type} (f : α → β) : Ending α → Ending β
  | .ended a => .ended (f a)
  | .waits_for_itself => .waits_for_itself
  | .destroys_locked_mutex s => .destroys_locked_mutex s

/-- Whether a `shared_ptr` to the `WeakObserver` at heap index `i` is left when
the closure handed to `spawn` is gone from the dispatching loop: the one in
`observers`, or the one captured by a closure that an executor has stored.
(The loop variable, the element of `local_observers`, has been moved into the
closure and is empty.) -/
def State.owns (s : State) (i : Nat) : Bool :=
  s.observers.contains i || s.pending.any (fun t => t.weak_observer == i)

/-- The end of the statement `observer.spawn(...)` in a dispatching loop, when
the call of `spawn` ended with `out`: the closure that was handed to `spawn` is
destroyed, also when an exception leaves the statement, while the
`LockedObserver` of the loop still keeps the mutex of the `WeakObserver` at
heap index `weak_observer`.  An inline executor has run the closure in place
and the closure still holds its `shared_ptr`; a deferring executor has moved
the closure to its store. -/
def end_of_spawn (weak_observer : Nat) (out : Outcome) : Ending Outcome :=
  if out.state.owns weak_observer then .ended out
  else .destroys_locked_mutex out.state

/-- The loop of `for_each_observer` over `local_observers`, run by a thread that
holds `held`; the `LockedObserver` of the loop keeps the mutex of the slot for
the call of `spawn` and to the end of the statement. -/
def for_each_loop_held (u : List Observer) (held : Held) (n : Notification) (call : Nat) :
    List Nat → State → Ending Outcome
  | [], s => .ended (.returned s)
  | weak_observer :: rest, s =>
    match lock_mutex true held weak_observer with
    | some held1 =>
      match s.lock weak_observer with
      | some observer =>
        match spawn_held u held1 s { weak_observer := weak_observer, n := n,
                                     executor := observer.executor, call := call } with
        | some out =>
          match end_of_spawn weak_observer out with
          | .ended (.returned s1) => for_each_loop_held u held n call rest s1
          | ending => ending
        | none => .waits_for_itself
      | none => for_each_loop_held u held n call rest s
    | none => .waits_for_itself

/-- The member `for_each_observer(f, args...)`, called by a thread that holds
`held`: the guard of `observer_mutex` is released before the loop. -/
def for_each_observer_held (u : List Observer) (held : Held) (s : State) (n : Notification) :
    Ending Outcome :=
  match lock_observer_mutex held with
  | some _ => for_each_loop_held u held n s.calls s.observers { s with calls := s.calls + 1 }
  | none => .waits_for_itself

/-- The loop of `for_single_observer` over `local_observers`, run by a thread
that holds `held`. -/
def for_single_loop_held (u : List Observer) (held : Held) (target_observer : Observer)
    (n : Notification) (call : Nat) : List Nat → State → Ending Outcome
  | [], s => .ended (.returned s)
  | weak_observer :: rest, s =>
    match lock_mutex true held weak_observer with
    | some held1 =>
      match s.lock weak_observer with
      | some observer =>
        if observer.observer = target_observer then
          match spawn_held u held1 s { weak_observer := weak_observer, n := n,
                                       executor := observer.executor, call := call } with
          | some out =>
            match end_of_spawn weak_observer out with
            | .ended (.returned s1) =>
              for_single_loop_held u held target_observer n call rest s1
            | ending => ending
          | none => .waits_for_itself
        else
          for_single_loop_held u held target_observer n call rest s
      | none => for_single_loop_held u held target_observer n call rest s
    | none => .waits_for_itself

/-- The member `for_single_observer(target_observer, f, args...)`, called by a
thread that holds `held`. -/
def for_single_observer_held (u : List Observer) (held : Held) (s : State)
    (target_observer : Observer) (n : Notification) : Ending Outcome :=
  match lock_observer_mutex held with
  | some _ =>
    for_single_loop_held u held target_observer n s.calls s.observers
      { s with calls := s.calls + 1 }
  | none => .waits_for_itself

/-- A deferring executor runs the stored closure at position `k` of `pending`,
on a thread of its own that holds no mutex, and destroys the closure when it
has ended; the `LockedObserver` of the closure has released the mutex of the
slot by then. -/
def run_pending_held (u : List Observer) (s : State) (k : Nat) : Option State :=
  match s.pending[k]? with
  | some t =>
    (Task.run_held u ⟨false, []⟩ { s with pending := s.pending.eraseIdx k } t).map Outcome.state
  | none => some s

/-- Effect of one action, made by a thread that holds no mutex, when the member
function unregisters the observers in `u`. -/
def step_held (u : List Observer) (s : State) : Action → Ending State
  | .register observer executor => .ended (register_interest s observer executor)
  | .register_default observer => .ended (register_interest_default s observer)
  | .unregister observer => .of_option (unregister_interest_held ⟨false, []⟩ s observer)
  | .for_each n => (for_each_observer_held u ⟨false, []⟩ s n).map Outcome.state
  | .for_single target_observer n =>
    (for_single_observer_held u ⟨false, []⟩ s target_observer n).map Outcome.state
  | .expire o => .ended (expire s o)
  | .run k => .of_option (run_pending_held u s k)

/-- Effect of a sequence of actions, when the member function unregisters the
observers in `u`. -/
def run_actions_held (u : List Observer) : State → List Action → Ending State
  | s, [] => .ended s
  | s, a :: rest =>
    match step_held u s a with
    | .ended s1 => run_actions_held u s1 rest
    | ending => ending

/-! ## Vocabulary for the statements about the multiplexer -/

/-- Common shape of the loops of `for_each_observer` and `for_single_observer`:
the entries whose locked observer satisfies `sel` get a closure spawned. -/
def dispatch_loop (sel : Observer → Bool) (n : Notification) (call : Nat) :
    List Nat → State → Outcome
  | [], s => .returned s
  | weak_observer :: rest, s =>
    match s.lock weak_observer with
    | some observer =>
      if sel observer.observer then
        match spawn s { weak_observer := weak_observer, n := n,
                        executor := observer.executor, call := call } with
        | .returned s1 => dispatch_loop sel n call rest s1
        | .threw s1 => .threw s1
      else
        dispatch_loop sel n call rest s
    | none => dispatch_loop sel n call rest s

/-- The closures a dispatching call numbered `call` builds for the entries `l`:
one for each entry that locks, in state `s`, to an observer satisfying `sel`,
bound to the executor of that entry. -/
def dispatch_tasks (sel : Observer → Bool) (s : State) (n : Notification) (call : Nat)
    (l : List Nat) : List Task :=
  l.filterMap fun i =>
    match s.lock i with
    | some o =>
      if sel o.observer then
        some { weak_observer := i, n := n, executor := o.executor, call := call }
      else none
    | none => none

/-- The invocations made when the closures among `tasks` that are bound to an
inline executor run in state `s`. -/
def inline_invocations (s : State) (tasks : List Task) : List Invocation :=
  tasks.filterMap fun t =>
    if t.executor.inline then
      (s.lock t.weak_observer).map fun o => { observer := o.observer, task := t }
    else none

/-- The state `s` with further `spawn` calls, stored closures and invocations
recorded. -/
def State.extend (s : State) (sp pe : List Task) (iv : List Invocation) : State :=
  { s with spawned := s.spawned ++ sp, pending := s.pending ++ pe, invoked := s.invoked ++ iv }

/-- Whether the `WeakObserver` at heap index `i` locks to an observer other
than `o`. -/
def other_live (expired : List Observer) (slots : List WeakObserver) (o : Observer)
    (i : Nat) : Bool :=
  match slots[i]? with
  | some w =>
    match weak_lock expired w.observer with
    | some p => p != o
    | none => false
  | none => false

/-- What `maybe_reset(&o)` leaves of the `WeakObserver` `w` at heap index `i`
when it is called on the candidates `l`. -/
def reset_slot (expired : List Observer) (o : Observer) (l : List Nat) (i : Nat)
    (w : WeakObserver) : WeakObserver :=
  if i ∈ l ∧ weak_lock expired w.observer = some o then { w with observer := none } else w

/-- Every `WeakObserver` on the heap that still locks is held by the registry,
and every stored closure captures a `WeakObserver` that is on the heap. -/
def State.well_formed (s : State) : Prop :=
  (∀ i l, s.lock i = some l → i ∈ s.observers) ∧
  (∀ t ∈ s.pending, t.weak_observer < s.slots.length)

/-- Whether registry entry `i` locks to an observer other than `o`. -/
def State.locks_other (s : State) (o : Observer) (i : Nat) : Bool :=
  match s.lock i with
  | some l => l.observer != o
  | none => false

/-- Whether action `a`, taken in state `s`, keeps to the submission order of
executor `X`: a closure stored by `X` is run only when no closure that `X`
stored before it is still waiting. -/
def Action.in_order (X : Executor) (s : State) : Action → Bool
  | .run k =>
    match s.pending[k]? with
    | some t =>
      if t.executor = X then (s.pending.take k).all (fun u => u.executor != X) else true
    | none => true
  | _ => true

/-- Whether the run of `acts` from `s` keeps to the submission order of `X`:
`X` runs the closures it is given one at a time, in the order it got them. -/
def runs_in_order (X : Executor) : State → List Action → Bool
  | _, [] => true
  | s, a :: rest => a.in_order X s && runs_in_order X (step s a) rest

/-- The closures of executor `X`, stored and already run, are in the order of
the dispatching calls that built them. -/
def State.ordered (X : Executor) (s : State) : Prop :=
  s.pending.Pairwise (fun a b => a.executor = X → b.executor = X → a.call ≤ b.call) ∧
  s.invoked.Pairwise
    (fun a b => a.task.executor = X → b.task.executor = X → a.task.call ≤ b.task.call) ∧
  (∀ inv ∈ s.invoked, ∀ t ∈ s.pending, inv.task.executor = X → t.executor = X →
    inv.task.call ≤ t.call) ∧
  (∀ t ∈ s.pending, t.call < s.calls ∧ t.executor.inline = false) ∧
  (∀ inv ∈ s.invoked, inv.task.call < s.calls)

/-- Registry entries whose observer can be locked: the live registrations. -/
def live_registrations (s : State) : List Nat :=
  s.observers.filter fun i => (s.lock i).isSome

/-- Whether the action registers observer `o`. -/
def Action.registers (o : Observer) : Action → Bool
  | .register observer _ => observer == some o
  | .register_default observer => observer == some o
  | _ => false

/-- What holds between a state `s` and a later state `s2` when nothing was
registered in between: a slot that locks in `s2` locked to the same observer in
`s`, and every invocation made in between is of an observer that a slot locked
to in `s`. -/
structure State.evolves (s s2 : State) : Prop where
  lock_of_lock : ∀ i l, s2.lock i = some l → s.lock i = some l
  invoked : ∃ new, s2.invoked = s.invoked ++ new ∧
    ∀ inv ∈ new, ∃ l, s.lock inv.task.weak_observer = some l ∧ l.observer = inv.observer

/-- What a dispatching call or a closure leaves in place between `s` and `s2`
when only the observers in `u` unregister themselves: the slots that lock to
other observers, and what was spawned, stored and invoked before. -/
structure State.keeps (u : List Observer) (s s2 : State) : Prop where
  lock_kept : ∀ i l, s.lock i = some l → l.observer ∉ u → s2.lock i = some l
  spawned_kept : ∀ t ∈ s.spawned, t ∈ s2.spawned
  pending_kept : ∀ t ∈ s.pending, t ∈ s2.pending
  invoked_kept : ∀ inv ∈ s.invoked, inv ∈ s2.invoked

/-- No `WeakObserver` on the heap locks to `o`. -/
def State.unlockable (s : State) (o : Observer) : Prop :=
  ∀ i l, s.lock i = some l → l.observer ≠ o

/-- Common shape of the loops of `for_each_observer` and `for_single_observer`
when they are run by a thread that holds `held`: the entries whose locked
observer satisfies `sel` get a closure spawned. -/
def dispatch_loop_held (u : List Observer) (held : Held) (sel : Observer → Bool)
    (n : Notification) (call : Nat) : List Nat → State → Ending Outcome
  | [], s => .ended (.returned s)
  | weak_observer :: rest, s =>
    match lock_mutex true held weak_observer with
    | some held1 =>
      match s.lock weak_observer with
      | some observer =>
        if sel observer.observer then
          match spawn_held u held1 s { weak_observer := weak_observer, n := n,
                                       executor := observer.executor, call := call } with
          | some out =>
            match end_of_spawn weak_observer out with
            | .ended (.returned s1) => dispatch_loop_held u held sel n call rest s1
            | ending => ending
          | none => .waits_for_itself
        else
          dispatch_loop_held u held sel n call rest s
      | none => dispatch_loop_held u held sel n call rest s
    | none => .waits_for_itself

/-! ## CompositorReport: data model

Time points and durations are signed 64-bit tick counts in the source.  The
members below compute with exact integers, `Int`, and so describe the runs in
which every value stays in range; the members in 64-bit arithmetic, further
down, wrap every result as the machine does. -/

namespace logging

/-- Modelled from the spec: `CompositorReport::TimePoint`, declared in
`compositor_report.h`, which is not part of the sources at hand.  A time point
is the tick count of the clock since its epoch; the default-constructed
`TimePoint()` is `0`.  Durations are tick counts as well. -/
abbrev TimePoint := Int

/-- Modelled from the spec: number of clock ticks in one microsecond (the clock
counts nanoseconds). -/
def ticks_per_usec : Int := 1000

/-- The constant `min_report_interval`, `std::chrono::seconds(1)`, in ticks. -/
def min_report_interval : Int := 1000000 * ticks_per_usec

/-- The conversion `std::chrono::duration_cast<std::chrono::microseconds>(d).count()`:
whole microseconds, truncated towards zero. -/
def usec (d : Int) : Int :=
  Int.tdiv d ticks_per_usec

/-- The opaque `SubCompositorId`. -/
abbrev SubCompositorId := Nat

/-- Modelled from the spec: `CompositorReport::Instance`, declared in
`compositor_report.h`, which is not part of the sources at hand; the fields are
those `compositor_report.cpp` uses, all zero in a new record. -/
structure Instance where
  start_of_frame : TimePoint := 0
  end_of_frame : TimePoint := 0
  total_time_sum : TimePoint := 0
  frame_time_sum : TimePoint := 0
  latency_sum : TimePoint := 0
  nframes : Int := 0
  last_reported_total_time_sum : TimePoint := 0
  last_reported_frame_time_sum : TimePoint := 0
  last_reported_latency_sum : TimePoint := 0
  last_reported_nframes : Int := 0
deriving DecidableEq, Repr

/-- A message handed to `Logger::log`, by the values printed into it. -/
inductive Message where
  | added_display (id : SubCompositorId) (width height x y : Int)
  | display_averaged (id : SubCompositorId)
      (frames_per_1000sec avg_frame_time_usec avg_latency_usec dn dt_msec : Int)
  | started
  | stopped
deriving DecidableEq, Repr

/-- The data members of `logging::CompositorReport` that are guarded by its
mutex, and the messages logged so far.  `instances` is the map `instance`, as
its entries in iteration order. -/
structure CompositorReport where
  instances : List (SubCompositorId × Instance)
  last_scheduled : TimePoint
  last_report : TimePoint
  logged : List Message
deriving DecidableEq, Repr

/-- Lookup in the map `instance`. -/
def find (m : List (SubCompositorId × Instance)) (id : SubCompositorId) : Option Instance :=
  match m with
  | [] => none
  | (k, inst) :: rest => if k = id then some inst else find rest id

/-- The record `instance[id]` refers to: the stored one, or the new record
`operator[]` inserts. -/
def record (m : List (SubCompositorId × Instance)) (id : SubCompositorId) : Instance :=
  (find m id).getD {}

/-- Write `inst` through the reference `instance[id]`. -/
def store (m : List (SubCompositorId × Instance)) (id : SubCompositorId) (inst : Instance) :
    List (SubCompositorId × Instance) :=
  match m with
  | [] => [(id, inst)]
  | (k, old) :: rest => if k = id then (k, inst) :: rest else (k, old) :: store rest id inst

/-! ## CompositorReport: operations

Each operation takes the clock sample `t` that its call of `now()` returns.
The members of this section are the members run with a logger whose `log`
returns; with a logger whose `log` may throw they are `added_display_to`,
`started_to`, `stopped_to`, `Instance.log_to` and `finished_frame_to` below,
where the call of `log` comes before the assignments that follow it in the
source. -/

/-- The constructor `CompositorReport(logger, clock)`. -/
def CompositorReport.create (t : TimePoint) : CompositorReport :=
  { instances := [], last_scheduled := 0, last_report := t, logged := [] }

/-- The member `added_display` when the call of `log` returns. -/
def CompositorReport.added_display (r : CompositorReport) (width height x y : Int)
    (id : SubCompositorId) : CompositorReport :=
  { r with logged := r.logged ++ [.added_display id width height x y] }

/-- The member `began_frame`. -/
def CompositorReport.began_frame (r : CompositorReport) (id : SubCompositorId) (t : TimePoint) :
    CompositorReport :=
  let inst := record r.instances id
  { r with
    instances := store r.instances id
      { inst with
        start_of_frame := t
        latency_sum := inst.latency_sum + (t - r.last_scheduled) } }

/-- The values `Instance::log` prints, when it prints. -/
def Instance.summary (inst : Instance) (id : SubCompositorId) : Message :=
  let dt := usec (inst.total_time_sum - inst.last_reported_total_time_sum)
  let dn := inst.nframes - inst.last_reported_nframes
  let df := usec (inst.frame_time_sum - inst.last_reported_frame_time_sum)
  let dl := usec (inst.latency_sum - inst.last_reported_latency_sum)
  let frames_per_1000sec := if dt ≠ 0 then Int.tdiv (dn * 1000000000) dt else 0
  let avg_frame_time_usec := if dn ≠ 0 then Int.tdiv df dn else 0
  let avg_latency_usec := if dn ≠ 0 then Int.tdiv dl dn else 0
  let dt_msec := Int.tdiv dt 1000
  .display_averaged id frames_per_1000sec avg_frame_time_usec avg_latency_usec dn dt_msec

/-- The member `Instance::log` when the call of `log` returns: the messages it
logs and the record afterwards. -/
def Instance.log (inst : Instance) (id : SubCompositorId) : List Message × Instance :=
  (if inst.last_reported_total_time_sum > 0 then [inst.summary id] else [],
   { inst with
     last_reported_total_time_sum := inst.total_time_sum
     last_reported_frame_time_sum := inst.frame_time_sum
     last_reported_latency_sum := inst.latency_sum
     last_reported_nframes := inst.nframes })

/-- The loop `for (auto& i : instance) i.second.log(*logger, i.first)`. -/
def log_all : List (SubCompositorId × Instance) →
    List Message × List (SubCompositorId × Instance)
  | [] => ([], [])
  | (id, inst) :: rest =>
    let r := inst.log id
    let tail := log_all rest
    (r.1 ++ tail.1, (id, r.2) :: tail.2)

/-- The member `finished_frame` when every call of `log` returns. -/
def CompositorReport.finished_frame (r : CompositorReport) (id : SubCompositorId)
    (t : TimePoint) : CompositorReport :=
  let inst := record r.instances id
  let r1 := { r with
    instances := store r.instances id
      { inst with
        total_time_sum := inst.total_time_sum + (t - inst.end_of_frame)
        frame_time_sum := inst.frame_time_sum + (t - inst.start_of_frame)
        end_of_frame := t
        nframes := inst.nframes + 1 } }
  if t - r1.last_report ≥ min_report_interval then
    let pass := log_all r1.instances
    { r1 with last_report := t, instances := pass.2, logged := r1.logged ++ pass.1 }
  else
    r1

/-- The member `started` when the call of `log` returns. -/
def CompositorReport.started (r : CompositorReport) : CompositorReport :=
  { r with logged := r.logged ++ [.started] }

/-- The member `stopped` when the call of `log` returns. -/
def CompositorReport.stopped (r : CompositorReport) : CompositorReport :=
  { r with logged := r.logged ++ [.stopped], instances := [] }

/-- The member `scheduled`. -/
def CompositorReport.scheduled (r : CompositorReport) (t : TimePoint) : CompositorReport :=
  { r with last_scheduled := t }

/-! ## Vocabulary for the statements about the report -/

/-- The first half of `finished_frame`: the frame that ends at `t` is added to
the record of `id`. -/
def CompositorReport.account_frame (r : CompositorReport) (id : SubCompositorId)
    (t : TimePoint) : CompositorReport :=
  { r with
    instances := store r.instances id
      { record r.instances id with
        total_time_sum := (record r.instances id).total_time_sum +
          (t - (record r.instances id).end_of_frame)
        frame_time_sum := (record r.instances id).frame_time_sum +
          (t - (record r.instances id).start_of_frame)
        end_of_frame := t
        nframes := (record r.instances id).nframes + 1 } }

/-- The second half of `finished_frame`, the report pass: the body of
`if ((t - last_report) >= min_report_interval)`. -/
def CompositorReport.report_pass (r : CompositorReport) (t : TimePoint) : CompositorReport :=
  { r with
    last_report := t
    instances := (log_all r.instances).2
    logged := r.logged ++ (log_all r.instances).1 }

/-- The four `last_reported_*` values of a record. -/
def Instance.baselines (inst : Instance) : TimePoint × TimePoint × TimePoint × Int :=
  (inst.last_reported_total_time_sum, inst.last_reported_frame_time_sum,
    inst.last_reported_latency_sum, inst.last_reported_nframes)

/-- The four accumulated values of a record. -/
def Instance.sums (inst : Instance) : TimePoint × TimePoint × TimePoint × Int :=
  (inst.total_time_sum, inst.frame_time_sum, inst.latency_sum, inst.nframes)

/-- A call of a member function of `CompositorReport`, with the clock sample
its `now()` returns when it takes one. -/
inductive Call where
  | added_display (width height x y : Int) (id : SubCompositorId)
  | began_frame (id : SubCompositorId) (t : TimePoint)
  | finished_frame (id : SubCompositorId) (t : TimePoint)
  | started
  | stopped
  | scheduled (t : TimePoint)
deriving DecidableEq, Repr

/-- Effect of one call. -/
def CompositorReport.call (r : CompositorReport) : Call → CompositorReport
  | .added_display width height x y id => r.added_display width height x y id
  | .began_frame id t => r.began_frame id t
  | .finished_frame id t => r.finished_frame id t
  | .started => r.started
  | .stopped => r.stopped
  | .scheduled t => r.scheduled t

/-- Effect of a sequence of calls. -/
def CompositorReport.calls (r : CompositorReport) (cs : List Call) : CompositorReport :=
  cs.foldl CompositorReport.call r

/-- The reading of the clock after the calls `cs`, when it read `now` before. -/
def clock_after (now : TimePoint) : List Call → TimePoint
  | [] => now
  | .began_frame _ t :: rest => clock_after t rest
  | .finished_frame _ t :: rest => clock_after t rest
  | .scheduled t :: rest => clock_after t rest
  | _ :: rest => clock_after now rest

/-- Whether the clock sampled by the calls `cs` is monotonic: no sample is
earlier than the sample before it, the first not earlier than `now`. -/
def monotonic (now : TimePoint) : List Call → Prop
  | [] => True
  | .began_frame _ t :: rest => now ≤ t ∧ monotonic t rest
  | .finished_frame _ t :: rest => now ≤ t ∧ monotonic t rest
  | .scheduled t :: rest => now ≤ t ∧ monotonic t rest
  | _ :: rest => monotonic now rest

/-- The C++ quotient `a / b` of signed integers: not defined for a zero divisor,
truncated towards zero otherwise. -/
def checked_div (a b : Int) : Option Int :=
  if b = 0 then none else some (Int.tdiv a b)

/-- The values `Instance::log` prints, computed with every division checked
for a zero divisor. -/
def Instance.summary_checked (inst : Instance) (id : SubCompositorId) : Option Message := do
  let dt ← checked_div (inst.total_time_sum - inst.last_reported_total_time_sum) ticks_per_usec
  let dn := inst.nframes - inst.last_reported_nframes
  let df ← checked_div (inst.frame_time_sum - inst.last_reported_frame_time_sum) ticks_per_usec
  let dl ← checked_div (inst.latency_sum - inst.last_reported_latency_sum) ticks_per_usec
  let frames_per_1000sec ← if dt ≠ 0 then checked_div (dn * 1000000000) dt else some 0
  let avg_frame_time_usec ← if dn ≠ 0 then checked_div df dn else some 0
  let avg_latency_usec ← if dn ≠ 0 then checked_div dl dn else some 0
  let dt_msec ← checked_div dt 1000
  some (.display_averaged id frames_per_1000sec avg_frame_time_usec avg_latency_usec dn dt_msec)

/-- The record `inst` agrees with a clock that reads `now`: its frame times are
not later than `now` and none of its `last_reported_*` values exceeds the sum
it is the baseline of. -/
def Instance.consistent (now : TimePoint) (inst : Instance) : Prop :=
  inst.start_of_frame ≤ now ∧ inst.end_of_frame ≤ now ∧
  inst.last_reported_total_time_sum ≤ inst.total_time_sum ∧
  inst.last_reported_frame_time_sum ≤ inst.frame_time_sum ∧
  inst.last_reported_latency_sum ≤ inst.latency_sum ∧
  inst.last_reported_nframes ≤ inst.nframes

/-- The report agrees with a clock that reads `now`: the clock's epoch and
`last_scheduled` are not later than `now`, and every record agrees with it. -/
def CompositorReport.consistent (now : TimePoint) (r : CompositorReport) : Prop :=
  0 ≤ now ∧ r.last_scheduled ≤ now ∧ ∀ e ∈ r.instances, e.2.consistent now

/-- Modelled from the spec: the `Logger` interface of `mir/logging/logger.h`,
which is not part of the sources at hand.  What the report can observe of a
logger is for which messages its `log` throws. -/
structure Logger where
  throws : Message → Bool

/-- How a member function of the report ended: it returned, or an exception
left it; either way the effects made so far stay. -/
inductive Completion where
  | returned (r : CompositorReport)
  | threw (r : CompositorReport)
deriving DecidableEq, Repr

/-- The report a member function left. -/
def Completion.report : Completion → CompositorReport
  | .returned r => r
  | .threw r => r

/-- Whether an exception left the member function. -/
def Completion.has_thrown : Completion → Bool
  | .returned _ => false
  | .threw _ => true

/-- The call `logger->log(Logger::informational, message, component)`. -/
def Logger.log (logger : Logger) (r : CompositorReport) (message : Message) : Completion :=
  if logger.throws message then .threw r
  else .returned { r with logged := r.logged ++ [message] }

/-- The member `added_display`, logging to `logger`. -/
def CompositorReport.added_display_to (logger : Logger) (r : CompositorReport)
    (width height x y : Int) (id : SubCompositorId) : Completion :=
  logger.log r (.added_display id width height x y)

/-- The member `started`, logging to `logger`. -/
def CompositorReport.started_to (logger : Logger) (r : CompositorReport) : Completion :=
  logger.log r .started

/-- The member `stopped`, logging to `logger`: the records are cleared after
the call of `log` has returned. -/
def CompositorReport.stopped_to (logger : Logger) (r : CompositorReport) : Completion :=
  match logger.log r .stopped with
  | .returned r1 => .returned { r1 with instances := [] }
  | .threw r1 => .threw r1

/-- The member `Instance::log`, logging to `logger`: `none` when `log` throws,
which is before the baselines are set. -/
def Instance.log_to (logger : Logger) (inst : Instance) (id : SubCompositorId) :
    Option (List Message × Instance) :=
  if inst.last_reported_total_time_sum > 0 ∧ logger.throws (inst.summary id) = true then none
  else some (inst.log id)

/-- The loop `for (auto& i : instance) i.second.log(*logger, i.first)`, logging
to `logger`: the messages logged, the records afterwards, and whether an
exception ended the loop. -/
def log_all_to (logger : Logger) : List (SubCompositorId × Instance) →
    List Message × List (SubCompositorId × Instance) × Bool
  | [] => ([], [], false)
  | (id, inst) :: rest =>
    match inst.log_to logger id with
    | none => ([], (id, inst) :: rest, true)
    | some out =>
      let tail := log_all_to logger rest
      (out.1 ++ tail.1, (id, out.2) :: tail.2.1, tail.2.2)

/-- The member `finished_frame`, logging to `logger`. -/
def CompositorReport.finished_frame_to (logger : Logger) (r : CompositorReport)
    (id : SubCompositorId) (t : TimePoint) : Completion :=
  let inst := record r.instances id
  let r1 := { r with
    instances := store r.instances id
      { inst with
        total_time_sum := inst.total_time_sum + (t - inst.end_of_frame)
        frame_time_sum := inst.frame_time_sum + (t - inst.start_of_frame)
        end_of_frame := t
        nframes := inst.nframes + 1 } }
  if t - r1.last_report ≥ min_report_interval then
    let pass := log_all_to logger r1.instances
    let r2 := { r1 with last_report := t, instances := pass.2.1, logged := r1.logged ++ pass.1 }
    if pass.2.2 then .threw r2 else .returned r2
  else
    .returned r1

/-- The accumulated total time of the record is the time its last frame
ended. -/
def Instance.in_step (inst : Instance) : Prop :=
  inst.total_time_sum = inst.end_of_frame

/-! ## CompositorReport: the members in 64-bit arithmetic

The members above compute with exact integers.  The members of this section
compute as the machine does: every sum, difference and product is wrapped into
the signed 64-bit range, which is what the addition, subtraction and
multiplication of the hardware leave in a `long long` when the exact result
does not fit (the language leaves signed overflow undefined).  `fits` and
`fits_all` below say that a run is free of such overflow in what it stores. -/

/-- The signed 64-bit integer the machine stores for the exact result `x`. -/
def wrap64 (x : Int) : Int :=
  (x + 9223372036854775808) % 18446744073709551616 - 9223372036854775808

/-- Whether `x` is a value of a signed 64-bit integer. -/
def in64 (x : Int) : Bool :=
  decide (-9223372036854775808 ≤ x) && decide (x < 9223372036854775808)

/-- The member `began_frame` in 64-bit arithmetic. -/
def CompositorReport.began_frame64 (r : CompositorReport) (id : SubCompositorId)
    (t : TimePoint) : CompositorReport :=
  let inst := record r.instances id
  { r with
    instances := store r.instances id
      { inst with
        start_of_frame := t
        latency_sum := wrap64 (inst.latency_sum + wrap64 (t - r.last_scheduled)) } }

/-- The local `dt` of `Instance::log` in 64-bit arithmetic. -/
def Instance.dt64 (inst : Instance) : Int :=
  usec (wrap64 (inst.total_time_sum - inst.last_reported_total_time_sum))

/-- The local `dn` of `Instance::log` in 64-bit arithmetic. -/
def Instance.dn64 (inst : Instance) : Int :=
  wrap64 (inst.nframes - inst.last_reported_nframes)

/-- The local `df` of `Instance::log` in 64-bit arithmetic. -/
def Instance.df64 (inst : Instance) : Int :=
  usec (wrap64 (inst.frame_time_sum - inst.last_reported_frame_time_sum))

/-- The local `dl` of `Instance::log` in 64-bit arithmetic. -/
def Instance.dl64 (inst : Instance) : Int :=
  usec (wrap64 (inst.latency_sum - inst.last_reported_latency_sum))

/-- The values `Instance::log` prints, in 64-bit arithmetic (a `long` has 64
bits as well). -/
def Instance.summary64 (inst : Instance) (id : SubCompositorId) : Message :=
  let dt := inst.dt64
  let dn := inst.dn64
  let df := inst.df64
  let dl := inst.dl64
  let frames_per_1000sec :=
    if dt ≠ 0 then wrap64 (Int.tdiv (wrap64 (dn * 1000000000)) dt) else 0
  let avg_frame_time_usec := if dn ≠ 0 then wrap64 (Int.tdiv df dn) else 0
  let avg_latency_usec := if dn ≠ 0 then wrap64 (Int.tdiv dl dn) else 0
  let dt_msec := Int.tdiv dt 1000
  .display_averaged id frames_per_1000sec avg_frame_time_usec avg_latency_usec dn dt_msec

/-- The member `Instance::log` in 64-bit arithmetic, logging to `logger`: `none`
when `log` throws, which is before the baselines are set. -/
def Instance.log64_to (logger : Logger) (inst : Instance) (id : SubCompositorId) :
    Option (List Message × Instance) :=
  if inst.last_reported_total_time_sum > 0 then
    if logger.throws (inst.summary64 id) then none
    else some ([inst.summary64 id],
      { inst with
        last_reported_total_time_sum := inst.total_time_sum
        last_reported_frame_time_sum := inst.frame_time_sum
        last_reported_latency_sum := inst.latency_sum
        last_reported_nframes := inst.nframes })
  else
    some ([],
      { inst with
        last_reported_total_time_sum := inst.total_time_sum
        last_reported_frame_time_sum := inst.frame_time_sum
        last_reported_latency_sum := inst.latency_sum
        last_reported_nframes := inst.nframes })

/-- The loop `for (auto& i : instance) i.second.log(*logger, i.first)` in 64-bit
arithmetic: the messages logged, the records afterwards, and whether an
exception ended the loop. -/
def log_all64_to (logger : Logger) : List (SubCompositorId × Instance) →
    List Message × List (SubCompositorId × Instance) × Bool
  | [] => ([], [], false)
  | (id, inst) :: rest =>
    match inst.log64_to logger id with
    | none => ([], (id, inst) :: rest, true)
    | some out =>
      let tail := log_all64_to logger rest
      (out.1 ++ tail.1, (id, out.2) :: tail.2.1, tail.2.2)

/-- The member `finished_frame` in 64-bit arithmetic, logging to `logger`. -/
def CompositorReport.finished_frame64_to (logger : Logger) (r : CompositorReport)
    (id : SubCompositorId) (t : TimePoint) : Completion :=
  let inst := record r.instances id
  let r1 := { r with
    instances := store r.instances id
      { inst with
        total_time_sum := wrap64 (inst.total_time_sum + wrap64 (t - inst.end_of_frame))
        frame_time_sum := wrap64 (inst.frame_time_sum + wrap64 (t - inst.start_of_frame))
        end_of_frame := t
        nframes := wrap64 (inst.nframes + 1) } }
  if wrap64 (t - r1.last_report) ≥ min_report_interval then
    let pass := log_all64_to logger r1.instances
    let r2 := { r1 with last_report := t, instances := pass.2.1, logged := r1.logged ++ pass.1 }
    if pass.2.2 then .threw r2 else .returned r2
  else
    .returned r1

/-- How one call ends in 64-bit arithmetic, with the logger `logger`. -/
def CompositorReport.call64_to (logger : Logger) (r : CompositorReport) : Call → Completion
  | .added_display width height x y id => r.added_display_to logger width height x y id
  | .began_frame id t => .returned (r.began_frame64 id t)
  | .finished_frame id t => r.finished_frame64_to logger id t
  | .started => r.started_to logger
  | .stopped => r.stopped_to logger
  | .scheduled t => .returned (r.scheduled t)

/-- The report after a sequence of calls in 64-bit arithmetic, each made on the
report the call before it left, whether that call returned or threw. -/
def CompositorReport.calls64_to (logger : Logger) (r : CompositorReport) (cs : List Call) :
    CompositorReport :=
  cs.foldl (fun r1 c => (r1.call64_to logger c).report) r

/-- Whether the call `c` on the report `r` is free of signed overflow in what it
stores and tests: the exact value of every sum and difference that
`began_frame` and `finished_frame` compute is a signed 64-bit integer. -/
def CompositorReport.fits (r : CompositorReport) : Call → Bool
  | .began_frame id t =>
    in64 (t - r.last_scheduled) &&
    in64 ((record r.instances id).latency_sum + (t - r.last_scheduled))
  | .finished_frame id t =>
    in64 (t - (record r.instances id).end_of_frame) &&
    in64 ((record r.instances id).total_time_sum + (t - (record r.instances id).end_of_frame)) &&
    in64 (t - (record r.instances id).start_of_frame) &&
    in64 ((record r.instances id).frame_time_sum +
      (t - (record r.instances id).start_of_frame)) &&
    in64 ((record r.instances id).nframes + 1) &&
    in64 (t - r.last_report)
  | _ => true

/-- Whether each of the calls `cs`, made one after the other in 64-bit
arithmetic with the logger `logger`, is free of signed overflow in what it
stores and tests. -/
def CompositorReport.fits_all (logger : Logger) (r : CompositorReport) : List Call → Bool
  | [] => true
  | c :: rest => r.fits c && (r.call64_to logger c).report.fits_all logger rest

/-- The baselines of the record are not before the epoch and its sums are
signed 64-bit integers not below them. -/
def Instance.bounded (inst : Instance) : Prop :=
  0 ≤ inst.last_reported_total_time_sum ∧ 0 ≤ inst.last_reported_frame_time_sum ∧
  0 ≤ inst.last_reported_latency_sum ∧ 0 ≤ inst.last_reported_nframes ∧
  inst.total_time_sum < 9223372036854775808 ∧ inst.frame_time_sum < 9223372036854775808 ∧
  inst.latency_sum < 9223372036854775808 ∧ inst.nframes < 9223372036854775808

end logging

/-! ## C++ strings and exceptions

A `char` is its code, a natural number below 256; a `std::string` is the list
of its characters, and a C string (`char const*`) is the list of the characters
before its terminating NUL. -/

/-- The characters of a piece of ASCII text. -/
def chars (s : String) : List Nat :=
  s.toList.map Char.toNat

/-- The exceptions thrown by the functions embedded below. -/
inductive Exception where
  | logic_error
  | out_of_range
deriving DecidableEq, Repr

/-- How the run of a function with a loop ended within the number of loop
iterations it was allowed: it returned a value, an exception left it, or the
loop was still running. -/
inductive Run (α : Type) where
  | returned (a : α)
  | threw (e : Exception)
  | unfinished
deriving DecidableEq, Repr

/-- Conversion to `uint32_t`. -/
def to_uint32 (x : Int) : Nat :=
  (x % 4294967296).toNat

/-- The character a string holds at index `i`, for `i` up to its length: the
terminating NUL of a C string sits at index `length`, and `operator[]` of a
`std::string` yields NUL there. -/
def char_at (s : List Nat) (i : Nat) : Nat :=
  s.getD i 0

/-! ## DRM formats (`src/platform/graphics/drm_formats.cpp`) -/

namespace graphics

/-- Modelled from the spec: the `DRM_FORMAT_*` codes of the system header
`drm_fourcc.h`, which is not part of the sources at hand.  Each macro stands for
a 32-bit code of its own; the codes that `formats` uses are kept by name. -/
inductive Fourcc where
  | DRM_FORMAT_INVALID
  | DRM_FORMAT_ARGB8888
  | DRM_FORMAT_XRGB8888
  | DRM_FORMAT_XRGB4444
  | DRM_FORMAT_XBGR4444
  | DRM_FORMAT_RGBX4444
  | DRM_FORMAT_BGRX4444
  | DRM_FORMAT_ARGB4444
  | DRM_FORMAT_ABGR4444
  | DRM_FORMAT_RGBA4444
  | DRM_FORMAT_BGRA4444
  | DRM_FORMAT_XRGB1555
  | DRM_FORMAT_XBGR1555
  | DRM_FORMAT_RGBX5551
  | DRM_FORMAT_BGRX5551
  | DRM_FORMAT_ARGB1555
  | DRM_FORMAT_ABGR1555
  | DRM_FORMAT_RGBA5551
  | DRM_FORMAT_BGRA5551
  | DRM_FORMAT_RGB565
  | DRM_FORMAT_BGR565
  | DRM_FORMAT_RGB888
  | DRM_FORMAT_BGR888
deriving DecidableEq, Repr

/-- The struct `RGBComponentInfo`.  It is declared without an initialiser, so a
bit count that has not been assigned has no value: `none`. -/
structure RGBComponentInfo where
  red_bits : Option Nat := none
  green_bits : Option Nat := none
  blue_bits : Option Nat := none
  alpha_bits : Option Nat := none
deriving DecidableEq, Repr

/-- The struct `FormatInfo`. -/
structure FormatInfo where
  format : Fourcc
  has_alpha : Bool
  opaque_equivalent : Fourcc
  alpha_equivalent : Fourcc
  components : Option RGBComponentInfo := none
deriving DecidableEq, Repr

open Fourcc in
/-- The table `formats`: its entries, key first, in the order of the
initialiser list. -/
def formats : List (Fourcc × FormatInfo) :=
  [ (DRM_FORMAT_ARGB8888, ⟨DRM_FORMAT_ARGB8888, true, DRM_FORMAT_XRGB8888, DRM_FORMAT_ARGB8888, none⟩),
    (DRM_FORMAT_XRGB4444, ⟨DRM_FORMAT_XRGB4444, false, DRM_FORMAT_XRGB4444, DRM_FORMAT_ARGB4444, none⟩),
    (DRM_FORMAT_XBGR4444, ⟨DRM_FORMAT_XBGR4444, false, DRM_FORMAT_XBGR4444, DRM_FORMAT_ABGR4444, none⟩),
    (DRM_FORMAT_RGBX4444, ⟨DRM_FORMAT_RGBX4444, false, DRM_FORMAT_RGBX4444, DRM_FORMAT_RGBA4444, none⟩),
    (DRM_FORMAT_BGRX4444, ⟨DRM_FORMAT_BGRX4444, false, DRM_FORMAT_BGRX4444, DRM_FORMAT_BGRA4444, none⟩),
    (DRM_FORMAT_ARGB4444, ⟨DRM_FORMAT_ARGB4444, true, DRM_FORMAT_XRGB4444, DRM_FORMAT_ARGB4444, none⟩),
    (DRM_FORMAT_ABGR4444, ⟨DRM_FORMAT_ABGR4444, true, DRM_FORMAT_XBGR4444, DRM_FORMAT_ABGR4444, none⟩),
    (DRM_FORMAT_RGBA4444, ⟨DRM_FORMAT_RGBA4444, true, DRM_FORMAT_RGBX4444, DRM_FORMAT_RGBA4444, none⟩),
    (DRM_FORMAT_BGRA4444, ⟨DRM_FORMAT_BGRA4444, true, DRM_FORMAT_BGRX4444, DRM_FORMAT_BGRA4444, none⟩),
    (DRM_FORMAT_XRGB1555, ⟨DRM_FORMAT_XRGB1555, false, DRM_FORMAT_XRGB1555, DRM_FORMAT_ARGB1555, none⟩),
    (DRM_FORMAT_XBGR1555, ⟨DRM_FORMAT_XBGR1555, false, DRM_FORMAT_XBGR1555, DRM_FORMAT_ABGR1555, none⟩),
    (DRM_FORMAT_RGBX5551, ⟨DRM_FORMAT_RGBX5551, false, DRM_FORMAT_RGBX5551, DRM_FORMAT_RGBA5551, none⟩),
    (DRM_FORMAT_BGRX5551, ⟨DRM_FORMAT_BGRX5551, true, DRM_FORMAT_BGRX5551, DRM_FORMAT_BGRA5551, none⟩),
    (DRM_FORMAT_ARGB1555, ⟨DRM_FORMAT_ARGB1555, true, DRM_FORMAT_XRGB1555, DRM_FORMAT_ARGB1555, none⟩),
    (DRM_FORMAT_ABGR1555, ⟨DRM_FORMAT_ABGR1555, true, DRM_FORMAT_XBGR1555, DRM_FORMAT_ABGR1555, none⟩),
    (DRM_FORMAT_RGBA5551, ⟨DRM_FORMAT_RGBA5551, true, DRM_FORMAT_RGBX5551, DRM_FORMAT_RGBA5551, none⟩),
    (DRM_FORMAT_BGRA5551, ⟨DRM_FORMAT_BGRA5551, true, DRM_FORMAT_BGRX5551, DRM_FORMAT_BGRA5551, none⟩),
    (DRM_FORMAT_RGB565, ⟨DRM_FORMAT_RGB565, false, DRM_FORMAT_RGB565, DRM_FORMAT_INVALID, none⟩),
    (DRM_FORMAT_BGR565, ⟨DRM_FORMAT_BGR565, false, DRM_FORMAT_BGR565, DRM_FORMAT_INVALID, none⟩),
    (DRM_FORMAT_RGB888, ⟨DRM_FORMAT_RGB888, false, DRM_FORMAT_RGB888, DRM_FORMAT_INVALID, none⟩),
    (DRM_FORMAT_BGR888, ⟨DRM_FORMAT_BGR888, false, DRM_FORMAT_BGR888, DRM_FORMAT_INVALID, none⟩) ]

/-- Whether the alpha flag of an entry agrees with its equivalents: `has_alpha`
is true exactly when the format is its own `alpha_equivalent`, and false exactly
when it is its own `opaque_equivalent`. -/
def FormatInfo.flag_agrees (info : FormatInfo) : Bool :=
  (info.has_alpha == decide (info.alpha_equivalent = info.format)) &&
  ((!info.has_alpha) == decide (info.opaque_equivalent = info.format))

/-- The function `is_component_name`. -/
def is_component_name (c : Nat) : Bool :=
  c == 'R'.toNat || c == 'G'.toNat || c == 'B'.toNat ||
  c == 'Y'.toNat || c == 'U'.toNat || c == 'V'.toNat ||
  c == 'A'.toNat || c == 'X'.toNat || c == 'C'.toNat

/-- The function `component_index`: the index of the first occurrence of
`component` in the C string. -/
def component_index (component : Nat) : List Nat → Option Nat
  | [] => none
  | c :: rest =>
    if c = component then some 0 else (component_index component rest).map (· + 1)

/-- The first loop of `parse_rgb_component_sizes`,
`while (is_component_name(*component)) ++component;`: the index it leaves
`component` at. -/
def skip_component_names : List Nat → Nat
  | [] => 0
  | c :: rest => if is_component_name c then skip_component_names rest + 1 else 0

/-- The start of the body of the second loop of `parse_rgb_component_sizes`:
the declaration of `parsed_count` and the `if` with the `switch`.  Returns
`parsed_count` and the index `component` is left at. -/
def parse_count (specifier : List Nat) (component : Nat) : Except Exception (Nat × Nat) :=
  let parsed_count := to_uint32 ((char_at specifier component : Int) - ('0'.toNat : Int))
  if parsed_count = 1 ∧ char_at specifier (component + 1) ≠ 0 then
    if char_at specifier (component + 1) = '5'.toNat then
      .ok (parsed_count, component)
    else if char_at specifier (component + 1) = '0'.toNat ∨
        char_at specifier (component + 1) = '6'.toNat then
      .ok (to_uint32 ((to_uint32 ((parsed_count : Int) * 10) : Int) +
            ((char_at specifier (component + 1) : Int) - ('0'.toNat : Int))),
          component + 1)
    else
      .error .logic_error
  else
    .ok (parsed_count, component)

/-- The end of the body of the second loop of `parse_rgb_component_sizes`: the
chain of `if (red_index == component_num) ... else if ...`. -/
def assign_component (red_index green_index blue_index : Int) (alpha_index : Option Int)
    (component_num : Int) (parsed_count : Nat) (info : RGBComponentInfo) : RGBComponentInfo :=
  if red_index = component_num then { info with red_bits := some parsed_count }
  else if green_index = component_num then { info with green_bits := some parsed_count }
  else if blue_index = component_num then { info with blue_bits := some parsed_count }
  else if alpha_index = some component_num then { info with alpha_bits := some parsed_count }
  else info

/-- The second loop of `parse_rgb_component_sizes`, `while (*component)`, run
for at most the given number of iterations from the index `component`.  The
body changes `component` and `info`; it does not change `component_num`. -/
def parse_loop (red_index green_index blue_index : Int) (alpha_index : Option Int)
    (specifier : List Nat) (component_num : Int) :
    Nat → Nat → RGBComponentInfo → Run RGBComponentInfo
  | 0, _, _ => .unfinished
  | fuel + 1, component, info =>
    if char_at specifier component = 0 then .returned info
    else
      match parse_count specifier component with
      | .error e => .threw e
      | .ok (parsed_count, component1) =>
        parse_loop red_index green_index blue_index alpha_index specifier component_num
          fuel component1
          (assign_component red_index green_index blue_index alpha_index component_num
            parsed_count info)

/-- The function `parse_rgb_component_sizes`, its second loop run for at most
`fuel` iterations. -/
def parse_rgb_component_sizes (fuel : Nat) (red_index green_index blue_index : Int)
    (alpha_index : Option Int) (component_specifier : List Nat) : Run RGBComponentInfo :=
  parse_loop red_index green_index blue_index alpha_index component_specifier 0
    fuel (skip_component_names component_specifier) {}

/-- The function `info_from_specifier`, by the one field of the `FormatInfo` it
assigns, `components`; the loop of `parse_rgb_component_sizes` is run for at most
`fuel` iterations. -/
def info_from_specifier (fuel : Nat) (component_specifier : List Nat) :
    Run (Option RGBComponentInfo) :=
  let red_index := component_index 'R'.toNat component_specifier
  let green_index := component_index 'G'.toNat component_specifier
  let blue_index := component_index 'B'.toNat component_specifier
  let alpha_index := component_index 'A'.toNat component_specifier
  if (red_index.isSome || green_index.isSome || blue_index.isSome) &&
      ((component_index 'Y'.toNat component_specifier).isSome ||
       (component_index 'U'.toNat component_specifier).isSome ||
       (component_index 'V'.toNat component_specifier).isSome) then
    .threw .logic_error
  else
    match red_index, green_index, blue_index with
    | some r, some g, some b =>
      match parse_rgb_component_sizes fuel r g b (alpha_index.map Int.ofNat)
          component_specifier with
      | .returned components => .returned (some components)
      | .threw e => .threw e
      | .unfinished => .unfinished
    | _, _, _ => .returned none

end graphics

/-! ## Wayland wrapper generator
(`src/server/frontend_wayland/generator/wrapper_generator.cpp`) -/

namespace generator

/-- The character `_`. -/
def underscore : Nat := '_'.toNat

/-- The call `std::toupper(c, std::locale("C"))`. -/
def toupper (c : Nat) : Nat :=
  if 'a'.toNat ≤ c ∧ c ≤ 'z'.toNat then c - 32 else c

/-- The call `s.substr(pos)`: it throws `std::out_of_range` when `pos` exceeds
the size. -/
def substr (s : List Nat) (pos : Nat) : Except Exception (List Nat) :=
  if pos > s.length then .error .out_of_range else .ok (s.drop pos)

/-- The call `s.find(c, pos)`: the index of the first `c` at or after `pos`;
`none` is `npos`. -/
def string_find (c : Nat) : List Nat → Nat → Option Nat
  | [], _ => none
  | x :: rest, 0 => if x = c then some 0 else (string_find c rest 0).map (· + 1)
  | _ :: rest, pos + 1 => (string_find c rest pos).map (· + 1)

/-- The loop of `camel_case_string`, run for at most the given number of
iterations on `camel_cased_name` and `next_underscore_offset`. -/
def camel_case_loop : Nat → List Nat → Option Nat → Run (List Nat)
  | 0, _, _ => .unfinished
  | _ + 1, camel_cased_name, none => .returned camel_cased_name
  | fuel + 1, camel_cased_name, some next_underscore_offset =>
    if next_underscore_offset < camel_cased_name.length then
      match substr camel_cased_name (next_underscore_offset + 2) with
      | .error e => .threw e
      | .ok tail =>
        camel_case_loop fuel
          (camel_cased_name.take next_underscore_offset ++
            [toupper (char_at camel_cased_name (next_underscore_offset + 1))] ++ tail)
          (string_find underscore
            (camel_cased_name.take next_underscore_offset ++
              [toupper (char_at camel_cased_name (next_underscore_offset + 1))] ++ tail)
            next_underscore_offset)
    else
      camel_case_loop fuel camel_cased_name
        (string_find underscore camel_cased_name next_underscore_offset)

/-- The function `camel_case_string`, its loop run for at most `fuel`
iterations. -/
def camel_case_string (fuel : Nat) (name : List Nat) : Run (List Nat) :=
  match substr name 1 with
  | .error e => .threw e
  | .ok rest =>
    camel_case_loop fuel ([toupper (char_at name 0)] ++ rest) (string_find underscore name 0)

/-- The lambda `name_transform` of `main`, for the given prefix
(`protocol_name.find(prefix) == 0` holds exactly when the name starts with the
prefix). -/
def name_transform (fuel : Nat) (pfx protocol_name : List Nat) : Run (List Nat) :=
  let transformed_name :=
    if pfx.isPrefixOf protocol_name then protocol_name.drop pfx.length else protocol_name
  camel_case_string fuel transformed_name

/-- The camel-cased name in the words of the specification: the underscores are
left out, the first character and each character that followed an underscore
are upper-cased, the other characters are unchanged.  `upper` tells whether the
next character is the first one or follows an underscore. -/
def camel_case_spec (upper : Bool) : List Nat → List Nat
  | [] => []
  | c :: rest =>
    if c = underscore then camel_case_spec true rest
    else (if upper then toupper c else c) :: camel_case_spec false rest

end generator

/-! ## Compositor stream

The class `compositor::Stream` is exercised by
`tests/integration-tests/compositor/test_swapping_swappers.cpp`; its own source
is not among the sources at hand. -/

namespace compositor

/-- Identity of a graphics buffer (a null pointer is one of the values). -/
abbrev Buffer := Nat

/-- Modelled from the spec: the class `compositor::Stream` with its buffer
queue, which is not part of the sources at hand.  It records the framedropping
flag, the buffers submitted and not yet handed to the compositor (oldest
first) and the buffer the compositor was handed last.  `submitted` and
`acquired` are history: every buffer submitted, and every buffer handed out as
a new frame, in order. -/
structure Stream where
  framedropping : Bool
  queue : List Buffer
  current : Option Buffer
  submitted : List Buffer
  acquired : List Buffer
deriving DecidableEq, Repr

/-- Modelled from the spec: the constructor of `Stream`, which is not part of
the sources at hand: nothing is queued and nothing has been handed out. -/
def Stream.create : Stream :=
  { framedropping := false, queue := [], current := none, submitted := [], acquired := [] }

/-- Modelled from the spec: `Stream::submit_buffer`, which is not part of the
sources at hand.  With framedropping disabled the buffer queues behind the ones
not yet consumed; with framedropping enabled it replaces them, so that the
consumer sees the most recent frame. -/
def Stream.submit_buffer (s : Stream) (buffer : Buffer) : Stream :=
  { s with
    queue := if s.framedropping then [buffer] else s.queue ++ [buffer]
    submitted := s.submitted ++ [buffer] }

/-- Modelled from the spec: `Stream::lock_compositor_buffer` for one compositor,
which is not part of the sources at hand.  The oldest buffer not yet consumed is
handed out; when there is none, the previous frame is returned again. -/
def Stream.lock_compositor_buffer (s : Stream) : Stream × Option Buffer :=
  match s.queue with
  | buffer :: rest =>
    ({ s with queue := rest, current := some buffer, acquired := s.acquired ++ [buffer] },
     some buffer)
  | [] => (s, s.current)

/-- Modelled from the spec: `Stream::allow_framedropping`, which is not part of
the sources at hand: the flag changes, the buffers in flight stay. -/
def Stream.allow_framedropping (s : Stream) (dropping : Bool) : Stream :=
  { s with framedropping := dropping }

/-- A call of a member function of `Stream`. -/
inductive Call where
  | submit_buffer (buffer : Buffer)
  | lock_compositor_buffer
  | allow_framedropping (dropping : Bool)
deriving DecidableEq, Repr

/-- Effect of one call. -/
def Stream.call (s : Stream) : Call → Stream
  | .submit_buffer buffer => s.submit_buffer buffer
  | .lock_compositor_buffer => s.lock_compositor_buffer.1
  | .allow_framedropping dropping => s.allow_framedropping dropping

/-- Effect of a sequence of calls. -/
def Stream.calls (s : Stream) (cs : List Call) : Stream :=
  cs.foldl Stream.call s

/-- The buffers passed to `submit_buffer` by the calls `cs`, in order. -/
def submissions : List Call → List Buffer
  | [] => []
  | .submit_buffer buffer :: rest => buffer :: submissions rest
  | _ :: rest => submissions rest

/-- The compositor asks for a buffer once for every buffer that waits. -/
def Stream.drain (s : Stream) : Stream :=
  s.calls (List.replicate s.queue.length .lock_compositor_buffer)

/-- What every call keeps, whatever the framedropping flag: the buffer handed
out last is the last of `acquired`; the buffers handed out and waiting are, in
order, among the submitted ones and end with the last submitted one. -/
structure Stream.coherent (s : Stream) : Prop where
  current_eq : s.current = s.acquired.getLast?
  sublist : (s.acquired ++ s.queue).Sublist s.submitted
  last_eq : (s.acquired ++ s.queue).getLast? = s.submitted.getLast?

end compositor

/-! ## Theorems: ObserverMultiplexer -/

section multiplexer

theorem lock_congr {s s1 : State} (hs : s1.slots = s.slots) (he : s1.expired = s.expired)
    (i : Nat) : s1.lock i = s.lock i := by
  simp [State.lock, hs, he]

theorem weak_lock_eq_some {ex : List Observer} {p : WeakPtr} {o : Observer} :
    weak_lock ex p = some o ↔ p = some o ∧ o ∉ ex := by
  cases p with
  | none => simp [weak_lock]
  | some q =>
    by_cases h : q ∈ ex
    · simp only [weak_lock, h, if_true, Option.some.injEq]
      constructor
      · intro h1; cases h1
      · rintro ⟨h1, h2⟩; subst h1; exact absurd h h2
    · simp only [weak_lock, h, if_false, Option.some.injEq]
      constructor
      · intro h1; subst h1; exact ⟨rfl, h⟩
      · rintro ⟨h1, _⟩; exact h1

theorem WeakObserver.lock_some_iff {ex : List Observer} {w : WeakObserver} {l : LockedObserver} :
    w.lock ex = some l ↔ w.observer = some l.observer ∧ l.observer ∉ ex ∧ l.executor = w.executor := by
  unfold WeakObserver.lock
  cases h : weak_lock ex w.observer with
  | none =>
    constructor
    · intro h1; cases h1
    · rintro ⟨h1, h2, -⟩
      have := (@weak_lock_eq_some ex w.observer l.observer).2 ⟨h1, h2⟩
      rw [h] at this; cases this
  | some o =>
    rw [weak_lock_eq_some] at h
    constructor
    · intro h1
      cases h1
      exact ⟨h.1, h.2, rfl⟩
    · rintro ⟨h1, _, h3⟩
      rw [h.1] at h1
      cases l
      simp only [Option.some.injEq, LockedObserver.mk.injEq] at h1 h3 ⊢
      exact ⟨h1, h3.symm⟩

theorem State.lock_eq_some {s : State} {i : Nat} {l : LockedObserver} :
    s.lock i = some l ↔
      ∃ w, s.slots[i]? = some w ∧ w.observer = some l.observer ∧ l.observer ∉ s.expired ∧
        l.executor = w.executor := by
  unfold State.lock
  cases h : s.slots[i]? with
  | none => simp
  | some w => simp [WeakObserver.lock_some_iff]

theorem State.extend_nil (s : State) : s.extend [] [] [] = s := by
  simp [State.extend]

theorem State.extend_extend (s : State) (a b : List Task) (c : List Invocation)
    (a1 b1 : List Task) (c1 : List Invocation) :
    (s.extend a b c).extend a1 b1 c1 = s.extend (a ++ a1) (b ++ b1) (c ++ c1) := by
  simp [State.extend, List.append_assoc]

theorem State.lock_extend (s : State) (a b : List Task) (c : List Invocation) (i : Nat) :
    (s.extend a b c).lock i = s.lock i :=
  lock_congr rfl rfl i

theorem spawn_eq (s : State) (t : Task) (o : LockedObserver)
    (h : s.lock t.weak_observer = some o) :
    spawn s t =
      if t.executor.inline = true then
        if o.observer ∈ t.n.failing then
          .threw (s.extend [t] [] [{ observer := o.observer, task := t }])
        else
          .returned (s.extend [t] [] [{ observer := o.observer, task := t }])
      else
        .returned (s.extend [t] [t] []) := by
  have h1 : State.lock { s with spawned := s.spawned ++ [t] } t.weak_observer = some o := by
    rw [← h]; exact lock_congr rfl rfl _
  unfold spawn Task.run
  simp only [h1]
  cases hi : t.executor.inline <;> simp [hi, State.extend]

theorem dispatch_tasks_congr (sel : Observer → Bool) {s s1 : State}
    (h : ∀ i, s1.lock i = s.lock i) (n : Notification) (c : Nat) (l : List Nat) :
    dispatch_tasks sel s1 n c l = dispatch_tasks sel s n c l := by
  simp [dispatch_tasks, h]

theorem inline_invocations_congr {s s1 : State} (h : ∀ i, s1.lock i = s.lock i)
    (tasks : List Task) : inline_invocations s1 tasks = inline_invocations s tasks := by
  simp [inline_invocations, h]

theorem dispatch_tasks_cons (sel : Observer → Bool) (s : State) (n : Notification) (c : Nat)
    (i : Nat) (l : List Nat) :
    dispatch_tasks sel s n c (i :: l) =
      dispatch_tasks sel s n c [i] ++ dispatch_tasks sel s n c l := by
  show dispatch_tasks sel s n c ([i] ++ l) = _
  simp only [dispatch_tasks, List.filterMap_append]

theorem inline_invocations_append (s : State) (a b : List Task) :
    inline_invocations s (a ++ b) = inline_invocations s a ++ inline_invocations s b := by
  simp [inline_invocations, List.filterMap_append]

theorem dispatch_loop_skip (sel : Observer → Bool) (n : Notification) (c : Nat) (w : Nat)
    (rest : List Nat) (s : State) (h : dispatch_tasks sel s n c [w] = []) :
    dispatch_loop sel n c (w :: rest) s = dispatch_loop sel n c rest s := by
  cases hl : s.lock w with
  | none => simp only [dispatch_loop, hl]
  | some o =>
    cases hsel : sel o.observer with
    | false => simp [dispatch_loop, hl, hsel]
    | true => simp [dispatch_tasks, hl, hsel] at h

theorem dispatch_loop_spec (sel : Observer → Bool) (n : Notification) (c : Nat) :
    ∀ (l : List Nat) (s : State), ∃ visited : List Nat, visited <+: l ∧
      ((dispatch_loop sel n c l s).has_thrown = false → visited = l) ∧
      ((dispatch_loop sel n c l s).has_thrown = true →
        dispatch_tasks sel s n c visited ≠ []) ∧
      (dispatch_loop sel n c l s).state =
        s.extend (dispatch_tasks sel s n c visited)
          ((dispatch_tasks sel s n c visited).filter (fun t => !t.executor.inline))
          (inline_invocations s (dispatch_tasks sel s n c visited)) := by
  intro l
  induction l with
  | nil =>
    intro s
    exact ⟨[], List.prefix_refl _, fun _ => rfl,
      fun h => by simp [dispatch_loop, Outcome.has_thrown] at h, by
      simp [dispatch_loop, Outcome.state, dispatch_tasks, inline_invocations, State.extend]⟩
  | cons w rest ih =>
    intro s
    by_cases hskip : dispatch_tasks sel s n c [w] = []
    · obtain ⟨v, hv, hret, hthr, hst⟩ := ih s
      refine ⟨w :: v, (List.prefix_cons_inj w).2 hv, ?_, ?_, ?_⟩
      · intro h
        rw [dispatch_loop_skip sel n c w rest s hskip] at h
        rw [hret h]
      · intro h
        rw [dispatch_loop_skip sel n c w rest s hskip] at h
        rw [dispatch_tasks_cons sel s n c w v, hskip, List.nil_append]
        exact hthr h
      · rw [dispatch_loop_skip sel n c w rest s hskip, hst,
          dispatch_tasks_cons sel s n c w v, hskip, List.nil_append]
    · cases hl : s.lock w with
      | none => exact absurd (by simp [dispatch_tasks, hl]) hskip
      | some o =>
        cases hsel : sel o.observer with
        | false => exact absurd (by simp [dispatch_tasks, hl, hsel]) hskip
        | true =>
          have h1 : dispatch_tasks sel s n c [w] =
              [{ weak_observer := w, n := n, executor := o.executor, call := c }] := by
            simp [dispatch_tasks, hl, hsel]
          have hne : ∀ v, dispatch_tasks sel s n c (w :: v) ≠ [] := by
            intro v
            rw [dispatch_tasks_cons sel s n c w v, h1]
            simp
          have hsp := spawn_eq s
            { weak_observer := w, n := n, executor := o.executor, call := c } o hl
          have hunf : dispatch_loop sel n c (w :: rest) s =
              match spawn s { weak_observer := w, n := n, executor := o.executor, call := c } with
              | .returned s1 => dispatch_loop sel n c rest s1
              | .threw s1 => .threw s1 := by
            simp only [dispatch_loop, hl, hsel, if_true]
          cases hin : o.executor.inline with
          | true =>
            by_cases hf : o.observer ∈ n.failing
            · simp only [hin, hf, if_true] at hsp
              rw [hsp] at hunf
              refine ⟨[w], by simp, ?_, fun _ => hne [], ?_⟩
              · intro h
                rw [hunf] at h
                simp [Outcome.has_thrown] at h
              · rw [hunf, h1]
                simp [Outcome.state, inline_invocations, hin, hl]
            · simp only [hin, hf, if_true, if_false] at hsp
              rw [hsp] at hunf
              obtain ⟨v, hv, hret, -, hst⟩ := ih (s.extend
                [{ weak_observer := w, n := n, executor := o.executor, call := c }] []
                [{ observer := o.observer,
                   task := { weak_observer := w, n := n, executor := o.executor, call := c } }])
              refine ⟨w :: v, (List.prefix_cons_inj w).2 hv, ?_, fun _ => hne v, ?_⟩
              · intro h
                rw [hunf] at h
                rw [hret h]
              · rw [hunf]
                simp only []
                rw [hst, dispatch_tasks_cons sel s n c w v, h1,
                  dispatch_tasks_congr sel (State.lock_extend s _ _ _),
                  inline_invocations_congr (State.lock_extend s _ _ _),
                  State.extend_extend, inline_invocations_append]
                simp [inline_invocations, hin, hl]
          | false =>
            simp only [hin, if_false, Bool.false_eq_true] at hsp
            rw [hsp] at hunf
            obtain ⟨v, hv, hret, -, hst⟩ := ih (s.extend
              [{ weak_observer := w, n := n, executor := o.executor, call := c }]
              [{ weak_observer := w, n := n, executor := o.executor, call := c }] [])
            refine ⟨w :: v, (List.prefix_cons_inj w).2 hv, ?_, fun _ => hne v, ?_⟩
            · intro h
              rw [hunf] at h
              rw [hret h]
            · rw [hunf]
              simp only []
              rw [hst, dispatch_tasks_cons sel s n c w v, h1,
                dispatch_tasks_congr sel (State.lock_extend s _ _ _),
                inline_invocations_congr (State.lock_extend s _ _ _),
                State.extend_extend, inline_invocations_append]
              simp [inline_invocations, hin, hl]

/-- A dispatching loop is left by an exception only when an entry it selects
is bound to an inline executor and the member function fails on its observer. -/
theorem dispatch_loop_thrown (sel : Observer → Bool) (n : Notification) (c : Nat) :
    ∀ (l : List Nat) (s : State), (dispatch_loop sel n c l s).has_thrown = true →
      ∃ i ∈ l, ∃ o, s.lock i = some o ∧ sel o.observer = true ∧
        o.executor.inline = true ∧ o.observer ∈ n.failing := by
  intro l
  induction l with
  | nil => intro s h; simp [dispatch_loop, Outcome.has_thrown] at h
  | cons w rest ih =>
    intro s h
    have lift : ∀ s1 : State, (∀ i, s1.lock i = s.lock i) →
        (dispatch_loop sel n c rest s1).has_thrown = true →
        ∃ i ∈ w :: rest, ∃ o, s.lock i = some o ∧ sel o.observer = true ∧
          o.executor.inline = true ∧ o.observer ∈ n.failing := by
      intro s1 hs1 h1
      obtain ⟨i, hi, o, ho, h2⟩ := ih s1 h1
      exact ⟨i, List.mem_cons_of_mem _ hi, o, by rw [← hs1]; exact ho, h2⟩
    by_cases hskip : dispatch_tasks sel s n c [w] = []
    · rw [dispatch_loop_skip sel n c w rest s hskip] at h
      exact lift s (fun _ => rfl) h
    · cases hl : s.lock w with
      | none => exact absurd (by simp [dispatch_tasks, hl]) hskip
      | some o =>
        cases hsel : sel o.observer with
        | false => exact absurd (by simp [dispatch_tasks, hl, hsel]) hskip
        | true =>
          have hsp := spawn_eq s
            { weak_observer := w, n := n, executor := o.executor, call := c } o hl
          have hunf : dispatch_loop sel n c (w :: rest) s =
              match spawn s { weak_observer := w, n := n, executor := o.executor, call := c } with
              | .returned s1 => dispatch_loop sel n c rest s1
              | .threw s1 => .threw s1 := by
            simp only [dispatch_loop, hl, hsel, if_true]
          cases hin : o.executor.inline with
          | true =>
            by_cases hf : o.observer ∈ n.failing
            · exact ⟨w, List.mem_cons_self _ _, o, hl, hsel, hin, hf⟩
            · simp only [hin, hf, if_true, if_false] at hsp
              rw [hsp] at hunf
              rw [hunf] at h
              exact lift _ (State.lock_extend s _ _ _) h
          | false =>
            simp only [hin, if_false, Bool.false_eq_true] at hsp
            rw [hsp] at hunf
            rw [hunf] at h
            exact lift _ (State.lock_extend s _ _ _) h

/-- A dispatching loop is left by an exception as soon as an entry it selects
is bound to an inline executor and the member function fails on its observer. -/
theorem dispatch_loop_throws (sel : Observer → Bool) (n : Notification) (c : Nat) :
    ∀ (l : List Nat) (s : State),
      (∃ i ∈ l, ∃ o, s.lock i = some o ∧ sel o.observer = true ∧
        o.executor.inline = true ∧ o.observer ∈ n.failing) →
      (dispatch_loop sel n c l s).has_thrown = true := by
  intro l
  induction l with
  | nil => intro s h; obtain ⟨i, hi, -⟩ := h; cases hi
  | cons w rest ih =>
    intro s h
    obtain ⟨i, hi, o, ho, hsel, hin, hf⟩ := h
    have lift : ∀ s1 : State, (∀ j, s1.lock j = s.lock j) → i ∈ rest →
        (dispatch_loop sel n c rest s1).has_thrown = true :=
      fun s1 hs1 hmem => ih s1 ⟨i, hmem, o, by rw [hs1]; exact ho, hsel, hin, hf⟩
    by_cases hiw : i = w
    · subst hiw
      have hsp := spawn_eq s
        { weak_observer := i, n := n, executor := o.executor, call := c } o ho
      simp only [hin, hf, if_true] at hsp
      simp only [dispatch_loop, ho, hsel, if_true, hsp, Outcome.has_thrown]
    · have hmem : i ∈ rest := by
        rcases List.mem_cons.1 hi with h1 | h1
        · exact absurd h1 hiw
        · exact h1
      by_cases hskip : dispatch_tasks sel s n c [w] = []
      · rw [dispatch_loop_skip sel n c w rest s hskip]
        exact lift s (fun _ => rfl) hmem
      · cases hl : s.lock w with
        | none => exact absurd (by simp [dispatch_tasks, hl]) hskip
        | some o2 =>
          cases hsel2 : sel o2.observer with
          | false => exact absurd (by simp [dispatch_tasks, hl, hsel2]) hskip
          | true =>
            have hsp := spawn_eq s
              { weak_observer := w, n := n, executor := o2.executor, call := c } o2 hl
            have hunf : dispatch_loop sel n c (w :: rest) s =
                match spawn s
                  { weak_observer := w, n := n, executor := o2.executor, call := c } with
                | .returned s1 => dispatch_loop sel n c rest s1
                | .threw s1 => .threw s1 := by
              simp only [dispatch_loop, hl, hsel2, if_true]
            cases hin2 : o2.executor.inline with
            | true =>
              by_cases hf2 : o2.observer ∈ n.failing
              · simp only [hin2, hf2, if_true] at hsp
                rw [hunf, hsp]
                rfl
              · simp only [hin2, hf2, if_true, if_false] at hsp
                rw [hunf, hsp]
                exact lift _ (State.lock_extend s _ _ _) hmem
            | false =>
              simp only [hin2, if_false, Bool.false_eq_true] at hsp
              rw [hunf, hsp]
              exact lift _ (State.lock_extend s _ _ _) hmem

theorem for_each_loop_eq (n : Notification) (c : Nat) :
    ∀ (l : List Nat) (s : State), for_each_loop n c l s = dispatch_loop (fun _ => true) n c l s := by
  intro l
  induction l with
  | nil => intro s; rfl
  | cons w rest ih =>
    intro s
    simp only [for_each_loop, dispatch_loop, if_true, ih]

theorem for_single_loop_eq (target : Observer) (n : Notification) (c : Nat) :
    ∀ (l : List Nat) (s : State),
      for_single_loop target n c l s = dispatch_loop (fun o => decide (o = target)) n c l s := by
  intro l
  induction l with
  | nil => intro s; rfl
  | cons w rest ih =>
    intro s
    simp only [for_single_loop, dispatch_loop, decide_eq_true_eq, ih]

theorem other_live_iff {ex : List Observer} {slots : List WeakObserver} {o : Observer} {i : Nat} :
    other_live ex slots o i = true ↔
      ∃ w p, slots[i]? = some w ∧ weak_lock ex w.observer = some p ∧ p ≠ o := by
  unfold other_live
  cases h : slots[i]? with
  | none => simp
  | some w =>
    cases h2 : weak_lock ex w.observer with
    | none => simp [h2]
    | some p => simp [h2]

theorem weak_lock_none (ex : List Observer) : weak_lock ex none = none := rfl

theorem maybe_reset_of_eq {ex : List Observer} {w : WeakObserver} {o : Observer}
    (hw : weak_lock ex w.observer = some o) :
    (w.maybe_reset ex o).1 = { observer := none, executor := w.executor } := by
  simp [WeakObserver.maybe_reset, hw]

theorem maybe_reset_of_ne {ex : List Observer} {w : WeakObserver} {o : Observer}
    (hw : ¬ weak_lock ex w.observer = some o) :
    (w.maybe_reset ex o).1 = w := by
  simp [WeakObserver.maybe_reset, hw]

theorem other_live_set (ex : List Observer) (slots : List WeakObserver) (o : Observer)
    (c : Nat) (w : WeakObserver) (hc : slots[c]? = some w) (j : Nat) :
    other_live ex (slots.set c (w.maybe_reset ex o).1) o j = other_live ex slots o j := by
  by_cases hw : weak_lock ex w.observer = some o
  · by_cases hj : c = j
    · subst hj
      have hlt : c < slots.length := by
        rcases List.getElem?_eq_some_iff.1 hc with ⟨h, -⟩; exact h
      rw [maybe_reset_of_eq hw]
      simp [other_live, hw, List.getElem?_set, hlt, hc, weak_lock_none]
    · simp [other_live, List.getElem?_set, hj]
  · rw [maybe_reset_of_ne hw]
    have : slots.set c w = slots := by
      apply List.ext_getElem?
      intro k
      by_cases hk : c = k
      · subst hk
        have hlt : c < slots.length := by
          rcases List.getElem?_eq_some_iff.1 hc with ⟨h, -⟩; exact h
        simp [List.getElem?_set, hlt, hc]
      · simp [List.getElem?_set, hk]
    rw [this]

theorem maybe_reset_flag (ex : List Observer) (slots : List WeakObserver) (o : Observer)
    (c : Nat) (w : WeakObserver) (hc : slots[c]? = some w) :
    (w.maybe_reset ex o).2 = !other_live ex slots o c := by
  unfold WeakObserver.maybe_reset other_live
  simp only [hc]
  cases h : weak_lock ex w.observer with
  | none => simp
  | some p =>
    by_cases hp : p = o
    · simp [hp]
    · simp [hp]

theorem remove_if_maybe_reset_spec (ex : List Observer) (o : Observer) :
    ∀ (l : List Nat) (slots : List WeakObserver),
      (remove_if_maybe_reset ex o l slots).1 = l.filter (other_live ex slots o) ∧
      ∀ i, (remove_if_maybe_reset ex o l slots).2[i]? = (slots[i]?).map (reset_slot ex o l i) := by
  intro l
  induction l with
  | nil =>
    intro slots
    refine ⟨rfl, fun i => ?_⟩
    cases h : slots[i]? <;> simp [remove_if_maybe_reset, reset_slot, h]
  | cons c rest ih =>
    intro slots
    cases hc : slots[c]? with
    | none =>
      have h0 : other_live ex slots o c = false := by simp [other_live, hc]
      obtain ⟨ih1, ih2⟩ := ih slots
      refine ⟨by simp [remove_if_maybe_reset, hc, ih1, List.filter_cons, h0], fun i => ?_⟩
      simp only [remove_if_maybe_reset, hc, ih2]
      cases hi : slots[i]? with
      | none => rfl
      | some w =>
        have hne : i ≠ c := by rintro rfl; rw [hc] at hi; cases hi
        simp [reset_slot, hne]
    | some w =>
      obtain ⟨ih1, ih2⟩ := ih (slots.set c (w.maybe_reset ex o).1)
      have hlt : c < slots.length := by
        rcases List.getElem?_eq_some_iff.1 hc with ⟨h, -⟩; exact h
      have hfilter : rest.filter (other_live ex (slots.set c (w.maybe_reset ex o).1) o) =
          rest.filter (other_live ex slots o) := by
        congr 1
        funext j
        exact other_live_set ex slots o c w hc j
      constructor
      · simp only [remove_if_maybe_reset, hc, ih1, hfilter, List.filter_cons,
          maybe_reset_flag ex slots o c w hc]
        cases other_live ex slots o c <;> simp
      · intro i
        simp only [remove_if_maybe_reset, hc, ih2, List.getElem?_set]
        by_cases hi : c = i
        · subst hi
          simp only [hlt, if_true, hc, Option.map_some']
          by_cases hw : weak_lock ex w.observer = some o
          · rw [maybe_reset_of_eq hw]
            simp [reset_slot, hw, weak_lock_none]
          · rw [maybe_reset_of_ne hw]
            simp [reset_slot, hw]
        · simp only [hi, if_false]
          cases h : slots[i]? with
          | none => rfl
          | some w2 =>
            have : i ≠ c := fun h => hi h.symm
            simp [reset_slot, this]

/-- What a dispatching call does, for either of the two loops. -/
theorem dispatch_call_spec (sel : Observer → Bool) (n : Notification) (s : State) :
    ∃ visited : List Nat, visited <+: s.observers ∧
      ((dispatch_loop sel n s.calls s.observers { s with calls := s.calls + 1 }).has_thrown = false →
        visited = s.observers) ∧
      ((dispatch_loop sel n s.calls s.observers { s with calls := s.calls + 1 }).has_thrown = true →
        dispatch_tasks sel s n s.calls visited ≠ []) ∧
      (dispatch_loop sel n s.calls s.observers { s with calls := s.calls + 1 }).state =
        State.extend { s with calls := s.calls + 1 }
          (dispatch_tasks sel s n s.calls visited)
          ((dispatch_tasks sel s n s.calls visited).filter (fun t => !t.executor.inline))
          (inline_invocations s (dispatch_tasks sel s n s.calls visited)) := by
  obtain ⟨v, hv, hret, hthr, hst⟩ :=
    dispatch_loop_spec sel n s.calls s.observers { s with calls := s.calls + 1 }
  have hl : ∀ i, State.lock { s with calls := s.calls + 1 } i = s.lock i :=
    fun i => lock_congr rfl rfl i
  refine ⟨v, hv, hret, ?_, ?_⟩
  · intro h
    rw [← dispatch_tasks_congr sel hl]
    exact hthr h
  · rw [hst, dispatch_tasks_congr sel hl, inline_invocations_congr hl]

theorem mem_dispatch_tasks {sel : Observer → Bool} {s : State} {n : Notification} {c : Nat}
    {l : List Nat} {t : Task} :
    t ∈ dispatch_tasks sel s n c l ↔
      t.weak_observer ∈ l ∧ t.n = n ∧ t.call = c ∧
        ∃ o, s.lock t.weak_observer = some o ∧ sel o.observer = true ∧ t.executor = o.executor := by
  simp only [dispatch_tasks, List.mem_filterMap]
  constructor
  · rintro ⟨i, hi, h⟩
    cases hl : s.lock i with
    | none => simp [hl] at h
    | some o =>
      cases hsel : sel o.observer with
      | false => simp [hl, hsel] at h
      | true =>
        simp only [hl, hsel, if_true, Option.some.injEq] at h
        subst h
        exact ⟨hi, rfl, rfl, o, hl, hsel, rfl⟩
  · rintro ⟨hi, hn, hc, o, hl, hsel, he⟩
    refine ⟨t.weak_observer, hi, ?_⟩
    simp only [hl, hsel, if_true, Option.some.injEq]
    cases t
    simp only [Task.mk.injEq] at *
    exact ⟨trivial, hn.symm, he.symm, hc.symm⟩

theorem mem_inline_invocations {s : State} {tasks : List Task} {inv : Invocation} :
    inv ∈ inline_invocations s tasks ↔
      inv.task ∈ tasks ∧ inv.task.executor.inline = true ∧
        ∃ o, s.lock inv.task.weak_observer = some o ∧ o.observer = inv.observer := by
  simp only [inline_invocations, List.mem_filterMap]
  constructor
  · rintro ⟨t, ht, h⟩
    cases hin : t.executor.inline with
    | false => simp [hin] at h
    | true =>
      cases hl : s.lock t.weak_observer with
      | none => simp [hin, hl] at h
      | some o =>
        simp only [hin, hl, if_true, Option.map_some', Option.some.injEq] at h
        subst h
        exact ⟨ht, hin, o, hl, rfl⟩
  · rintro ⟨ht, hin, o, hl, ho⟩
    refine ⟨inv.task, ht, ?_⟩
    simp only [hin, hl, if_true, Option.map_some', Option.some.injEq]
    cases inv
    simp only [Invocation.mk.injEq] at *
    exact ⟨ho, trivial⟩

theorem run_pending_eq (s : State) (k : Nat) :
    run_pending s k =
      match s.pending[k]? with
      | some t =>
        match s.lock t.weak_observer with
        | some o =>
          { s with pending := s.pending.eraseIdx k
                   invoked := s.invoked ++ [{ observer := o.observer, task := t }] }
        | none => { s with pending := s.pending.eraseIdx k }
      | none => s := by
  unfold run_pending
  cases hk : s.pending[k]? with
  | none => rfl
  | some t =>
    have h1 : State.lock { s with pending := s.pending.eraseIdx k } t.weak_observer =
        s.lock t.weak_observer := lock_congr rfl rfl _
    simp only [Task.run, h1]
    cases hl : s.lock t.weak_observer with
    | none => rfl
    | some o =>
      by_cases hf : o.observer ∈ t.n.failing <;> simp [hf, Outcome.state]

theorem run_pending_none (s : State) (k : Nat) (hk : s.pending[k]? = none) :
    run_pending s k = s := by
  rw [run_pending_eq, hk]

theorem run_pending_dead (s : State) (k : Nat) (t : Task) (hk : s.pending[k]? = some t)
    (hl : s.lock t.weak_observer = none) :
    run_pending s k = { s with pending := s.pending.eraseIdx k } := by
  rw [run_pending_eq, hk]
  simp only [hl]

theorem run_pending_live (s : State) (k : Nat) (t : Task) (o : LockedObserver)
    (hk : s.pending[k]? = some t) (hl : s.lock t.weak_observer = some o) :
    run_pending s k =
      { s with pending := s.pending.eraseIdx k
               invoked := s.invoked ++ [{ observer := o.observer, task := t }] } := by
  rw [run_pending_eq, hk]
  simp only [hl]

/-- The state a dispatching action leaves. -/
theorem step_dispatch (s : State) (a : Action)
    (ha : (∃ n, a = .for_each n) ∨ (∃ target n, a = .for_single target n)) :
    ∃ (sel : Observer → Bool) (n : Notification) (visited : List Nat),
      visited <+: s.observers ∧
      step s a = State.extend { s with calls := s.calls + 1 }
          (dispatch_tasks sel s n s.calls visited)
          ((dispatch_tasks sel s n s.calls visited).filter (fun t => !t.executor.inline))
          (inline_invocations s (dispatch_tasks sel s n s.calls visited)) := by
  rcases ha with ⟨n, rfl⟩ | ⟨target, n, rfl⟩
  · obtain ⟨v, hv, -, -, hst⟩ := dispatch_call_spec (fun _ => true) n s
    refine ⟨fun _ => true, n, v, hv, ?_⟩
    rw [← hst]
    simp only [step, for_each_observer, for_each_loop_eq]
  · obtain ⟨v, hv, -, -, hst⟩ := dispatch_call_spec (fun o => decide (o = target)) n s
    refine ⟨fun o => decide (o = target), n, v, hv, ?_⟩
    rw [← hst]
    simp only [step, for_single_observer, for_single_loop_eq]

theorem unregister_interest_observers (s : State) (o : Observer) :
    (unregister_interest s o).observers = s.observers.filter (other_live s.expired s.slots o) :=
  (remove_if_maybe_reset_spec s.expired o s.observers s.slots).1

theorem unregister_interest_slots (s : State) (o : Observer) (i : Nat) :
    (unregister_interest s o).slots[i]? =
      (s.slots[i]?).map (reset_slot s.expired o s.observers i) :=
  (remove_if_maybe_reset_spec s.expired o s.observers s.slots).2 i

theorem step_dispatch_or (_s : State) (a : Action) :
    (∃ observer executor, a = .register observer executor) ∨
    (∃ observer, a = .register_default observer) ∨
    (∃ observer, a = .unregister observer) ∨
    (∃ o, a = .expire o) ∨ (∃ k, a = .run k) ∨
    ((∃ n, a = .for_each n) ∨ (∃ target n, a = .for_single target n)) := by
  cases a with
  | register observer executor => exact Or.inl ⟨_, _, rfl⟩
  | register_default observer => exact Or.inr (Or.inl ⟨_, rfl⟩)
  | unregister observer => exact Or.inr (Or.inr (Or.inl ⟨_, rfl⟩))
  | for_each n => exact Or.inr (Or.inr (Or.inr (Or.inr (Or.inr (Or.inl ⟨_, rfl⟩)))))
  | for_single t n => exact Or.inr (Or.inr (Or.inr (Or.inr (Or.inr (Or.inr ⟨_, _, rfl⟩)))))
  | expire o => exact Or.inr (Or.inr (Or.inr (Or.inl ⟨_, rfl⟩)))
  | run k => exact Or.inr (Or.inr (Or.inr (Or.inr (Or.inl ⟨_, rfl⟩))))

theorem run_pending_slots (s : State) (k : Nat) :
    (run_pending s k).slots = s.slots ∧ (run_pending s k).expired = s.expired ∧
      (run_pending s k).observers = s.observers := by
  cases hk : s.pending[k]? with
  | none => rw [run_pending_none s k hk]; exact ⟨rfl, rfl, rfl⟩
  | some t =>
    cases hl : s.lock t.weak_observer with
    | none => rw [run_pending_dead s k t hk hl]; exact ⟨rfl, rfl, rfl⟩
    | some o => rw [run_pending_live s k t o hk hl]; exact ⟨rfl, rfl, rfl⟩

/-- A step keeps every `WeakObserver` on the heap, with its executor, and its
weak pointer either kept or reset. -/
theorem step_slots (s : State) (a : Action) (i : Nat) (w : WeakObserver)
    (h : s.slots[i]? = some w) :
    ∃ w1, (step s a).slots[i]? = some w1 ∧ w1.executor = w.executor ∧
      (w1.observer = w.observer ∨ w1.observer = none) := by
  have hlt : i < s.slots.length := by
    rcases List.getElem?_eq_some_iff.1 h with ⟨h1, -⟩; exact h1
  have same : ∀ s1 : State, s1.slots = s.slots →
      ∃ w1, s1.slots[i]? = some w1 ∧ w1.executor = w.executor ∧
        (w1.observer = w.observer ∨ w1.observer = none) :=
    fun s1 h1 => ⟨w, by rw [h1, h], rfl, Or.inl rfl⟩
  have reg : ∀ x : WeakObserver, (s.slots ++ [x])[i]? = some w := by
    intro x; rw [List.getElem?_append_left hlt, h]
  rcases step_dispatch_or s a with ⟨p, e, rfl⟩ | ⟨p, rfl⟩ | ⟨p, rfl⟩ | ⟨p, rfl⟩ | ⟨k, rfl⟩ | hd
  · exact ⟨w, reg _, rfl, Or.inl rfl⟩
  · exact ⟨w, reg _, rfl, Or.inl rfl⟩
  · refine ⟨reset_slot s.expired p s.observers i w, ?_, ?_, ?_⟩
    · simp only [step]; rw [unregister_interest_slots, h]; rfl
    · unfold reset_slot; split <;> rfl
    · unfold reset_slot; split
      · exact Or.inr rfl
      · exact Or.inl rfl
  · exact same _ rfl
  · exact same _ (run_pending_slots s k).1
  · obtain ⟨sel, n, v, -, hst⟩ := step_dispatch s a hd
    exact same _ (by rw [hst]; rfl)

theorem step_expired (s : State) (a : Action) (o : Observer) (h : o ∈ s.expired) :
    o ∈ (step s a).expired := by
  rcases step_dispatch_or s a with ⟨p, e, rfl⟩ | ⟨p, rfl⟩ | ⟨p, rfl⟩ | ⟨p, rfl⟩ | ⟨k, rfl⟩ | hd
  · exact h
  · exact h
  · exact h
  · exact List.mem_cons_of_mem _ h
  · rw [show (step s (.run k)).expired = s.expired from (run_pending_slots s k).2.1]; exact h
  · obtain ⟨sel, n, v, -, hst⟩ := step_dispatch s a hd
    rw [hst]; exact h

/-- A `WeakObserver` that a step adds to the heap comes from a registration. -/
theorem step_new_slot (s : State) (a : Action) (i : Nat) (w : WeakObserver) (o : Observer)
    (h0 : s.slots[i]? = none) (h1 : (step s a).slots[i]? = some w) (h2 : w.observer = some o) :
    a.registers o = true := by
  have same : ∀ s1 : State, s1.slots = s.slots → s1.slots[i]? = some w → False := by
    intro s1 e h; rw [e, h0] at h; cases h
  have reg : ∀ x : WeakObserver, (s.slots ++ [x])[i]? = some w → x = w := by
    intro x hx
    have hge : s.slots.length ≤ i := by
      by_contra hlt
      push_neg at hlt
      rw [List.getElem?_eq_getElem hlt] at h0; cases h0
    rw [List.getElem?_append_right hge] at hx
    cases hk : i - s.slots.length with
    | zero => rw [hk] at hx; simpa using hx
    | succ m => rw [hk] at hx; simp at hx
  rcases step_dispatch_or s a with ⟨p, e, rfl⟩ | ⟨p, rfl⟩ | ⟨p, rfl⟩ | ⟨p, rfl⟩ | ⟨k, rfl⟩ | hd
  · have := reg _ h1
    subst this
    simp only [Action.registers]
    simpa using h2
  · have := reg _ h1
    subst this
    simp only [Action.registers]
    simpa using h2
  · simp only [step] at h1
    rw [unregister_interest_slots, h0] at h1
    cases h1
  · exact (same _ rfl h1).elim
  · exact (same _ (run_pending_slots s k).1 h1).elim
  · obtain ⟨sel, n, v, -, hst⟩ := step_dispatch s a hd
    exact (same _ (by rw [hst]; rfl) h1).elim

/-- Every invocation a step makes is on the observer that the `WeakObserver`
of the closure locks to at that moment. -/
theorem step_invoked (s : State) (a : Action) :
    ∃ new, (step s a).invoked = s.invoked ++ new ∧
      ∀ inv ∈ new, ∃ l, s.lock inv.task.weak_observer = some l ∧ l.observer = inv.observer := by
  rcases step_dispatch_or s a with ⟨p, e, rfl⟩ | ⟨p, rfl⟩ | ⟨p, rfl⟩ | ⟨p, rfl⟩ | ⟨k, rfl⟩ | hd
  · exact ⟨[], by simp [step, register_interest], by simp⟩
  · exact ⟨[], by simp [step, register_interest, register_interest_default], by simp⟩
  · exact ⟨[], by simp [step, unregister_interest], by simp⟩
  · exact ⟨[], by simp [step, expire], by simp⟩
  · simp only [step]
    cases hk : s.pending[k]? with
    | none => rw [run_pending_none s k hk]; exact ⟨[], by simp, by simp⟩
    | some t =>
      cases hl : s.lock t.weak_observer with
      | none => rw [run_pending_dead s k t hk hl]; exact ⟨[], by simp, by simp⟩
      | some o =>
        rw [run_pending_live s k t o hk hl]
        refine ⟨[{ observer := o.observer, task := t }], rfl, ?_⟩
        intro inv hinv
        rw [List.mem_singleton] at hinv
        subst hinv
        exact ⟨o, hl, rfl⟩
  · obtain ⟨sel, n, v, -, hst⟩ := step_dispatch s a hd
    refine ⟨inline_invocations s (dispatch_tasks sel s n s.calls v), by rw [hst]; rfl, ?_⟩
    intro inv hinv
    obtain ⟨-, -, o, ho, ho2⟩ := mem_inline_invocations.1 hinv
    exact ⟨o, ho, ho2⟩

/-- Locking a `WeakObserver` that was on the heap before a step succeeds after
the step only if it succeeded before, with the same result. -/
theorem step_lock (s : State) (a : Action) (i : Nat) (l : LockedObserver)
    (hi : i < s.slots.length) (h : (step s a).lock i = some l) : s.lock i = some l := by
  obtain ⟨w1, hw1, ho, hx, he⟩ := State.lock_eq_some.1 h
  obtain ⟨w2, hw2, hexec, hobs⟩ := step_slots s a i (s.slots[i]) (List.getElem?_eq_getElem hi)
  rw [hw1] at hw2
  cases hw2
  refine State.lock_eq_some.2 ⟨s.slots[i], List.getElem?_eq_getElem hi, ?_, ?_, ?_⟩
  · rcases hobs with h1 | h1
    · rw [← h1]; exact ho
    · rw [h1] at ho; cases ho
  · exact fun hmem => hx (step_expired s a _ hmem)
  · rw [he, hexec]

theorem step_slots_length (s : State) (a : Action) :
    s.slots.length ≤ (step s a).slots.length := by
  by_contra hlt
  push_neg at hlt
  cases hn : s.slots.length with
  | zero => omega
  | succ m =>
    have hm : m < s.slots.length := by omega
    obtain ⟨w1, hw1, -⟩ := step_slots s a m (s.slots[m]) (List.getElem?_eq_getElem hm)
    rcases List.getElem?_eq_some_iff.1 hw1 with ⟨h1, -⟩
    omega

theorem lock_lt {s : State} {i : Nat} {l : LockedObserver} (h : s.lock i = some l) :
    i < s.slots.length := by
  obtain ⟨w, hw, -⟩ := State.lock_eq_some.1 h
  rcases List.getElem?_eq_some_iff.1 hw with ⟨h1, -⟩
  exact h1

theorem run_actions_cons (s : State) (a : Action) (acts : List Action) :
    run_actions s (a :: acts) = run_actions (step s a) acts := rfl

theorem run_actions_append (s : State) (a b : List Action) :
    run_actions s (a ++ b) = run_actions (run_actions s a) b := by
  simp [run_actions, List.foldl_append]

/-- Invocations made along a run, from an invariant of the steps of the run. -/
theorem run_actions_invoked (P : State → Prop) (allowed : Action → Prop)
    (good : Invocation → Prop)
    (hstep : ∀ s a, allowed a → P s → P (step s a))
    (hgood : ∀ s inv l, P s → s.lock inv.task.weak_observer = some l →
      l.observer = inv.observer → good inv) :
    ∀ (acts : List Action) (s : State), (∀ a ∈ acts, allowed a) → P s →
      ∃ new, (run_actions s acts).invoked = s.invoked ++ new ∧ ∀ inv ∈ new, good inv := by
  intro acts
  induction acts with
  | nil => intro s _ _; exact ⟨[], by simp [run_actions], by simp⟩
  | cons a rest ih =>
    intro s hall hP
    obtain ⟨new1, h1, h2⟩ := step_invoked s a
    obtain ⟨new2, h3, h4⟩ := ih (step s a) (fun b hb => hall b (List.mem_cons_of_mem _ hb))
      (hstep s a (hall a (List.mem_cons_self _ _)) hP)
    refine ⟨new1 ++ new2, by rw [run_actions_cons, h3, h1, List.append_assoc], ?_⟩
    intro inv hinv
    rcases List.mem_append.1 hinv with h | h
    · obtain ⟨l, hl, ho⟩ := h2 inv h
      exact hgood s inv l hP hl ho
    · exact h4 inv h

theorem step_well_formed (s : State) (a : Action) (h : s.well_formed) :
    (step s a).well_formed := by
  obtain ⟨h1, h2⟩ := h
  have hlen := step_slots_length s a
  have same : ∀ s1 : State, s1.slots = s.slots → s1.expired = s.expired →
      s1.observers = s.observers → ∀ i l, s1.lock i = some l → i ∈ s1.observers := by
    intro s1 e1 e2 e3 i l hl
    rw [lock_congr e1 e2] at hl
    rw [e3]; exact h1 i l hl
  rcases step_dispatch_or s a with ⟨p, e, rfl⟩ | ⟨p, rfl⟩ | ⟨p, rfl⟩ | ⟨p, rfl⟩ | ⟨k, rfl⟩ | hd
  · refine ⟨fun i l hl => ?_, fun t ht => lt_of_lt_of_le (h2 t ht) hlen⟩
    have hi := lock_lt hl
    simp only [step, register_interest, List.length_append, List.length_singleton] at hi ⊢
    by_cases hlt : i < s.slots.length
    · exact List.mem_append_left _ (h1 i l (step_lock s (.register p e) i l hlt hl))
    · have : i = s.slots.length := by omega
      rw [this]; simp
  · refine ⟨fun i l hl => ?_, fun t ht => lt_of_lt_of_le (h2 t ht) hlen⟩
    have hi := lock_lt hl
    simp only [step, register_interest_default, register_interest, List.length_append,
      List.length_singleton] at hi ⊢
    by_cases hlt : i < s.slots.length
    · exact List.mem_append_left _ (h1 i l (step_lock s (.register_default p) i l hlt hl))
    · have : i = s.slots.length := by omega
      rw [this]; simp
  · refine ⟨fun i l hl => ?_, fun t ht => lt_of_lt_of_le (h2 t ht) hlen⟩
    obtain ⟨w1, hw1, ho, hx, he⟩ := State.lock_eq_some.1 hl
    simp only [step] at hw1 ⊢
    rw [unregister_interest_slots] at hw1
    cases hw : s.slots[i]? with
    | none => rw [hw] at hw1; cases hw1
    | some w =>
      rw [hw] at hw1
      simp only [Option.map_some', Option.some.injEq] at hw1
      have hlt : i < s.slots.length := by
        rcases List.getElem?_eq_some_iff.1 hw with ⟨h, -⟩; exact h
      have hold := step_lock s (.unregister p) i l hlt hl
      have hmem := h1 i l hold
      rw [unregister_interest_observers, List.mem_filter]
      refine ⟨hmem, other_live_iff.2 ⟨w, l.observer, hw, ?_, ?_⟩⟩
      · obtain ⟨w2, hw2, ho2, hx2, -⟩ := State.lock_eq_some.1 hold
        rw [hw] at hw2; cases hw2
        exact weak_lock_eq_some.2 ⟨ho2, hx2⟩
      · intro heq
        obtain ⟨w2, hw2, ho2, hx2, -⟩ := State.lock_eq_some.1 hold
        rw [hw] at hw2; cases hw2
        have hwl : weak_lock s.expired w.observer = some p := by
          rw [← heq]; exact weak_lock_eq_some.2 ⟨ho2, hx2⟩
        have : reset_slot s.expired p s.observers i w = { w with observer := none } := by
          simp [reset_slot, hmem, hwl]
        rw [this] at hw1
        rw [← hw1] at ho
        cases ho
  · refine ⟨fun i l hl => ?_, fun t ht => lt_of_lt_of_le (h2 t ht) hlen⟩
    exact h1 i l (step_lock s (.expire p) i l (lt_of_lt_of_le (lock_lt hl) (le_of_eq rfl)) hl)
  · obtain ⟨e1, e2, e3⟩ := run_pending_slots s k
    refine ⟨same _ e1 e2 e3, fun t ht => ?_⟩
    simp only [step, e1] at ht ⊢
    apply h2
    cases hk : s.pending[k]? with
    | none => rw [run_pending_none s k hk] at ht; exact ht
    | some t0 =>
      have hsub : ∀ x ∈ s.pending.eraseIdx k, x ∈ s.pending :=
        fun x hx => (List.eraseIdx_sublist s.pending k).subset hx
      cases hl : s.lock t0.weak_observer with
      | none => rw [run_pending_dead s k t0 hk hl] at ht; exact hsub t ht
      | some o => rw [run_pending_live s k t0 o hk hl] at ht; exact hsub t ht
  · obtain ⟨sel, n, v, -, hst⟩ := step_dispatch s a hd
    rw [hst]
    refine ⟨same _ rfl rfl rfl, fun t ht => ?_⟩
    simp only [State.extend, List.mem_append, List.mem_filter] at ht
    rcases ht with ht | ⟨ht, -⟩
    · exact h2 t ht
    · obtain ⟨-, -, -, o, ho, -⟩ := mem_dispatch_tasks.1 ht
      exact lock_lt ho

theorem init_well_formed (d : Executor) : (init d).well_formed := by
  constructor
  · intro i l hl
    simp [State.lock, init] at hl
  · intro t ht
    simp [init] at ht

theorem run_actions_well_formed : ∀ (acts : List Action) (s : State), s.well_formed →
    (run_actions s acts).well_formed := by
  intro acts
  induction acts with
  | nil => intro s h; exact h
  | cons a rest ih => intro s h; exact ih (step s a) (step_well_formed s a h)

theorem unregister_interest_lock (s : State) (O : Observer) (h : s.well_formed)
    (i : Nat) (l : LockedObserver) (hl : (unregister_interest s O).lock i = some l) :
    l.observer ≠ O := by
  have hwf : (unregister_interest s O).well_formed := step_well_formed s (.unregister O) h
  have hmem := hwf.1 i l hl
  rw [unregister_interest_observers, List.mem_filter] at hmem
  obtain ⟨w, p, hw, hp, hne⟩ := other_live_iff.1 hmem.2
  obtain ⟨w1, hw1, ho, -, -⟩ := State.lock_eq_some.1 hl
  rw [unregister_interest_slots, hw] at hw1
  simp only [Option.map_some', Option.some.injEq] at hw1
  have hkeep : reset_slot s.expired O s.observers i w = w := by
    have : ¬ weak_lock s.expired w.observer = some O := by
      rw [hp]; intro h; cases h; exact hne rfl
    simp [reset_slot, this]
  rw [hkeep] at hw1
  subst hw1
  have := (weak_lock_eq_some.1 hp).1
  rw [this] at ho
  cases ho
  exact hne

/-- C1: once `unregister_interest(O)` has returned, a closure that was stored
by an executor before the call does not invoke `O` when it runs, an invocation
of `O` can only come through an entry registered after the call returned, and
when `O` is not registered again nothing invokes `O`. -/
theorem unregistered_observer_is_not_invoked (d : Executor) (before after : List Action)
    (O : Observer) :
    ∃ new,
      (run_actions (unregister_interest (run_actions (init d) before) O) after).invoked =
        (unregister_interest (run_actions (init d) before) O).invoked ++ new ∧
      (∀ inv ∈ new, inv.task ∈ (run_actions (init d) before).pending → inv.observer ≠ O) ∧
      (∀ inv ∈ new, inv.observer = O →
        (unregister_interest (run_actions (init d) before) O).slots.length ≤
          inv.task.weak_observer) ∧
      ((∀ a ∈ after, a.registers O = false) → ∀ inv ∈ new, inv.observer ≠ O) := by
  have hwf0 : (run_actions (init d) before).well_formed :=
    run_actions_well_formed before _ (init_well_formed d)
  generalize run_actions (init d) before = s0 at hwf0 ⊢
  have hbase := unregister_interest_lock s0 O hwf0
  have hpend : ∀ t ∈ s0.pending, t.weak_observer < (unregister_interest s0 O).slots.length :=
    fun t ht => lt_of_lt_of_le (hwf0.2 t ht) (step_slots_length s0 (.unregister O))
  generalize unregister_interest s0 O = s1 at hbase hpend ⊢
  obtain ⟨new, hnew, hgood⟩ := run_actions_invoked
    (fun s => s1.slots.length ≤ s.slots.length ∧
      ∀ i l, i < s1.slots.length → s.lock i = some l → l.observer ≠ O)
    (fun _ => True)
    (fun inv => inv.observer = O → s1.slots.length ≤ inv.task.weak_observer)
    (fun s a _ hP => ⟨le_trans hP.1 (step_slots_length s a), fun i l hi hl =>
      hP.2 i l hi (step_lock s a i l (lt_of_lt_of_le hi hP.1) hl)⟩)
    (fun s inv l hP hl ho hO => by
      by_contra hlt
      push_neg at hlt
      exact hP.2 _ l hlt hl (ho.trans hO))
    after s1 (fun _ _ => trivial) ⟨le_refl _, fun i l _ hl => hbase i l hl⟩
  refine ⟨new, hnew, ?_, hgood, ?_⟩
  · intro inv hinv hmem hO
    have := hgood inv hinv hO
    have := hpend inv.task hmem
    omega
  · intro hreg
    obtain ⟨new2, hnew2, hgood2⟩ := run_actions_invoked
      (fun s => ∀ i l, s.lock i = some l → l.observer ≠ O)
      (fun a => a.registers O = false)
      (fun inv => inv.observer ≠ O)
      (fun s a ha hP i l hl => by
        by_cases hi : i < s.slots.length
        · exact hP i l (step_lock s a i l hi hl)
        · obtain ⟨w, hw, ho, -, -⟩ := State.lock_eq_some.1 hl
          have h0 : s.slots[i]? = none := List.getElem?_eq_none (by omega)
          intro hO
          have := step_new_slot s a i w l.observer h0 hw ho
          rw [hO, ha] at this
          cases this)
      (fun s inv l hP hl ho => by intro hO; exact hP _ l hl (ho.trans hO))
      after s1 hreg hbase
    rw [hnew] at hnew2
    have := List.append_cancel_left hnew2
    subst this
    exact hgood2

/-- C1, at a concrete run: observer 7 is registered, a broadcast stores its
closure, 7 is unregistered, then the closure runs and a second broadcast is
made. -/
theorem unregistered_observer_is_not_invoked_witness :
    (∀ a ∈ [Action.run 0, Action.for_each ⟨2, []⟩], a.registers 7 = false) ∧
    ∃ new,
      (run_actions (unregister_interest (run_actions (init ⟨0, false⟩)
          [.register (some 7) ⟨0, false⟩, .for_each ⟨1, []⟩]) 7)
          [.run 0, .for_each ⟨2, []⟩]).invoked =
        (unregister_interest (run_actions (init ⟨0, false⟩)
          [.register (some 7) ⟨0, false⟩, .for_each ⟨1, []⟩]) 7).invoked ++ new ∧
      ∀ inv ∈ new, inv.observer ≠ 7 := by
  refine ⟨by decide, ?_⟩
  obtain ⟨new, h1, -, -, h4⟩ := unregistered_observer_is_not_invoked ⟨0, false⟩
    [.register (some 7) ⟨0, false⟩, .for_each ⟨1, []⟩] [.run 0, .for_each ⟨2, []⟩] 7
  exact ⟨new, h1, h4 (by decide)⟩

/-- C2: after observer `O` was registered and its last strong reference was
dropped, nothing that happens later invokes `O`: no broadcast, however many are
made, and no closure already stored for `O`. -/
theorem expired_observer_is_not_invoked (s : State) (O : Observer) (e : Executor)
    (mid after : List Action) :
    ∃ new,
      (run_actions (expire (run_actions (register_interest s (some O) e) mid) O) after).invoked =
        (expire (run_actions (register_interest s (some O) e) mid) O).invoked ++ new ∧
      ∀ inv ∈ new, inv.observer ≠ O := by
  have hexp : O ∈ (expire (run_actions (register_interest s (some O) e) mid) O).expired :=
    List.mem_cons_self _ _
  generalize expire (run_actions (register_interest s (some O) e) mid) O = s1 at hexp ⊢
  exact run_actions_invoked (fun s => O ∈ s.expired) (fun _ => True)
    (fun inv => inv.observer ≠ O)
    (fun s a _ hP => step_expired s a O hP)
    (fun s inv l hP hl ho => by
      obtain ⟨w, -, -, hx, -⟩ := State.lock_eq_some.1 hl
      intro hO
      rw [← hO, ← ho] at hP
      exact hx hP)
    after s1 (fun _ _ => trivial) hexp

theorem run_actions_lock : ∀ (acts : List Action) (s : State) (i : Nat) (l : LockedObserver),
    i < s.slots.length → (run_actions s acts).lock i = some l → s.lock i = some l := by
  intro acts
  induction acts with
  | nil => intro s i l _ h; exact h
  | cons a rest ih =>
    intro s i l hi h
    exact step_lock s a i l hi
      (ih (step s a) i l (lt_of_lt_of_le hi (step_slots_length s a)) h)

theorem step_slot_kept (s : State) (a : Action) (i : Nat) (w : WeakObserver) (o : Observer)
    (h : s.slots[i]? = some w) (ho : w.observer = some o) (ha : a ≠ .unregister o) :
    ∃ w1, (step s a).slots[i]? = some w1 ∧ w1.observer = some o := by
  by_cases hu : ∃ p, a = .unregister p
  · obtain ⟨p, rfl⟩ := hu
    have hp : p ≠ o := fun e => ha (by rw [e])
    refine ⟨w, ?_, ho⟩
    simp only [step]
    rw [unregister_interest_slots, h]
    have : ¬ weak_lock s.expired w.observer = some p := by
      intro hw
      have := (weak_lock_eq_some.1 hw).1
      rw [ho] at this
      cases this
      exact hp rfl
    simp [reset_slot, this]
  · obtain ⟨w1, hw1, -, hobs⟩ := step_slots s a i w h
    refine ⟨w1, hw1, ?_⟩
    rcases hobs with h1 | h1
    · rw [h1, ho]
    · exfalso
      rcases step_dispatch_or s a with ⟨p, e, rfl⟩ | ⟨p, rfl⟩ | ⟨p, rfl⟩ | ⟨p, rfl⟩ | ⟨k, rfl⟩ | hd
      · have hlt : i < s.slots.length := by
          rcases List.getElem?_eq_some_iff.1 h with ⟨h, -⟩; exact h
        simp only [step, register_interest] at hw1
        rw [List.getElem?_append_left hlt, h] at hw1
        cases hw1; rw [ho] at h1; cases h1
      · have hlt : i < s.slots.length := by
          rcases List.getElem?_eq_some_iff.1 h with ⟨h, -⟩; exact h
        simp only [step, register_interest_default, register_interest] at hw1
        rw [List.getElem?_append_left hlt, h] at hw1
        cases hw1; rw [ho] at h1; cases h1
      · exact hu ⟨p, rfl⟩
      · simp only [step, expire] at hw1
        rw [h] at hw1; cases hw1; rw [ho] at h1; cases h1
      · simp only [step, (run_pending_slots s k).1] at hw1
        rw [h] at hw1; cases hw1; rw [ho] at h1; cases h1
      · obtain ⟨sel, n, v, -, hst⟩ := step_dispatch s a hd
        rw [hst] at hw1
        simp only [State.extend] at hw1
        rw [h] at hw1; cases hw1; rw [ho] at h1; cases h1

theorem run_actions_slot_kept : ∀ (acts : List Action) (s : State) (i : Nat) (w : WeakObserver)
    (o : Observer), s.slots[i]? = some w → w.observer = some o →
    (∀ a ∈ acts, a ≠ .unregister o) →
    ∃ w1, (run_actions s acts).slots[i]? = some w1 ∧ w1.observer = some o := by
  intro acts
  induction acts with
  | nil => intro s i w o h ho _; exact ⟨w, h, ho⟩
  | cons a rest ih =>
    intro s i w o h ho hall
    obtain ⟨w1, hw1, ho1⟩ := step_slot_kept s a i w o h ho (hall a (List.mem_cons_self _ _))
    exact ih (step s a) i w1 o hw1 ho1 (fun b hb => hall b (List.mem_cons_of_mem _ hb))

theorem Task.run_invoked (s : State) (t : Task) :
    (t.run s).state.invoked =
      match s.lock t.weak_observer with
      | some l => s.invoked ++ [{ observer := l.observer, task := t }]
      | none => s.invoked := by
  unfold Task.run
  cases hl : s.lock t.weak_observer with
  | none => rfl
  | some l => by_cases hf : l.observer ∈ t.n.failing <;> simp [hf, Outcome.state]

theorem dispatch_tasks_all_map (s : State) (n : Notification) (c : Nat) (l : List Nat) :
    (dispatch_tasks (fun _ => true) s n c l).map (fun t => t.weak_observer) =
      l.filter (fun i => (s.lock i).isSome) := by
  induction l with
  | nil => rfl
  | cons i rest ih =>
    rw [dispatch_tasks_cons, List.map_append, ih, List.filter_cons]
    cases hl : s.lock i <;> simp [dispatch_tasks, hl]

/-- What a closure built in state `s` for a live entry does when it runs in a
state `s2` reached later. -/
theorem task_run_later (s s1 : State) (acts : List Action) (t : Task) (l : LockedObserver)
    (hs : s1.slots = s.slots) (he : s1.expired = s.expired)
    (hl : s.lock t.weak_observer = some l) :
    (t.run (run_actions s1 acts)).state.invoked =
        (run_actions s1 acts).invoked ++
          (if (run_actions s1 acts).lock t.weak_observer = some l
            then [{ observer := l.observer, task := t }] else []) ∧
    ((run_actions s1 acts).lock t.weak_observer = some l ↔
      l.observer ∉ (run_actions s1 acts).expired ∧
        ∃ w, (run_actions s1 acts).slots[t.weak_observer]? = some w ∧
          w.observer = some l.observer) ∧
    ((∀ a ∈ acts, a ≠ .unregister l.observer) →
      ∃ w, (run_actions s1 acts).slots[t.weak_observer]? = some w ∧
        w.observer = some l.observer) := by
  have hl1 : s1.lock t.weak_observer = some l := by rw [lock_congr hs he]; exact hl
  have hlt : t.weak_observer < s1.slots.length := lock_lt hl1
  obtain ⟨w0, hw0, ho0, -, he0⟩ := State.lock_eq_some.1 hl1
  have hanti := run_actions_lock acts s1 t.weak_observer
  refine ⟨?_, ?_, fun hall => run_actions_slot_kept acts s1 _ w0 _ hw0 ho0 hall⟩
  · rw [Task.run_invoked]
    cases h2 : (run_actions s1 acts).lock t.weak_observer with
    | none => simp
    | some l2 =>
      have := hanti l2 hlt h2
      rw [hl1] at this
      cases this
      simp
  · constructor
    · intro h2
      obtain ⟨w, hw, ho, hx, -⟩ := State.lock_eq_some.1 h2
      exact ⟨hx, w, hw, ho⟩
    · rintro ⟨hx, w, hw, ho⟩
      have h3 : (run_actions s1 acts).lock t.weak_observer =
          some { observer := l.observer, executor := w.executor } :=
        State.lock_eq_some.2 ⟨w, hw, ho, hx, rfl⟩
      have := hanti _ hlt h3
      rw [hl1] at this
      rw [h3, this]

/-- The counterexample to C3: observers 1 and 2 are registered on an inline
executor and the member function fails on 1.  Both entries are live when
`for_each_observer` is called, yet the call, left by the exception, has spawned
a closure for the entry of 1 only: the live entry of 2 gets none. -/
theorem for_each_observer_skips_live_counterexample :
    live_registrations (run_actions (init ⟨0, true⟩)
        [.register_default (some 1), .register_default (some 2)]) = [0, 1] ∧
    (for_each_observer (run_actions (init ⟨0, true⟩)
        [.register_default (some 1), .register_default (some 2)])
        ⟨1, [1]⟩).state.spawned.map (fun t => t.weak_observer) = [0] := by
  decide

/-- C3, amended: a `for_each_observer(f, args...)` call that returns has spawned
exactly one closure per registry entry whose observer was alive, on the
executor of that entry, and none for an entry whose observer had expired;
whenever such a closure runs later it invokes the observer of its entry exactly
when that observer has not expired and the entry has not been reset by
`unregister_interest`, and it invokes nothing otherwise. -/
theorem for_each_observer_submits_to_live (s : State) (n : Notification)
    (h : (for_each_observer s n).has_thrown = false) :
    ∃ tasks,
      (for_each_observer s n).state.spawned = s.spawned ++ tasks ∧
      tasks.map (fun t => t.weak_observer) = live_registrations s ∧
      (∀ t ∈ tasks, t.n = n ∧ ∃ w, s.slots[t.weak_observer]? = some w ∧ t.executor = w.executor) ∧
      ∀ t ∈ tasks, ∀ acts : List Action, ∃ o,
        s.lock t.weak_observer = some { observer := o, executor := t.executor } ∧
        (t.run (run_actions (for_each_observer s n).state acts)).state.invoked =
          (run_actions (for_each_observer s n).state acts).invoked ++
            (if (run_actions (for_each_observer s n).state acts).lock t.weak_observer =
                some { observer := o, executor := t.executor }
              then [{ observer := o, task := t }] else []) ∧
        ((run_actions (for_each_observer s n).state acts).lock t.weak_observer =
            some { observer := o, executor := t.executor } ↔
          o ∉ (run_actions (for_each_observer s n).state acts).expired ∧
            ∃ w, (run_actions (for_each_observer s n).state acts).slots[t.weak_observer]? =
              some w ∧ w.observer = some o) ∧
        ((∀ a ∈ acts, a ≠ .unregister o) →
          ∃ w, (run_actions (for_each_observer s n).state acts).slots[t.weak_observer]? =
            some w ∧ w.observer = some o) := by
  obtain ⟨v, -, hret, -, hst⟩ := dispatch_call_spec (fun _ => true) n s
  have heq : for_each_observer s n =
      dispatch_loop (fun _ => true) n s.calls s.observers { s with calls := s.calls + 1 } := by
    simp only [for_each_observer, for_each_loop_eq]
  rw [← heq] at hret hst
  have hv := hret h
  subst hv
  refine ⟨dispatch_tasks (fun _ => true) s n s.calls s.observers, by rw [hst]; rfl,
    dispatch_tasks_all_map s n s.calls s.observers, ?_, ?_⟩
  · intro t ht
    obtain ⟨-, hn, -, o, ho, -, he⟩ := mem_dispatch_tasks.1 ht
    obtain ⟨w, hw, -, -, he2⟩ := State.lock_eq_some.1 ho
    exact ⟨hn, w, hw, by rw [he, he2]⟩
  · intro t ht acts
    obtain ⟨-, -, -, o, ho, -, he⟩ := mem_dispatch_tasks.1 ht
    have ho2 : s.lock t.weak_observer = some { observer := o.observer, executor := t.executor } := by
      rw [ho, he]
    refine ⟨o.observer, ho2, ?_⟩
    exact task_run_later s (for_each_observer s n).state acts t _
      (by rw [hst]; rfl) (by rw [hst]; rfl) ho2

/-- C3, at a concrete registry: observers 1 and 2 are registered, 2 has
expired; the broadcast returns and spawns one closure, for the entry of 1. -/
theorem for_each_observer_submits_to_live_witness :
    (for_each_observer (run_actions (init ⟨0, false⟩)
        [.register (some 1) ⟨0, false⟩, .register (some 2) ⟨3, true⟩, .expire 2])
        ⟨5, []⟩).has_thrown = false ∧
    ∃ tasks,
      (for_each_observer (run_actions (init ⟨0, false⟩)
        [.register (some 1) ⟨0, false⟩, .register (some 2) ⟨3, true⟩, .expire 2])
        ⟨5, []⟩).state.spawned = tasks ∧
      tasks.map (fun t => t.weak_observer) = [0] := by
  refine ⟨by decide, ?_⟩
  obtain ⟨tasks, h1, h2, -⟩ := for_each_observer_submits_to_live
    (run_actions (init ⟨0, false⟩)
      [.register (some 1) ⟨0, false⟩, .register (some 2) ⟨3, true⟩, .expire 2])
    ⟨5, []⟩ (by decide)
  exact ⟨tasks, by rw [h1]; rfl, by rw [h2]; decide⟩

theorem locks_other_eq (s : State) (o : Observer) (i : Nat) :
    s.locks_other o i = other_live s.expired s.slots o i := by
  unfold State.locks_other other_live State.lock WeakObserver.lock
  cases hs : s.slots[i]? with
  | none => rfl
  | some w =>
    simp only []
    cases hw : weak_lock s.expired w.observer <;> rfl

theorem unregister_interest_kept_slot (s : State) (O : Observer) (i : Nat)
    (h : s.locks_other O i = true) :
    (unregister_interest s O).slots[i]? = s.slots[i]? := by
  rw [locks_other_eq] at h
  obtain ⟨w, p, hw, hp, hne⟩ := other_live_iff.1 h
  rw [unregister_interest_slots, hw]
  have : ¬ weak_lock s.expired w.observer = some O := by
    rw [hp]; intro h; cases h; exact hne rfl
  simp [reset_slot, this]

/-- The counterexample to C4: observer 7 is registered and then expires; no
live registration remains, yet `empty()` returns false. -/
theorem empty_counterexample :
    ¬ (empty (expire (register_interest (init ⟨0, false⟩) (some 7) ⟨0, false⟩) 7) = true ↔
        live_registrations
          (expire (register_interest (init ⟨0, false⟩) (some 7) ⟨0, false⟩) 7) = []) := by
  decide

/-- C4, amended: `empty()` returns true exactly when the registry holds no
entry.  When it returns true no live registration remains; and in the state
that `unregister_interest` leaves, where the entries of expired observers have
been removed, it returns true exactly when no live registration remains. -/
theorem empty_iff_no_entries (s : State) (o : Observer) :
    (empty s = true ↔ s.observers = []) ∧
    (empty s = true → live_registrations s = []) ∧
    (empty (unregister_interest s o) = true ↔
      live_registrations (unregister_interest s o) = []) := by
  have h1 : ∀ s : State, empty s = true ↔ s.observers = [] := by
    intro s; simp [empty, List.isEmpty_iff]
  refine ⟨h1 s, ?_, ?_⟩
  · intro h
    rw [h1] at h
    simp [live_registrations, h]
  · rw [h1]
    have hlive : live_registrations (unregister_interest s o) =
        (unregister_interest s o).observers := by
      unfold live_registrations
      rw [List.filter_eq_self]
      intro i hi
      rw [unregister_interest_observers, List.mem_filter, ← locks_other_eq] at hi
      have hslot := unregister_interest_kept_slot s o i hi.2
      have hlock : (unregister_interest s o).lock i = s.lock i := by
        simp only [State.lock, hslot]
        rfl
      rw [hlock]
      have := hi.2
      unfold State.locks_other at this
      cases hl : s.lock i with
      | none => rw [hl] at this; cases this
      | some l => rfl
    rw [hlive]

/-- C5: after `unregister_interest(O)` no registry entry refers to `O`, the
registry is the old one restricted, in the same order, to the entries that lock
to an observer other than `O`, and the `WeakObserver` of each of these entries,
with its executor, is unchanged. -/
theorem unregister_interest_removes_only (s : State) (O : Observer) :
    (∀ i ∈ (unregister_interest s O).observers, ∀ w,
      (unregister_interest s O).slots[i]? = some w → w.observer ≠ some O) ∧
    (unregister_interest s O).observers = s.observers.filter (s.locks_other O) ∧
    (∀ i l, s.lock i = some l → l.observer ≠ O →
      (unregister_interest s O).slots[i]? = s.slots[i]? ∧
      (unregister_interest s O).lock i = some l) := by
  have hobs : (unregister_interest s O).observers = s.observers.filter (s.locks_other O) := by
    rw [unregister_interest_observers]
    congr 1
    funext i
    exact (locks_other_eq s O i).symm
  have hkeep : ∀ i l, s.lock i = some l → l.observer ≠ O →
      (unregister_interest s O).slots[i]? = s.slots[i]? ∧
      (unregister_interest s O).lock i = some l := by
    intro i l hl hne
    have h1 : s.locks_other O i = true := by
      simp [State.locks_other, hl, hne]
    have hslot := unregister_interest_kept_slot s O i h1
    refine ⟨hslot, ?_⟩
    rw [← hl]
    simp only [State.lock, hslot]
    rfl
  refine ⟨?_, hobs, hkeep⟩
  intro i hi w hw hO
  rw [hobs, List.mem_filter] at hi
  have h2 := hi.2
  rw [unregister_interest_kept_slot s O i h2] at hw
  rw [locks_other_eq] at h2
  obtain ⟨w2, p, hw2, hp, hne⟩ := other_live_iff.1 h2
  rw [hw] at hw2
  cases hw2
  have := (weak_lock_eq_some.1 hp).1
  rw [hO] at this
  cases this
  exact hne rfl

/-- C6: `for_single_observer(target, f, args...)` spawns a closure exactly when
`target` has a live registry entry; every closure it spawns is bound to such an
entry and invokes `target` (at once on an inline executor, when it is run from
the store of a deferring one), and neither the call nor any of its closures,
whenever it runs later, invokes another observer.  When `target` is not
registered nothing is spawned. -/
theorem for_single_observer_only_target (s : State) (target : Observer) (n : Notification) :
    ∃ tasks invs,
      (for_single_observer s target n).state.spawned = s.spawned ++ tasks ∧
      (for_single_observer s target n).state.invoked = s.invoked ++ invs ∧
      (tasks ≠ [] ↔
        ∃ i ∈ s.observers, ∃ e, s.lock i = some { observer := target, executor := e }) ∧
      (∀ inv ∈ invs, inv.observer = target) ∧
      ∀ t ∈ tasks,
        t.weak_observer ∈ s.observers ∧ t.n = n ∧
        s.lock t.weak_observer = some { observer := target, executor := t.executor } ∧
        (t.executor.inline = true → { observer := target, task := t } ∈ invs) ∧
        (t.executor.inline = false →
          t ∈ (for_single_observer s target n).state.pending ∧
          (t.run (for_single_observer s target n).state).state.invoked =
            (for_single_observer s target n).state.invoked ++
              [{ observer := target, task := t }]) ∧
        ∀ acts : List Action,
          (t.run (run_actions (for_single_observer s target n).state acts)).state.invoked =
            (run_actions (for_single_observer s target n).state acts).invoked ++
              (if (run_actions (for_single_observer s target n).state acts).lock
                    t.weak_observer = some { observer := target, executor := t.executor }
                then [{ observer := target, task := t }] else []) := by
  obtain ⟨v, hv, hret, hthr, hst⟩ := dispatch_call_spec (fun o => decide (o = target)) n s
  have heq : for_single_observer s target n =
      dispatch_loop (fun o => decide (o = target)) n s.calls s.observers
        { s with calls := s.calls + 1 } := by
    simp only [for_single_observer, for_single_loop_eq]
  rw [← heq] at hret hthr hst
  have hinfo : ∀ t ∈ dispatch_tasks (fun o => decide (o = target)) s n s.calls v,
      t.weak_observer ∈ s.observers ∧ t.n = n ∧
      s.lock t.weak_observer = some { observer := target, executor := t.executor } := by
    intro t ht
    obtain ⟨hmem, hn, -, o, ho, hsel, he⟩ := mem_dispatch_tasks.1 ht
    refine ⟨hv.subset hmem, hn, ?_⟩
    have : o.observer = target := by simpa using hsel
    rw [ho, he, ← this]
  refine ⟨dispatch_tasks (fun o => decide (o = target)) s n s.calls v,
    inline_invocations s (dispatch_tasks (fun o => decide (o = target)) s n s.calls v),
    by rw [hst]; rfl, by rw [hst]; rfl, ?_, ?_, ?_⟩
  · constructor
    · intro hne
      obtain ⟨t, ht⟩ := List.exists_mem_of_ne_nil _ hne
      obtain ⟨h1, -, h3⟩ := hinfo t ht
      exact ⟨t.weak_observer, h1, t.executor, h3⟩
    · rintro ⟨i, hi, e, hl⟩
      cases hb : (for_single_observer s target n).has_thrown with
      | true => exact hthr hb
      | false =>
        rw [hret hb]
        have : ({ weak_observer := i, n := n, executor := e, call := s.calls } : Task) ∈
            dispatch_tasks (fun o => decide (o = target)) s n s.calls s.observers :=
          mem_dispatch_tasks.2 ⟨hi, rfl, rfl, _, hl, by simp, rfl⟩
        exact List.ne_nil_of_mem this
  · intro inv hinv
    obtain ⟨ht, -, o, ho, ho2⟩ := mem_inline_invocations.1 hinv
    obtain ⟨-, -, h3⟩ := hinfo inv.task ht
    rw [h3] at ho
    cases ho
    exact ho2.symm
  · intro t ht
    obtain ⟨h1, h2, h3⟩ := hinfo t ht
    refine ⟨h1, h2, h3, ?_, ?_, ?_⟩
    · intro hin
      exact mem_inline_invocations.2 ⟨ht, hin, _, h3, rfl⟩
    · intro hin
      have hrun := (task_run_later s (for_single_observer s target n).state [] t _
        (by rw [hst]; rfl) (by rw [hst]; rfl) h3).1
      have hlock : (for_single_observer s target n).state.lock t.weak_observer =
          some { observer := target, executor := t.executor } := by
        rw [← h3]; exact lock_congr (by rw [hst]; rfl) (by rw [hst]; rfl) _
      simp only [run_actions, List.foldl_nil, hlock, if_true] at hrun
      refine ⟨?_, hrun⟩
      rw [hst]
      simp only [State.extend, List.mem_append, List.mem_filter]
      exact Or.inr ⟨ht, by simp [hin]⟩
    · intro acts
      exact (task_run_later s (for_single_observer s target n).state acts t _
        (by rw [hst]; rfl) (by rw [hst]; rfl) h3).1

theorem step_default_executor (s : State) (a : Action) :
    (step s a).default_executor = s.default_executor := by
  rcases step_dispatch_or s a with ⟨p, e, rfl⟩ | ⟨p, rfl⟩ | ⟨p, rfl⟩ | ⟨p, rfl⟩ | ⟨k, rfl⟩ | hd
  · rfl
  · rfl
  · rfl
  · rfl
  · simp only [step]
    cases hk : s.pending[k]? with
    | none => rw [run_pending_none s k hk]
    | some t =>
      cases hl : s.lock t.weak_observer with
      | none => rw [run_pending_dead s k t hk hl]
      | some o => rw [run_pending_live s k t o hk hl]
  · obtain ⟨sel, n, v, -, hst⟩ := step_dispatch s a hd
    rw [hst]; rfl

theorem run_actions_default_executor : ∀ (acts : List Action) (s : State),
    (run_actions s acts).default_executor = s.default_executor := by
  intro acts
  induction acts with
  | nil => intro s; rfl
  | cons a rest ih => intro s; rw [run_actions_cons, ih, step_default_executor]

/-- C7: in every state a multiplexer constructed with `default_executor` can
reach, `register_interest(observer)` leaves exactly the state that
`register_interest(observer, default_executor)` leaves: the old state with one
`WeakObserver`, holding `observer` and the default executor, added to the heap
and to the end of the registry, and every existing entry unchanged. -/
theorem register_interest_default_executor (default_executor : Executor) (acts : List Action)
    (observer : WeakPtr) :
    register_interest_default (run_actions (init default_executor) acts) observer =
      register_interest (run_actions (init default_executor) acts) observer default_executor ∧
    register_interest_default (run_actions (init default_executor) acts) observer =
      { run_actions (init default_executor) acts with
        slots := (run_actions (init default_executor) acts).slots ++
          [{ observer := observer, executor := default_executor }]
        observers := (run_actions (init default_executor) acts).observers ++
          [(run_actions (init default_executor) acts).slots.length] } ∧
    (register_interest_default (run_actions (init default_executor) acts) observer).slots[
        (run_actions (init default_executor) acts).slots.length]? =
      some { observer := observer, executor := default_executor } ∧
    ∀ (i : Nat) (w : WeakObserver),
      (run_actions (init default_executor) acts).slots[i]? = some w →
      (register_interest_default (run_actions (init default_executor) acts) observer).slots[i]? =
        some w := by
  have hd : (run_actions (init default_executor) acts).default_executor = default_executor :=
    run_actions_default_executor acts _
  generalize run_actions (init default_executor) acts = s at hd
  refine ⟨?_, ?_, ?_, ?_⟩
  · rw [register_interest_default, hd]
  · rw [register_interest_default, hd, register_interest]
  · simp [register_interest_default, register_interest, hd]
  · intro i w hw
    have hlt : i < s.slots.length := by
      rcases List.getElem?_eq_some_iff.1 hw with ⟨h, -⟩; exact h
    simp only [register_interest_default, register_interest]
    rw [List.getElem?_append_left hlt, hw]

/-- The counterexample to C8: observers 1 and 2 are registered on an inline
executor and the member function fails on 1; the exception leaves
`for_each_observer` and the live observer 2 is not invoked. -/
theorem for_each_observer_failure_counterexample :
    1 ∈ live_registrations (run_actions (init ⟨0, true⟩)
        [.register_default (some 1), .register_default (some 2)]) ∧
    (for_each_observer (run_actions (init ⟨0, true⟩)
        [.register_default (some 1), .register_default (some 2)]) ⟨1, [1]⟩).has_thrown = true ∧
    ∀ inv ∈ (for_each_observer (run_actions (init ⟨0, true⟩)
        [.register_default (some 1), .register_default (some 2)]) ⟨1, [1]⟩).state.invoked,
      inv.observer ≠ 2 := by
  decide

/-- C8, amended: an exception leaves `for_each_observer` exactly when the
member function fails on a live registered observer whose executor runs its
closure inline.  When the call returns, in particular when every executor
defers the closures it is given, every live registry entry has had its closure
spawned, the closures given to deferring executors are stored whatever they
will do when run, and the observers of the others have been invoked. -/
theorem for_each_observer_returns_unless_inline_failure (s : State) (n : Notification) :
    ((for_each_observer s n).has_thrown = true ↔
      ∃ i ∈ s.observers, ∃ o, s.lock i = some o ∧ o.executor.inline = true ∧
        o.observer ∈ n.failing) ∧
    ((for_each_observer s n).has_thrown = false →
      ∃ tasks,
        (for_each_observer s n).state.spawned = s.spawned ++ tasks ∧
        tasks.map (fun t => t.weak_observer) = live_registrations s ∧
        (for_each_observer s n).state.pending =
          s.pending ++ tasks.filter (fun t => !t.executor.inline) ∧
        ∀ t ∈ tasks, t.executor.inline = true →
          ∃ o, s.lock t.weak_observer = some o ∧
            { observer := o.observer, task := t } ∈ (for_each_observer s n).state.invoked) := by
  obtain ⟨v, -, hret, -, hst⟩ := dispatch_call_spec (fun _ => true) n s
  have heq : for_each_observer s n =
      dispatch_loop (fun _ => true) n s.calls s.observers { s with calls := s.calls + 1 } := by
    simp only [for_each_observer, for_each_loop_eq]
  rw [← heq] at hret hst
  have hlock : ∀ i, State.lock { s with calls := s.calls + 1 } i = s.lock i :=
    fun i => lock_congr rfl rfl i
  refine ⟨⟨?_, ?_⟩, ?_⟩
  · intro hb
    rw [heq] at hb
    obtain ⟨i, hi, o, ho, -, hin, hf⟩ := dispatch_loop_thrown _ n s.calls s.observers _ hb
    exact ⟨i, hi, o, by rw [← hlock]; exact ho, hin, hf⟩
  · rintro ⟨i, hi, o, ho, hin, hf⟩
    rw [heq]
    exact dispatch_loop_throws _ n s.calls s.observers _
      ⟨i, hi, o, by rw [hlock]; exact ho, rfl, hin, hf⟩
  · intro hno
    have hv := hret hno
    subst hv
    refine ⟨dispatch_tasks (fun _ => true) s n s.calls s.observers, by rw [hst]; rfl,
      dispatch_tasks_all_map s n s.calls s.observers, by rw [hst]; rfl, ?_⟩
    intro t ht hin
    obtain ⟨-, -, -, o, ho, -, -⟩ := mem_dispatch_tasks.1 ht
    refine ⟨o, ho, ?_⟩
    rw [hst]
    simp only [State.extend, List.mem_append]
    exact Or.inr (mem_inline_invocations.2 ⟨ht, hin, o, ho, rfl⟩)

/-- C8, amended, at a concrete registry: observers 1 and 2 are registered on a
deferring executor and the member function fails on 1; the call returns and
both closures are stored. -/
theorem for_each_observer_returns_unless_inline_failure_witness :
    (for_each_observer (run_actions (init ⟨0, false⟩)
        [.register_default (some 1), .register_default (some 2)]) ⟨1, [1]⟩).has_thrown = false ∧
    ∃ tasks : List Task,
      (for_each_observer (run_actions (init ⟨0, false⟩)
        [.register_default (some 1), .register_default (some 2)]) ⟨1, [1]⟩).state.pending =
          tasks.filter (fun t => !t.executor.inline) ∧
      tasks.map (fun t => t.weak_observer) = [0, 1] := by
  obtain ⟨tasks, -, h2, h3, -⟩ := (for_each_observer_returns_unless_inline_failure
    (run_actions (init ⟨0, false⟩) [.register_default (some 1), .register_default (some 2)])
    ⟨1, [1]⟩).2 (by decide)
  exact ⟨by decide, tasks, by rw [h3]; rfl, by rw [h2]; decide⟩

theorem step_calls (s : State) (a : Action) : s.calls ≤ (step s a).calls := by
  rcases step_dispatch_or s a with ⟨p, e, rfl⟩ | ⟨p, rfl⟩ | ⟨p, rfl⟩ | ⟨p, rfl⟩ | ⟨k, rfl⟩ | hd
  · exact le_refl _
  · exact le_refl _
  · exact le_refl _
  · exact le_refl _
  · simp only [step]
    cases hk : s.pending[k]? with
    | none => rw [run_pending_none s k hk]
    | some t =>
      cases hl : s.lock t.weak_observer with
      | none => rw [run_pending_dead s k t hk hl]
      | some o => rw [run_pending_live s k t o hk hl]
  · obtain ⟨sel, n, v, -, hst⟩ := step_dispatch s a hd
    rw [hst]
    exact Nat.le_succ _

theorem run_actions_calls : ∀ (acts : List Action) (s : State),
    s.calls ≤ (run_actions s acts).calls := by
  intro acts
  induction acts with
  | nil => intro s; exact le_refl _
  | cons a rest ih => intro s; exact le_trans (step_calls s a) (ih (step s a))

theorem step_for_each_calls (s : State) (n : Notification) :
    (step s (.for_each n)).calls = s.calls + 1 := by
  obtain ⟨sel, n1, v, -, hst⟩ := step_dispatch s (.for_each n) (Or.inl ⟨n, rfl⟩)
  rw [hst]; rfl

theorem init_ordered (X d : Executor) : (init d).ordered X := by
  refine ⟨List.Pairwise.nil, List.Pairwise.nil, ?_, ?_, ?_⟩ <;> simp [init]

theorem pending_split (s : State) (k : Nat) (t : Task) (hk : s.pending[k]? = some t) :
    s.pending = s.pending.take k ++ t :: s.pending.drop (k + 1) := by
  rcases List.getElem?_eq_some_iff.1 hk with ⟨hlt, rfl⟩
  rw [List.getElem_cons_drop]
  exact (List.take_append_drop k s.pending).symm

/-- A step that keeps to the submission order of `X` keeps the closures of `X`
in the order of the dispatching calls. -/
theorem step_ordered (X : Executor) (s : State) (a : Action) (hord : s.ordered X)
    (ha : a.in_order X s = true) : (step s a).ordered X := by
  obtain ⟨h1, h2, h3, h4, h5⟩ := hord
  rcases step_dispatch_or s a with ⟨p, e, rfl⟩ | ⟨p, rfl⟩ | ⟨p, rfl⟩ | ⟨p, rfl⟩ | ⟨k, rfl⟩ | hd
  · exact ⟨h1, h2, h3, h4, h5⟩
  · exact ⟨h1, h2, h3, h4, h5⟩
  · exact ⟨h1, h2, h3, h4, h5⟩
  · exact ⟨h1, h2, h3, h4, h5⟩
  · simp only [step]
    cases hk : s.pending[k]? with
    | none => rw [run_pending_none s k hk]; exact ⟨h1, h2, h3, h4, h5⟩
    | some t =>
      have hsub : (s.pending.eraseIdx k).Sublist s.pending := List.eraseIdx_sublist _ _
      have hmem : t ∈ s.pending := by
        rcases List.getElem?_eq_some_iff.1 hk with ⟨hlt, rfl⟩
        exact List.getElem_mem _
      have hp1 := List.Pairwise.sublist hsub h1
      cases hl : s.lock t.weak_observer with
      | none =>
        rw [run_pending_dead s k t hk hl]
        exact ⟨hp1, h2, fun inv hi u hu => h3 inv hi u (hsub.subset hu),
          fun u hu => h4 u (hsub.subset hu), h5⟩
      | some o =>
        rw [run_pending_live s k t o hk hl]
        refine ⟨hp1, ?_, ?_, fun u hu => h4 u (hsub.subset hu), ?_⟩
        · refine List.pairwise_append.2 ⟨h2, List.pairwise_singleton _ _, ?_⟩
          intro inv hi b hb
          rw [List.mem_singleton] at hb
          subst hb
          exact h3 inv hi t hmem
        · intro inv hi u hu hX hu2
          simp only [List.mem_append, List.mem_singleton] at hi
          rcases hi with hi | hi
          · exact h3 inv hi u (hsub.subset hu) hX hu2
          · subst hi
            simp only at hX ⊢
            simp only [Action.in_order, hk, hX, if_true, List.all_eq_true] at ha
            have hu3 : u ∈ s.pending.take k ++ s.pending.drop (k + 1) := by
              rw [← List.eraseIdx_eq_take_drop_succ]; exact hu
            rcases List.mem_append.1 hu3 with hu4 | hu4
            · have := ha u hu4
              simp [hu2] at this
            · have hsplit := pending_split s k t hk
              rw [hsplit] at h1
              have h6 := (List.pairwise_append.1 h1).2.1
              exact (List.pairwise_cons.1 h6).1 u hu4 hX hu2
        · intro inv hi
          simp only [List.mem_append, List.mem_singleton] at hi
          rcases hi with hi | hi
          · exact h5 inv hi
          · subst hi; exact (h4 t hmem).1
  · obtain ⟨sel, n, v, -, hst⟩ := step_dispatch s a hd
    rw [hst]
    have hT : ∀ t ∈ dispatch_tasks sel s n s.calls v, t.call = s.calls :=
      fun t ht => (mem_dispatch_tasks.1 ht).2.2.1
    have hI : ∀ inv ∈ inline_invocations s (dispatch_tasks sel s n s.calls v),
        inv.task.call = s.calls ∧ inv.task.executor.inline = true := by
      intro inv hinv
      obtain ⟨ht, hin, -⟩ := mem_inline_invocations.1 hinv
      exact ⟨hT _ ht, hin⟩
    refine ⟨?_, ?_, ?_, ?_, ?_⟩
    · refine List.pairwise_append.2 ⟨h1, ?_, ?_⟩
      · refine List.Pairwise.sublist (List.filter_sublist _) ?_
        rw [List.pairwise_iff_forall_sublist]
        intro a b hab _ _
        have ha := hT a (hab.subset (List.mem_cons_self _ _))
        have hb := hT b (hab.subset (List.mem_cons_of_mem _ (List.mem_singleton_self _)))
        omega
      · intro a ha b hb _ _
        have := (h4 a ha).1
        have := hT b (List.mem_filter.1 hb).1
        omega
    · refine List.pairwise_append.2 ⟨h2, ?_, ?_⟩
      · rw [List.pairwise_iff_forall_sublist]
        intro a b hab _ _
        have ha := (hI a (hab.subset (List.mem_cons_self _ _))).1
        have hb := (hI b (hab.subset (List.mem_cons_of_mem _ (List.mem_singleton_self _)))).1
        omega
      · intro a ha b hb _ _
        have := h5 a ha
        have := (hI b hb).1
        omega
    · intro inv hi u hu hX hu2
      simp only [State.extend, List.mem_append] at hi hu
      rcases hi with hi | hi
      · rcases hu with hu | hu
        · exact h3 inv hi u hu hX hu2
        · have := h5 inv hi
          have := hT u (List.mem_filter.1 hu).1
          omega
      · rcases hu with hu | hu
        · have h7 := (h4 u hu).2
          have h8 := (hI inv hi).2
          rw [hX] at h8
          rw [hu2, h8] at h7
          cases h7
        · have := (hI inv hi).1
          have := hT u (List.mem_filter.1 hu).1
          omega
    · intro u hu
      simp only [State.extend, List.mem_append] at hu ⊢
      rcases hu with hu | hu
      · exact ⟨Nat.lt_succ_of_lt (h4 u hu).1, (h4 u hu).2⟩
      · have := hT u (List.mem_filter.1 hu).1
        have h9 := (List.mem_filter.1 hu).2
        refine ⟨by omega, ?_⟩
        simpa using h9
    · intro inv hi
      simp only [State.extend, List.mem_append] at hi ⊢
      rcases hi with hi | hi
      · exact Nat.lt_succ_of_lt (h5 inv hi)
      · have := (hI inv hi).1
        omega

theorem run_actions_ordered (X : Executor) : ∀ (acts : List Action) (s : State),
    s.ordered X → runs_in_order X s acts = true → (run_actions s acts).ordered X := by
  intro acts
  induction acts with
  | nil => intro s h _; exact h
  | cons a rest ih =>
    intro s h hr
    simp only [runs_in_order, Bool.and_eq_true] at hr
    exact ih (step s a) (step_ordered X s a h hr.1) hr.2

/-- C9: `for_each_observer` is called for a notification `n1` and later for a
notification `n2`, and executor `X` runs the closures it is given one at a
time in the order it got them.  Then every invocation of observer `O` made
through `X` for the first call comes before every invocation of `O` made
through `X` for the second call.  (Closures carry the number of the call that
built them: the first call has the number `calls` of the state it starts in.) -/
theorem notifications_in_call_order (d X : Executor) (O : Observer)
    (acts1 acts2 acts3 : List Action) (n1 n2 : Notification)
    (h : runs_in_order X (init d)
      (acts1 ++ .for_each n1 :: (acts2 ++ .for_each n2 :: acts3)) = true) :
    ∀ (i j : Nat) (a b : Invocation),
      (run_actions (init d)
        (acts1 ++ .for_each n1 :: (acts2 ++ .for_each n2 :: acts3))).invoked[i]? = some a →
      (run_actions (init d)
        (acts1 ++ .for_each n1 :: (acts2 ++ .for_each n2 :: acts3))).invoked[j]? = some b →
      a.observer = O → b.observer = O → a.task.executor = X → b.task.executor = X →
      a.task.call = (run_actions (init d) acts1).calls →
      b.task.call = (run_actions (init d) (acts1 ++ .for_each n1 :: acts2)).calls →
      i < j := by
  intro i j a b hi hj _ _ haX hbX hac hbc
  have hord := run_actions_ordered X _ (init d) (init_ordered X d) h
  have hlt : (run_actions (init d) acts1).calls <
      (run_actions (init d) (acts1 ++ .for_each n1 :: acts2)).calls := by
    rw [run_actions_append, run_actions_cons]
    have h1 := run_actions_calls acts2 (step (run_actions (init d) acts1) (.for_each n1))
    have h2 := step_for_each_calls (run_actions (init d) acts1) n1
    omega
  generalize run_actions (init d)
    (acts1 ++ .for_each n1 :: (acts2 ++ .for_each n2 :: acts3)) = s at hi hj hord
  rcases List.getElem?_eq_some_iff.1 hi with ⟨hi1, hi2⟩
  rcases List.getElem?_eq_some_iff.1 hj with ⟨hj1, hj2⟩
  by_contra hij
  push_neg at hij
  rcases Nat.eq_or_lt_of_le hij with heq | hji
  · subst heq
    rw [hi2] at hj2
    subst hj2
    omega
  · have := List.pairwise_iff_getElem.1 hord.2.1 j i hj1 hi1 hji
    rw [hi2, hj2] at this
    have := this hbX haX
    omega

/-- C9, at a concrete run: observer 7 is registered on the deferring executor
0, two broadcasts are made, and the executor runs its two closures in order;
7 is invoked for the first notification and then for the second. -/
theorem notifications_in_call_order_witness :
    (run_actions (init ⟨0, false⟩)
      ([.register (some 7) ⟨0, false⟩] ++
        .for_each ⟨1, []⟩ :: ([] ++ .for_each ⟨2, []⟩ :: [.run 0, .run 0]))).invoked.map
      (fun inv => (inv.observer, inv.task.n.event)) = [(7, 1), (7, 2)] ∧
    ∀ (i j : Nat) (a b : Invocation),
      (run_actions (init ⟨0, false⟩)
        ([.register (some 7) ⟨0, false⟩] ++
          .for_each ⟨1, []⟩ :: ([] ++ .for_each ⟨2, []⟩ :: [.run 0, .run 0]))).invoked[i]? =
        some a →
      (run_actions (init ⟨0, false⟩)
        ([.register (some 7) ⟨0, false⟩] ++
          .for_each ⟨1, []⟩ :: ([] ++ .for_each ⟨2, []⟩ :: [.run 0, .run 0]))).invoked[j]? =
        some b →
      a.observer = 7 → b.observer = 7 →
      a.task.executor = ⟨0, false⟩ → b.task.executor = ⟨0, false⟩ →
      a.task.call = (run_actions (init ⟨0, false⟩) [.register (some 7) ⟨0, false⟩]).calls →
      b.task.call = (run_actions (init ⟨0, false⟩)
        ([.register (some 7) ⟨0, false⟩] ++ .for_each ⟨1, []⟩ :: [])).calls →
      i < j :=
  ⟨by decide, notifications_in_call_order ⟨0, false⟩ ⟨0, false⟩ 7
    [.register (some 7) ⟨0, false⟩] [] [.run 0, .run 0] ⟨1, []⟩ ⟨2, []⟩ (by decide)⟩

theorem locks_other_iff {s : State} {o : Observer} {i : Nat} :
    s.locks_other o i = true ↔ ∃ l, s.lock i = some l ∧ l.observer ≠ o := by
  unfold State.locks_other
  cases h : s.lock i with
  | none => simp
  | some l => simp

theorem unregister_interest_unknown_slots (s : State) (O : Observer)
    (h : ∀ w ∈ s.slots, w.observer ≠ some O) :
    (unregister_interest s O).slots = s.slots := by
  apply List.ext_getElem?
  intro i
  rw [unregister_interest_slots]
  cases hw : s.slots[i]? with
  | none => rfl
  | some w =>
    have hmem : w ∈ s.slots := by
      obtain ⟨hi, hget⟩ := List.getElem?_eq_some_iff.1 hw
      rw [← hget]
      exact List.getElem_mem hi
    have hne : ¬ weak_lock s.expired w.observer = some O := by
      intro hl
      exact h w hmem (weak_lock_eq_some.1 hl).1
    simp [reset_slot, hne]

/-- C26: `unregister_interest(O)` sweeps the registry.  Whatever `O` is, every
entry whose observer cannot be locked (it has expired, or the weak pointer is
empty) is removed; every entry that remains locked, when the call was made, to
an observer that was alive and is not `O`, and still locks to it afterwards.
When no `WeakObserver` on the heap points to `O` (it was never registered), the
call leaves the heap as it is and removes exactly the entries that cannot be
locked: the registry afterwards is the list of live registrations. -/
theorem unregister_interest_sweeps_expired (s : State) (O : Observer) :
    (∀ i ∈ s.observers, s.lock i = none → i ∉ (unregister_interest s O).observers) ∧
    (∀ i ∈ (unregister_interest s O).observers,
      i ∈ s.observers ∧
      ∃ l, s.lock i = some l ∧ l.observer ∉ s.expired ∧ l.observer ≠ O ∧
        (unregister_interest s O).lock i = some l) ∧
    ((∀ w ∈ s.slots, w.observer ≠ some O) →
      (unregister_interest s O).slots = s.slots ∧
      (unregister_interest s O).observers = live_registrations s ∧
      ∀ i ∈ s.observers, (i ∉ (unregister_interest s O).observers ↔ s.lock i = none)) := by
  have hobs : (unregister_interest s O).observers = s.observers.filter (s.locks_other O) := by
    rw [unregister_interest_observers]
    congr 1
    funext i
    exact (locks_other_eq s O i).symm
  refine ⟨?_, ?_, ?_⟩
  · intro i _ hnone hmem
    rw [hobs, List.mem_filter] at hmem
    obtain ⟨l, hl, _⟩ := locks_other_iff.1 hmem.2
    rw [hnone] at hl
    cases hl
  · intro i hmem
    rw [hobs, List.mem_filter] at hmem
    obtain ⟨l, hl, hne⟩ := locks_other_iff.1 hmem.2
    refine ⟨hmem.1, l, hl, ?_, hne, ?_⟩
    · obtain ⟨w, _, _, hex, _⟩ := State.lock_eq_some.1 hl
      exact hex
    · have hslot := unregister_interest_kept_slot s O i hmem.2
      rw [← hl]
      simp only [State.lock, hslot]
      rfl
  · intro hnever
    have hfilter : s.observers.filter (s.locks_other O) = live_registrations s := by
      unfold live_registrations
      apply List.filter_congr
      intro i _
      cases hl : s.lock i with
      | none => simp [State.locks_other, hl]
      | some l =>
        obtain ⟨w, hw, hwo, _, _⟩ := State.lock_eq_some.1 hl
        have hmem : w ∈ s.slots := by
          obtain ⟨hi, hget⟩ := List.getElem?_eq_some_iff.1 hw
          rw [← hget]
          exact List.getElem_mem hi
        have hne : l.observer ≠ O := by
          intro h
          apply hnever w hmem
          rw [hwo, h]
        simp [State.locks_other, hl, hne]
    refine ⟨unregister_interest_unknown_slots s O hnever, ?_, ?_⟩
    · rw [hobs, hfilter]
    · intro i hi
      rw [hobs, hfilter]
      unfold live_registrations
      rw [List.mem_filter]
      cases hl : s.lock i with
      | none => simp
      | some l => simp [hi]

/-- Witness for C26: observers 7 and 8 are registered and 7 expires.
Unregistering observer 9, which was never registered, removes the entry of 7 and
keeps the entry of 8. -/
theorem unregister_interest_sweeps_expired_witness :
    (unregister_interest
      (run_actions (init ⟨0, false⟩)
        [.register (some 7) ⟨0, false⟩, .register (some 8) ⟨0, false⟩, .expire 7]) 9).observers
      = [1] :=
  ((unregister_interest_sweeps_expired
      (run_actions (init ⟨0, false⟩)
        [.register (some 7) ⟨0, false⟩, .register (some 8) ⟨0, false⟩, .expire 7]) 9).2.2
    (by decide)).2.1.trans (by decide)

/-! ### Callbacks that unregister their observer -/

theorem lock_mutex_recursive (held : Held) (i : Nat) :
    lock_mutex true held i = some { held with mutexes := i :: held.mutexes } := by
  simp [lock_mutex]

theorem remove_if_held_eq (held : Held) (ex : List Observer) (o : Observer) :
    ∀ (l : List Nat) (slots : List WeakObserver),
      remove_if_held held ex o l slots = some (remove_if_maybe_reset ex o l slots) := by
  intro l
  induction l with
  | nil => intro slots; rfl
  | cons c rest ih =>
    intro slots
    cases hc : slots[c]? with
    | none => simp only [remove_if_held, remove_if_maybe_reset, hc, ih]
    | some w =>
      simp only [remove_if_held, remove_if_maybe_reset, hc, maybe_reset_held,
        lock_mutex_recursive, ih]

theorem unregister_interest_held_eq (held : Held) (s : State) (o : Observer)
    (h : held.observer_mutex = false) :
    unregister_interest_held held s o = some (unregister_interest s o) := by
  simp only [unregister_interest_held, lock_observer_mutex, h, Bool.false_eq_true, if_false,
    remove_if_held_eq, unregister_interest]

theorem State.evolves_refl (s : State) : s.evolves s :=
  ⟨fun _ _ h => h, [], by simp, fun _ h => by cases h⟩

theorem State.evolves_trans {a b c : State} (h1 : a.evolves b) (h2 : b.evolves c) :
    a.evolves c := by
  obtain ⟨n1, hn1, hg1⟩ := h1.invoked
  obtain ⟨n2, hn2, hg2⟩ := h2.invoked
  refine ⟨fun i l h => h1.lock_of_lock i l (h2.lock_of_lock i l h), n1 ++ n2, ?_, ?_⟩
  · rw [hn2, hn1, List.append_assoc]
  · intro inv hinv
    rcases List.mem_append.1 hinv with h | h
    · exact hg1 inv h
    · obtain ⟨l, hl, ho⟩ := hg2 inv h
      exact ⟨l, h1.lock_of_lock _ l hl, ho⟩

theorem State.keeps_refl (u : List Observer) (s : State) : s.keeps u s :=
  ⟨fun _ _ h _ => h, fun _ h => h, fun _ h => h, fun _ h => h⟩

theorem State.keeps_trans {u : List Observer} {a b c : State} (h1 : a.keeps u b)
    (h2 : b.keeps u c) : a.keeps u c :=
  ⟨fun i l h hu => h2.lock_kept i l (h1.lock_kept i l h hu) hu,
   fun t h => h2.spawned_kept t (h1.spawned_kept t h),
   fun t h => h2.pending_kept t (h1.pending_kept t h),
   fun t h => h2.invoked_kept t (h1.invoked_kept t h)⟩

theorem unregister_interest_lock_of_lock (s : State) (O : Observer) (i : Nat)
    (l : LockedObserver) (h : (unregister_interest s O).lock i = some l) :
    s.lock i = some l := by
  obtain ⟨w1, hw1, ho, hex, he⟩ := State.lock_eq_some.1 h
  rw [unregister_interest_slots] at hw1
  cases hw : s.slots[i]? with
  | none => rw [hw] at hw1; cases hw1
  | some w =>
    rw [hw] at hw1
    simp only [Option.map_some', Option.some.injEq] at hw1
    have hww : w1 = w := by
      unfold reset_slot at hw1
      split at hw1
      · rw [← hw1] at ho; cases ho
      · exact hw1.symm
    subst hww
    exact State.lock_eq_some.2 ⟨w1, hw, ho, hex, he⟩

theorem unregister_interest_fields (s : State) (O : Observer) :
    (unregister_interest s O).invoked = s.invoked ∧
    (unregister_interest s O).spawned = s.spawned ∧
    (unregister_interest s O).pending = s.pending ∧
    (unregister_interest s O).expired = s.expired :=
  ⟨rfl, rfl, rfl, rfl⟩

theorem evolves_unregister (s : State) (O : Observer) : s.evolves (unregister_interest s O) :=
  ⟨unregister_interest_lock_of_lock s O, [], by simp [(unregister_interest_fields s O).1],
    fun _ h => by cases h⟩

theorem keeps_unregister (u : List Observer) (s : State) (O : Observer) (hO : O ∈ u) :
    s.keeps u (unregister_interest s O) := by
  refine ⟨?_, fun _ h => h, fun _ h => h, fun _ h => h⟩
  intro i l hl hu
  have hne : l.observer ≠ O := fun e => hu (e ▸ hO)
  have h1 : s.locks_other O i = true := by
    simp [State.locks_other, hl, hne]
  have hslot := unregister_interest_kept_slot s O i h1
  rw [← hl]
  simp only [State.lock, hslot]
  rfl

theorem lock_invoked_by (s : State) (o : Observer) (t : Task) (i : Nat) :
    (s.invoked_by o t).lock i = s.lock i := lock_congr rfl rfl i

theorem evolves_invoked_by (s : State) (t : Task) (l : LockedObserver)
    (hl : s.lock t.weak_observer = some l) : s.evolves (s.invoked_by l.observer t) :=
  ⟨fun i l2 h => by rwa [lock_invoked_by] at h, [{ observer := l.observer, task := t }], rfl,
    fun inv h => by
      rw [List.mem_singleton] at h
      subst h
      exact ⟨l, hl, rfl⟩⟩

theorem keeps_invoked_by (u : List Observer) (s : State) (o : Observer) (t : Task) :
    s.keeps u (s.invoked_by o t) :=
  ⟨fun i l h _ => by rwa [lock_invoked_by], fun _ h => h, fun _ h => h,
    fun inv h => List.mem_append_left _ h⟩

/-- The call of the member function on the observer that the closure locked:
it ends, whatever the thread holds besides `observer_mutex`. -/
theorem invoke_spec (u : List Observer) (held : Held) (s : State) (t : Task)
    (l : LockedObserver) (hh : held.observer_mutex = false)
    (hl : s.lock t.weak_observer = some l) :
    ∃ out, invoke u held s l.observer t = some out ∧
      out.state = (if l.observer ∈ u then unregister_interest (s.invoked_by l.observer t) l.observer
        else s.invoked_by l.observer t) ∧
      out.has_thrown = decide (l.observer ∈ t.n.failing) ∧
      s.evolves out.state ∧ s.keeps u out.state ∧
      ({ observer := l.observer, task := t } : Invocation) ∈ out.state.invoked := by
  have hmem : ({ observer := l.observer, task := t } : Invocation) ∈
      (s.invoked_by l.observer t).invoked := by
    simp [State.invoked_by]
  by_cases hu : l.observer ∈ u
  · refine ⟨if l.observer ∈ t.n.failing then
        .threw (unregister_interest (s.invoked_by l.observer t) l.observer)
      else .returned (unregister_interest (s.invoked_by l.observer t) l.observer), ?_, ?_, ?_,
      ?_, ?_, ?_⟩
    · simp only [invoke, if_pos hu, unregister_interest_held_eq _ _ _ hh]
    · rw [if_pos hu]; split <;> rfl
    · split <;> simp [Outcome.has_thrown, *]
    · have : s.evolves (unregister_interest (s.invoked_by l.observer t) l.observer) :=
        State.evolves_trans (evolves_invoked_by s t l hl) (evolves_unregister _ _)
      split <;> exact this
    · have : s.keeps u (unregister_interest (s.invoked_by l.observer t) l.observer) :=
        State.keeps_trans (keeps_invoked_by u s _ t) (keeps_unregister u _ _ hu)
      split <;> exact this
    · have : ({ observer := l.observer, task := t } : Invocation) ∈
          (unregister_interest (s.invoked_by l.observer t) l.observer).invoked := by
        rw [(unregister_interest_fields _ _).1]; exact hmem
      split <;> exact this
  · refine ⟨if l.observer ∈ t.n.failing then .threw (s.invoked_by l.observer t)
      else .returned (s.invoked_by l.observer t), ?_, ?_, ?_, ?_, ?_, ?_⟩
    · simp only [invoke, if_neg hu]
    · rw [if_neg hu]; split <;> rfl
    · split <;> simp [Outcome.has_thrown, *]
    · split <;> exact evolves_invoked_by s t l hl
    · split <;> exact keeps_invoked_by u s _ t
    · split <;> exact hmem

theorem for_each_loop_held_eq (u : List Observer) (held : Held) (n : Notification) (c : Nat) :
    ∀ (l : List Nat) (s : State),
      for_each_loop_held u held n c l s = dispatch_loop_held u held (fun _ => true) n c l s := by
  intro l
  induction l with
  | nil => intro s; rfl
  | cons w rest ih =>
    intro s
    simp only [for_each_loop_held, dispatch_loop_held, if_true, ih]

theorem for_single_loop_held_eq (u : List Observer) (held : Held) (target : Observer)
    (n : Notification) (c : Nat) :
    ∀ (l : List Nat) (s : State),
      for_single_loop_held u held target n c l s =
        dispatch_loop_held u held (fun o => decide (o = target)) n c l s := by
  intro l
  induction l with
  | nil => intro s; rfl
  | cons w rest ih =>
    intro s
    simp only [for_single_loop_held, dispatch_loop_held, decide_eq_true_eq, ih]

/-- The closure built by a dispatching call ends, on any thread that does not
hold `observer_mutex`. -/
theorem Task.run_held_spec (u : List Observer) (held : Held) (s : State) (t : Task)
    (hh : held.observer_mutex = false) :
    ∃ out, Task.run_held u held s t = some out ∧
      s.evolves out.state ∧ s.keeps u out.state ∧
      (s.lock t.weak_observer = none → out = .returned s) ∧
      ∀ l, s.lock t.weak_observer = some l →
        out.state = (if l.observer ∈ u then
            unregister_interest (s.invoked_by l.observer t) l.observer
          else s.invoked_by l.observer t) ∧
        out.has_thrown = decide (l.observer ∈ t.n.failing) ∧
        ({ observer := l.observer, task := t } : Invocation) ∈ out.state.invoked := by
  cases hl : s.lock t.weak_observer with
  | none =>
    refine ⟨.returned s, ?_, State.evolves_refl s, State.keeps_refl u s, fun _ => rfl, ?_⟩
    · simp only [Task.run_held, lock_mutex_recursive, hl]
    · intro l h; cases h
  | some l =>
    obtain ⟨out, ho, hst, hth, hev, hke, hin⟩ :=
      invoke_spec u { held with mutexes := t.weak_observer :: held.mutexes } s t l hh hl
    refine ⟨out, ?_, hev, hke, (fun h => by cases h), ?_⟩
    · simp only [Task.run_held, lock_mutex_recursive, hl, ho]
    · intro l2 h2
      cases h2
      exact ⟨hst, hth, hin⟩

theorem evolves_of_lock {s s2 : State} (hl : ∀ i, s2.lock i = s.lock i)
    (hi : s2.invoked = s.invoked) : s.evolves s2 :=
  ⟨fun i l h => by rwa [hl] at h, [], by simp [hi], fun _ h => by cases h⟩

/-- The call of `spawn` for an entry that locks ends. -/
theorem spawn_held_spec (u : List Observer) (held : Held) (s : State) (work : Task)
    (l : LockedObserver) (hh : held.observer_mutex = false)
    (hl : s.lock work.weak_observer = some l) :
    ∃ out, spawn_held u held s work = some out ∧
      s.evolves out.state ∧ s.keeps u out.state ∧
      work ∈ out.state.spawned ∧
      (work.executor.inline = true →
        ({ observer := l.observer, task := work } : Invocation) ∈ out.state.invoked) ∧
      (work.executor.inline = false → work ∈ out.state.pending) ∧
      (out.has_thrown = true → l.observer ∈ work.n.failing) := by
  cases hin : work.executor.inline with
  | false =>
    refine ⟨.returned { s with spawned := s.spawned ++ [work], pending := s.pending ++ [work] },
      ?_, ?_, ?_, ?_, ?_, ?_, ?_⟩
    · simp only [spawn_held, hin, Bool.false_eq_true, if_false]
    · exact evolves_of_lock (fun i => lock_congr rfl rfl i) rfl
    · exact ⟨fun i l2 h _ => by rw [← h]; exact lock_congr rfl rfl i,
        fun t h => List.mem_append_left _ h, fun t h => List.mem_append_left _ h, fun _ h => h⟩
    · simp [Outcome.state]
    · intro h; cases h
    · intro _; simp [Outcome.state]
    · intro h; simp [Outcome.has_thrown] at h
  | true =>
    have hl1 : State.lock { s with spawned := s.spawned ++ [work] } work.weak_observer =
        some l := by
      rw [← hl]; exact lock_congr rfl rfl _
    obtain ⟨out, ho, hev, hke, _, hsome⟩ :=
      Task.run_held_spec u held { s with spawned := s.spawned ++ [work] } work hh
    obtain ⟨_, hth, hinv⟩ := hsome l hl1
    have hev0 : s.evolves { s with spawned := s.spawned ++ [work] } :=
      evolves_of_lock (fun i => lock_congr rfl rfl i) rfl
    have hke0 : s.keeps u { s with spawned := s.spawned ++ [work] } :=
      ⟨fun i l2 h _ => by rw [← h]; exact lock_congr rfl rfl i,
        fun t h => List.mem_append_left _ h, fun _ h => h, fun _ h => h⟩
    refine ⟨out, ?_, State.evolves_trans hev0 hev, State.keeps_trans hke0 hke, ?_, ?_, ?_, ?_⟩
    · simp only [spawn_held, hin, if_true, ho]
    · exact hke.spawned_kept work (by simp)
    · intro _; exact hinv
    · intro h; cases h
    · intro h
      rw [hth] at h
      exact of_decide_eq_true h

/-- The call of `spawn` for an entry that locks leaves the registry as it was
when the member function does not unregister the observer from a closure that
runs in place, and then a `shared_ptr` to the `WeakObserver` of the entry is
left when the closure is gone from the loop. -/
theorem spawn_held_owns (u : List Observer) (held : Held) (s : State) (work : Task)
    (l : LockedObserver) (hl : s.lock work.weak_observer = some l)
    (hreg : work.weak_observer ∈ s.observers)
    (hd : l.observer ∈ u → work.executor.inline = false) (out : Outcome)
    (ho : spawn_held u held s work = some out) :
    out.state.observers = s.observers ∧ end_of_spawn work.weak_observer out = .ended out := by
  have hobs : out.state.observers = s.observers := by
    cases hin : work.executor.inline with
    | false =>
      simp only [spawn_held, hin, Bool.false_eq_true, if_false, Option.some.injEq] at ho
      rw [← ho]
      rfl
    | true =>
      have hnu : l.observer ∉ u := fun h => by
        rw [hd h] at hin
        cases hin
      have hl1 : State.lock { s with spawned := s.spawned ++ [work] } work.weak_observer =
          some l := by
        rw [← hl]; exact lock_congr rfl rfl _
      simp only [spawn_held, hin, if_true, Task.run_held, lock_mutex_recursive, hl1, invoke,
        hnu, if_false, Option.some.injEq] at ho
      rw [← ho]
      split <;> rfl
  refine ⟨hobs, ?_⟩
  have hown : out.state.owns work.weak_observer = true := by
    simp only [State.owns, Bool.or_eq_true, hobs]
    exact Or.inl (List.elem_eq_true_of_mem hreg)
  simp only [end_of_spawn, hown, if_true]

/-- A dispatching loop ends on any thread that does not hold `observer_mutex`,
when every slot that locks is held by the registry and the observers that
unregister themselves have deferring executors; when the member function fails
on no observer it returns, and every entry that locked to a selected observer
outside `u` has its closure spawned: run at once on an inline executor, stored
by a deferring one. -/
theorem dispatch_loop_held_spec (u : List Observer) (held : Held) (sel : Observer → Bool)
    (n : Notification) (c : Nat) (hh : held.observer_mutex = false) :
    ∀ (l : List Nat) (s : State),
      (∀ i lo, s.lock i = some lo → i ∈ s.observers) →
      (∀ i lo, s.lock i = some lo → lo.observer ∈ u → lo.executor.inline = false) →
      ∃ out, dispatch_loop_held u held sel n c l s = .ended out ∧
        s.evolves out.state ∧ s.keeps u out.state ∧
        (n.failing = [] → out.has_thrown = false ∧
          ∀ i ∈ l, ∀ lo, s.lock i = some lo → sel lo.observer = true → lo.observer ∉ u →
            ({ weak_observer := i, n := n, executor := lo.executor, call := c } : Task) ∈
              out.state.spawned ∧
            (lo.executor.inline = true →
              ({ observer := lo.observer,
                 task := { weak_observer := i, n := n, executor := lo.executor, call := c } } :
                Invocation) ∈ out.state.invoked) ∧
            (lo.executor.inline = false →
              ({ weak_observer := i, n := n, executor := lo.executor, call := c } : Task) ∈
                out.state.pending)) := by
  intro l
  induction l with
  | nil =>
    intro s _ _
    exact ⟨.returned s, rfl, State.evolves_refl s, State.keeps_refl u s,
      fun _ => ⟨rfl, fun i hi => by cases hi⟩⟩
  | cons i rest ih =>
    intro s hW hD
    have hskip : ∀ (hno : ∀ lo, s.lock i = some lo → sel lo.observer = false),
        dispatch_loop_held u held sel n c (i :: rest) s =
          dispatch_loop_held u held sel n c rest s →
        ∃ out, dispatch_loop_held u held sel n c (i :: rest) s = .ended out ∧
          s.evolves out.state ∧ s.keeps u out.state ∧
          (n.failing = [] → out.has_thrown = false ∧
            ∀ j ∈ i :: rest, ∀ lo, s.lock j = some lo → sel lo.observer = true →
              lo.observer ∉ u →
              ({ weak_observer := j, n := n, executor := lo.executor, call := c } : Task) ∈
                out.state.spawned ∧
              (lo.executor.inline = true →
                ({ observer := lo.observer,
                   task := { weak_observer := j, n := n, executor := lo.executor, call := c } } :
                  Invocation) ∈ out.state.invoked) ∧
              (lo.executor.inline = false →
                ({ weak_observer := j, n := n, executor := lo.executor, call := c } : Task) ∈
                  out.state.pending)) := by
      intro hno heq
      obtain ⟨out, ho, hev, hke, hdel⟩ := ih s hW hD
      refine ⟨out, heq.trans ho, hev, hke, fun hf => ⟨(hdel hf).1, ?_⟩⟩
      intro j hj lo hlo hsel hu
      rcases List.mem_cons.1 hj with rfl | hj
      · rw [hno lo hlo] at hsel; cases hsel
      · exact (hdel hf).2 j hj lo hlo hsel hu
    cases hl : s.lock i with
    | none =>
      apply hskip
      · intro lo h; rw [hl] at h; cases h
      · simp only [dispatch_loop_held, lock_mutex_recursive, hl]
    | some lo =>
      cases hsel : sel lo.observer with
      | false =>
        apply hskip
        · intro lo2 h; rw [hl] at h; cases h; exact hsel
        · simp only [dispatch_loop_held, lock_mutex_recursive, hl, hsel, Bool.false_eq_true,
            if_false]
      | true =>
        obtain ⟨out1, ho1, hev1, hke1, hsp1, hin1, hpe1, hth1⟩ :=
          spawn_held_spec u { held with mutexes := i :: held.mutexes } s
            { weak_observer := i, n := n, executor := lo.executor, call := c } lo hh hl
        obtain ⟨hobs1, hend1⟩ :=
          spawn_held_owns u { held with mutexes := i :: held.mutexes } s
            { weak_observer := i, n := n, executor := lo.executor, call := c } lo hl
            (hW i lo hl) (hD i lo hl) out1 ho1
        cases out1 with
        | threw s1 =>
          refine ⟨.threw s1, ?_, hev1, hke1, ?_⟩
          · simp only [dispatch_loop_held, lock_mutex_recursive, hl, hsel, if_true, ho1]
            rw [hend1]
          · intro hf
            have := hth1 rfl
            rw [hf] at this
            cases this
        | returned s1 =>
          have hW1 : ∀ j lj, s1.lock j = some lj → j ∈ s1.observers := by
            intro j lj hlj
            have h0 : s1.observers = s.observers := hobs1
            rw [h0]
            exact hW j lj (hev1.lock_of_lock j lj hlj)
          have hD1 : ∀ j lj, s1.lock j = some lj → lj.observer ∈ u →
              lj.executor.inline = false :=
            fun j lj hlj => hD j lj (hev1.lock_of_lock j lj hlj)
          obtain ⟨out, ho, hev, hke, hdel⟩ := ih s1 hW1 hD1
          refine ⟨out, ?_, State.evolves_trans hev1 hev, State.keeps_trans hke1 hke, ?_⟩
          · simp only [dispatch_loop_held, lock_mutex_recursive, hl, hsel, if_true, ho1]
            rw [hend1]
            exact ho
          · intro hf
            refine ⟨(hdel hf).1, ?_⟩
            intro j hj lj hlj hselj hu
            have hhere : j = i →
                ({ weak_observer := j, n := n, executor := lj.executor, call := c } : Task) ∈
                  out.state.spawned ∧
                (lj.executor.inline = true →
                  ({ observer := lj.observer,
                     task := { weak_observer := j, n := n, executor := lj.executor,
                               call := c } } : Invocation) ∈ out.state.invoked) ∧
                (lj.executor.inline = false →
                  ({ weak_observer := j, n := n, executor := lj.executor, call := c } : Task) ∈
                    out.state.pending) := by
              intro hji
              subst hji
              rw [hl] at hlj
              cases hlj
              exact ⟨hke.spawned_kept _ hsp1, fun h => hke.invoked_kept _ (hin1 h),
                fun h => hke.pending_kept _ (hpe1 h)⟩
            rcases List.mem_cons.1 hj with hji | hj
            · exact hhere hji
            · exact (hdel hf).2 j hj lj (hke1.lock_kept j lj hlj hu) hselj hu

theorem unlockable_of_evolves {s s2 : State} {O : Observer} (h : s.evolves s2)
    (hs : s.unlockable O) :
    s2.unlockable O ∧
      ∃ new, s2.invoked = s.invoked ++ new ∧ ∀ inv ∈ new, inv.observer ≠ O := by
  refine ⟨fun i l hl => hs i l (h.lock_of_lock i l hl), ?_⟩
  obtain ⟨new, hnew, hgood⟩ := h.invoked
  refine ⟨new, hnew, fun inv hinv => ?_⟩
  obtain ⟨l, hl, ho⟩ := hgood inv hinv
  rw [← ho]
  exact hs _ l hl

theorem unlockable_of_step {s : State} {a : Action} {O : Observer} (hs : s.unlockable O)
    (ha : a.registers O = false) :
    (step s a).unlockable O ∧
      ∃ new, (step s a).invoked = s.invoked ++ new ∧ ∀ inv ∈ new, inv.observer ≠ O := by
  constructor
  · intro i l hl
    by_cases hi : i < s.slots.length
    · exact hs i l (step_lock s a i l hi hl)
    · obtain ⟨w, hw, ho, -, -⟩ := State.lock_eq_some.1 hl
      have h0 : s.slots[i]? = none := List.getElem?_eq_none (by omega)
      intro hO
      have := step_new_slot s a i w l.observer h0 hw ho
      rw [hO, ha] at this
      cases this
  · obtain ⟨new, hnew, hgood⟩ := step_invoked s a
    refine ⟨new, hnew, fun inv hinv => ?_⟩
    obtain ⟨l, hl, ho⟩ := hgood inv hinv
    rw [← ho]
    exact hs _ l hl

theorem evolves_expire (s : State) (o : Observer) : s.evolves (expire s o) := by
  refine ⟨?_, [], by simp [expire], fun _ h => by cases h⟩
  intro i l hl
  obtain ⟨w, hw, ho, hex, he⟩ := State.lock_eq_some.1 hl
  exact State.lock_eq_some.2 ⟨w, hw, ho, fun h => hex (List.mem_cons_of_mem _ h), he⟩

theorem unregister_interest_no_entry (s : State) (O : Observer) :
    ∀ i ∈ (unregister_interest s O).observers, ∀ w,
      (unregister_interest s O).slots[i]? = some w → w.observer ≠ some O := by
  intro i hi w hw hO
  rw [unregister_interest_observers, List.mem_filter] at hi
  have h2 := hi.2
  rw [← locks_other_eq] at h2
  rw [unregister_interest_kept_slot s O i h2] at hw
  rw [locks_other_eq] at h2
  obtain ⟨w2, p, hw2, hp, hne⟩ := other_live_iff.1 h2
  rw [hw] at hw2
  cases hw2
  have := (weak_lock_eq_some.1 hp).1
  rw [hO] at this
  cases this
  exact hne rfl

/-- A member function that calls `unregister_interest` on its own observer
`O` while a closure of `for_each_observer` invokes it, when the observers that
unregister themselves have deferring executors.  The closure may run on any
thread that does not hold `observer_mutex`.

* The inner `unregister_interest` returns, although the thread holds the mutex
  of the slot, which is among the candidates (a plain mutex would make the
  thread wait for itself); the member function completes and the closure
  returns.
* Afterwards no registry entry points to `O` and no slot locks to it.
* A loop of `for_each_observer` that goes on from there ends and does not
  invoke `O`.
* Every slot that locked to another observer still does; a closure for it
  invokes that observer, and a loop of `for_each_observer` that goes on from
  there, when the member function fails on no observer, spawns a closure for
  every entry locking to an observer outside `u`, run at once or stored. -/
theorem self_unregistration_deferred (u : List Observer) (held : Held) (s : State)
    (t : Task) (l : LockedObserver) (hwf : s.well_formed)
    (hh : held.observer_mutex = false) (hl : s.lock t.weak_observer = some l)
    (hu : l.observer ∈ u) (hf : l.observer ∉ t.n.failing)
    (hdef : ∀ i lo, s.lock i = some lo → lo.observer ∈ u → lo.executor.inline = false) :
    (unregister_interest_held { held with mutexes := t.weak_observer :: held.mutexes }
        (s.invoked_by l.observer t) l.observer =
      some (unregister_interest (s.invoked_by l.observer t) l.observer) ∧
     t.weak_observer ∈ (s.invoked_by l.observer t).observers ∧
     lock_mutex false { held with mutexes := t.weak_observer :: held.mutexes }
       t.weak_observer = none ∧
     Task.run_held u held s t =
       some (.returned (unregister_interest (s.invoked_by l.observer t) l.observer))) ∧
    ((∀ i ∈ (unregister_interest (s.invoked_by l.observer t) l.observer).observers, ∀ w,
        (unregister_interest (s.invoked_by l.observer t) l.observer).slots[i]? = some w →
        w.observer ≠ some l.observer) ∧
     (unregister_interest (s.invoked_by l.observer t) l.observer).unlockable l.observer) ∧
    (∀ (held2 : Held) (n : Notification) (c : Nat) (rest : List Nat),
        held2.observer_mutex = false →
        ∃ out new,
          for_each_loop_held u held2 n c rest
              (unregister_interest (s.invoked_by l.observer t) l.observer) = .ended out ∧
          out.state.invoked =
            (unregister_interest (s.invoked_by l.observer t) l.observer).invoked ++ new ∧
          ∀ inv ∈ new, inv.observer ≠ l.observer) ∧
    ((∀ j lo, s.lock j = some lo → lo.observer ≠ l.observer →
        (unregister_interest (s.invoked_by l.observer t) l.observer).lock j = some lo) ∧
     (∀ (held2 : Held) (t2 : Task) (lo : LockedObserver), held2.observer_mutex = false →
        s.lock t2.weak_observer = some lo → lo.observer ≠ l.observer →
        ∃ out,
          Task.run_held u held2
              (unregister_interest (s.invoked_by l.observer t) l.observer) t2 = some out ∧
          ({ observer := lo.observer, task := t2 } : Invocation) ∈ out.state.invoked) ∧
     (∀ (held2 : Held) (n : Notification) (c : Nat) (rest : List Nat),
        held2.observer_mutex = false → n.failing = [] →
        ∃ s2,
          for_each_loop_held u held2 n c rest
              (unregister_interest (s.invoked_by l.observer t) l.observer) =
            .ended (.returned s2) ∧
          ∀ j ∈ rest, ∀ lo, s.lock j = some lo → lo.observer ∉ u →
            ({ weak_observer := j, n := n, executor := lo.executor, call := c } : Task) ∈
              s2.spawned ∧
            (lo.executor.inline = true →
              ({ observer := lo.observer,
                 task := { weak_observer := j, n := n, executor := lo.executor, call := c } } :
                Invocation) ∈ s2.invoked) ∧
            (lo.executor.inline = false →
              ({ weak_observer := j, n := n, executor := lo.executor, call := c } : Task) ∈
                s2.pending))) := by
  have hwf1 : (s.invoked_by l.observer t).well_formed :=
    ⟨fun i lo h => hwf.1 i lo (by rwa [lock_invoked_by] at h), hwf.2⟩
  have hwf2 : (unregister_interest (s.invoked_by l.observer t) l.observer).well_formed :=
    step_well_formed _ (.unregister l.observer) hwf1
  have hD2 : ∀ i lo,
      (unregister_interest (s.invoked_by l.observer t) l.observer).lock i = some lo →
      lo.observer ∈ u → lo.executor.inline = false := by
    intro i lo hlo
    have h1 := unregister_interest_lock_of_lock _ _ i lo hlo
    rw [lock_invoked_by] at h1
    exact hdef i lo h1
  have hunl : (unregister_interest (s.invoked_by l.observer t) l.observer).unlockable
      l.observer := unregister_interest_lock _ _ hwf1
  have hkeep : ∀ j lo, s.lock j = some lo → lo.observer ≠ l.observer →
      (unregister_interest (s.invoked_by l.observer t) l.observer).lock j = some lo := by
    intro j lo hlo hne
    have hlo1 : (s.invoked_by l.observer t).lock j = some lo := by rwa [lock_invoked_by]
    have h1 : (s.invoked_by l.observer t).locks_other l.observer j = true := by
      simp [State.locks_other, hlo1, hne]
    have hslot := unregister_interest_kept_slot _ l.observer j h1
    rw [← hlo1]
    simp only [State.lock, hslot]
    rfl
  refine ⟨⟨unregister_interest_held_eq _ _ _ hh, hwf.1 _ l hl, ?_, ?_⟩,
    ⟨unregister_interest_no_entry _ _, hunl⟩, ?_, ⟨hkeep, ?_, ?_⟩⟩
  · simp [lock_mutex]
  · obtain ⟨out, ho, -, -, -, hsome⟩ := Task.run_held_spec u held s t hh
    obtain ⟨hst, hth, -⟩ := hsome l hl
    rw [ho]
    rw [if_pos hu] at hst
    cases out with
    | returned s1 =>
      simp only [Outcome.state] at hst
      rw [hst]
    | threw s1 =>
      simp [Outcome.has_thrown, hf] at hth
  · intro held2 n c rest hh2
    obtain ⟨out, ho, hev, -, -⟩ :=
      dispatch_loop_held_spec u held2 (fun _ => true) n c hh2 rest
        (unregister_interest (s.invoked_by l.observer t) l.observer) hwf2.1 hD2
    obtain ⟨-, new, hnew, hgood⟩ := unlockable_of_evolves hev hunl
    exact ⟨out, new, by rw [for_each_loop_held_eq, ho], hnew, hgood⟩
  · intro held2 t2 lo hh2 hlo hne
    obtain ⟨out, ho, -, -, -, hsome⟩ := Task.run_held_spec u held2
      (unregister_interest (s.invoked_by l.observer t) l.observer) t2 hh2
    exact ⟨out, ho, (hsome lo (hkeep _ lo hlo hne)).2.2⟩
  · intro held2 n c rest hh2 hfail
    obtain ⟨out, ho, -, -, hdel⟩ :=
      dispatch_loop_held_spec u held2 (fun _ => true) n c hh2 rest
        (unregister_interest (s.invoked_by l.observer t) l.observer) hwf2.1 hD2
    obtain ⟨hret, hall⟩ := hdel hfail
    cases out with
    | threw s1 => simp [Outcome.has_thrown] at hret
    | returned s2 =>
      refine ⟨s2, by rw [for_each_loop_held_eq, ho], ?_⟩
      intro j hj lo hlo hnu
      exact hall j hj lo (hkeep j lo hlo (fun e => hnu (e ▸ hu))) rfl hnu

/-- C25: observers 7 and 8 are registered with an executor whose `spawn` runs
the closure before it returns, and the member function called on 7 calls
`unregister_interest` on 7.  In `for_each_observer` the call of `spawn` for the
entry of 7 returns: the inner `unregister_interest` does not wait for itself,
the member function completes, 7 has been invoked once, and the registry is
left with the entry of 8.  The closure then holds the last `shared_ptr` to the
`WeakObserver` of 7, and it is destroyed at the end of the statement, while the
`LockedObserver` of the loop keeps the mutex of that `WeakObserver`: the
behaviour is undefined from there, and 8 has not been delivered to.  With a
member function that does not unregister, the same broadcast invokes 7 and 8.
With a deferring executor and the member function that unregisters 7, the
broadcast stores a closure for each, the closures invoke 7 and 8 when they are
run, the registry is left with the entry of 8, and a later broadcast invokes 8
alone. -/
theorem self_unregistration_destroys_locked_mutex :
    (run_actions (init ⟨0, true⟩)
      [.register_default (some 7), .register_default (some 8)]).observers = [0, 1] ∧
    (spawn_held [7] ⟨false, [0]⟩
        { run_actions (init ⟨0, true⟩)
            [.register_default (some 7), .register_default (some 8)] with calls := 1 }
        ⟨0, ⟨1, []⟩, ⟨0, true⟩, 0⟩).map
      (fun out => (out.has_thrown, out.state.observers,
        out.state.invoked.map Invocation.observer, out.state.owns 0)) =
      some (false, [1], [7], false) ∧
    for_each_observer_held [7] ⟨false, []⟩
        (run_actions (init ⟨0, true⟩)
          [.register_default (some 7), .register_default (some 8)]) ⟨1, []⟩ =
      .destroys_locked_mutex
        (unregister_interest
          (State.invoked_by
            { run_actions (init ⟨0, true⟩)
                [.register_default (some 7), .register_default (some 8)] with
              calls := 1, spawned := [⟨0, ⟨1, []⟩, ⟨0, true⟩, 0⟩] }
            7 ⟨0, ⟨1, []⟩, ⟨0, true⟩, 0⟩) 7) ∧
    (for_each_observer_held [] ⟨false, []⟩
        (run_actions (init ⟨0, true⟩)
          [.register_default (some 7), .register_default (some 8)]) ⟨1, []⟩).map
      (fun out => (out.has_thrown, out.state.invoked.map Invocation.observer)) =
      .ended (false, [7, 8]) ∧
    (run_actions_held [7]
        (run_actions (init ⟨0, false⟩)
          [.register_default (some 7), .register_default (some 8)])
        [.for_each ⟨1, []⟩, .run 0, .run 0, .for_each ⟨2, []⟩, .run 0]).map
      (fun s => (s.observers, s.invoked.map Invocation.observer)) =
      .ended ([1], [7, 8, 8]) := by
  decide

end multiplexer

/-! ## Theorems: CompositorReport -/

namespace logging

theorem find_store_self (m : List (SubCompositorId × Instance)) (id : SubCompositorId)
    (inst : Instance) : find (store m id inst) id = some inst := by
  induction m with
  | nil => simp [store, find]
  | cons e rest ih =>
    obtain ⟨k, old⟩ := e
    by_cases hk : k = id
    · simp [store, find, hk]
    · simp [store, find, hk, ih]

theorem find_log_all (m : List (SubCompositorId × Instance)) (id : SubCompositorId) :
    find (log_all m).2 id = (find m id).map (fun inst => (inst.log id).2) := by
  induction m with
  | nil => simp [log_all, find]
  | cons e rest ih =>
    obtain ⟨k, inst⟩ := e
    by_cases hk : k = id
    · subst hk; simp [log_all, find]
    · simp [log_all, find, hk, ih]

/-- C10: `finished_frame(id)` with clock sample `t` adds `t - end_of_frame` to
`total_time_sum` and `t - start_of_frame` to `frame_time_sum` of the record of
`id` (the stored one, or a new all-zero record), sets its `end_of_frame` to
`t`, adds one to `nframes`, and leaves `start_of_frame` and `latency_sum` as
they were. -/
theorem finished_frame_record (r : CompositorReport) (id : SubCompositorId) (t : TimePoint) :
    (record (r.finished_frame id t).instances id).total_time_sum =
      (record r.instances id).total_time_sum + (t - (record r.instances id).end_of_frame) ∧
    (record (r.finished_frame id t).instances id).frame_time_sum =
      (record r.instances id).frame_time_sum + (t - (record r.instances id).start_of_frame) ∧
    (record (r.finished_frame id t).instances id).end_of_frame = t ∧
    (record (r.finished_frame id t).instances id).nframes = (record r.instances id).nframes + 1 ∧
    (record (r.finished_frame id t).instances id).start_of_frame =
      (record r.instances id).start_of_frame ∧
    (record (r.finished_frame id t).instances id).latency_sum =
      (record r.instances id).latency_sum := by
  unfold CompositorReport.finished_frame
  simp only []
  split
  · simp [record, find_log_all, find_store_self, Instance.log]
  · simp [record, find_store_self]

theorem find_store_other (m : List (SubCompositorId × Instance)) (id other : SubCompositorId)
    (inst : Instance) (h : other ≠ id) : find (store m id inst) other = find m other := by
  induction m with
  | nil => simp [store, find, Ne.symm h]
  | cons e rest ih =>
    obtain ⟨k, old⟩ := e
    by_cases hk : k = id
    · subst hk
      simp [store, find, Ne.symm h]
    · by_cases hk2 : k = other
      · subst hk2
        simp [store, find, hk]
      · simp [store, find, hk, hk2, ih]

theorem call_last_scheduled (r : CompositorReport) (c : Call) (h : ∀ t, c ≠ .scheduled t) :
    (r.call c).last_scheduled = r.last_scheduled := by
  cases c with
  | scheduled t => exact absurd rfl (h t)
  | finished_frame id t =>
    simp only [CompositorReport.call, CompositorReport.finished_frame]
    split <;> rfl
  | _ => rfl

theorem calls_last_scheduled : ∀ (cs : List Call) (r : CompositorReport),
    (∀ c ∈ cs, ∀ t, c ≠ .scheduled t) → (r.calls cs).last_scheduled = r.last_scheduled := by
  intro cs
  induction cs with
  | nil => intro r _; rfl
  | cons c rest ih =>
    intro r h
    have h1 := ih (r.call c) (fun d hd => h d (List.mem_cons_of_mem _ hd))
    have h2 := call_last_scheduled r c (h c (List.mem_cons_self _ _))
    simp only [CompositorReport.calls, List.foldl_cons] at h1 ⊢
    rw [h1, h2]

theorem find_began_frame_self (r : CompositorReport) (id : SubCompositorId) (t : TimePoint) :
    find (r.began_frame id t).instances id =
      some { record r.instances id with
        start_of_frame := t
        latency_sum := (record r.instances id).latency_sum + (t - r.last_scheduled) } :=
  find_store_self _ _ _

theorem find_began_frame_other (r : CompositorReport) (id other : SubCompositorId)
    (t : TimePoint) (h : other ≠ id) :
    find (r.began_frame id t).instances other = find r.instances other :=
  find_store_other _ _ _ _ h

/-- C11: `began_frame(id)` with clock sample `t` leaves a record for `id` that
is the one there was (a new all-zero one when there was none) with
`start_of_frame` set to `t` and `t - last_scheduled` added to `latency_sum`;
the records of the other ids, `last_scheduled`, `last_report` and the log are
unchanged, and `last_scheduled` is the sample of the latest `scheduled()`. -/
theorem began_frame_record (r : CompositorReport) (id : SubCompositorId) (t : TimePoint) :
    find (r.began_frame id t).instances id =
      some { record r.instances id with
        start_of_frame := t
        latency_sum := (record r.instances id).latency_sum + (t - r.last_scheduled) } ∧
    (∀ other, other ≠ id → find (r.began_frame id t).instances other = find r.instances other) ∧
    (r.began_frame id t).last_scheduled = r.last_scheduled ∧
    (r.began_frame id t).last_report = r.last_report ∧
    (r.began_frame id t).logged = r.logged ∧
    ∀ (t0 : TimePoint) (cs : List Call), (∀ c ∈ cs, ∀ t1, c ≠ .scheduled t1) →
      ((r.scheduled t0).calls cs).last_scheduled = t0 := by
  refine ⟨?_, ?_, rfl, rfl, rfl, ?_⟩
  · exact find_began_frame_self r id t
  · exact fun other h => find_began_frame_other r id other t h
  · intro t0 cs h
    rw [calls_last_scheduled cs _ h]
    rfl

theorem finished_frame_eq (r : CompositorReport) (id : SubCompositorId) (t : TimePoint) :
    r.finished_frame id t =
      if t - r.last_report ≥ min_report_interval then (r.account_frame id t).report_pass t
      else r.account_frame id t := rfl

theorem log_all_map (m : List (SubCompositorId × Instance)) :
    (log_all m).2 = m.map (fun e => (e.1, (e.2.log e.1).2)) := by
  induction m with
  | nil => rfl
  | cons e rest ih =>
    obtain ⟨k, inst⟩ := e
    simp [log_all, ih]

theorem find_account_frame_other (r : CompositorReport) (id other : SubCompositorId)
    (t : TimePoint) (h : other ≠ id) :
    find (r.account_frame id t).instances other = find r.instances other :=
  find_store_other _ _ _ _ h

/-- The counterexample to C12: the last report was at 1 s and a frame finishes
at 2 s, so the time elapsed is the minimum interval and does not exceed it;
yet the pass runs: `last_report` moves, the baselines move and a line is
logged. -/
theorem finished_frame_pass_counterexample :
    ¬ ((2000000000 : Int) - (((CompositorReport.create 0).finished_frame 1 1000000000).last_report)
        > min_report_interval) ∧
    ((((CompositorReport.create 0).finished_frame 1 1000000000).finished_frame 1
        2000000000).last_report ≠
      ((CompositorReport.create 0).finished_frame 1 1000000000).last_report) ∧
    ((((CompositorReport.create 0).finished_frame 1 1000000000).finished_frame 1
        2000000000).logged ≠
      ((CompositorReport.create 0).finished_frame 1 1000000000).logged) ∧
    (record (((CompositorReport.create 0).finished_frame 1 1000000000).finished_frame 1
        2000000000).instances 1).baselines ≠
      (record ((CompositorReport.create 0).finished_frame 1 1000000000).instances 1).baselines := by
  decide

theorem find_map_rebase (m : List (SubCompositorId × Instance)) (id : SubCompositorId) :
    find (m.map (fun e => (e.1, (e.2.log e.1).2))) id =
      (find m id).map (fun inst => (inst.log id).2) := by
  rw [← log_all_map]
  exact find_log_all m id

theorem find_store_baselines (m : List (SubCompositorId × Instance)) (id other : SubCompositorId)
    (inst : Instance) (h : inst.baselines = (record m id).baselines) :
    (record (store m id inst) other).baselines = (record m other).baselines := by
  by_cases ho : other = id
  · subst ho
    simp only [record, find_store_self, Option.getD_some]
    exact h
  · simp only [record, find_store_other _ _ _ _ ho]

theorem finished_frame_due (r : CompositorReport) (id : SubCompositorId) (t : TimePoint)
    (h : t - r.last_report ≥ min_report_interval) :
    r.finished_frame id t = (r.account_frame id t).report_pass t := by
  rw [finished_frame_eq, if_pos h]

theorem finished_frame_not_due (r : CompositorReport) (id : SubCompositorId) (t : TimePoint)
    (h : t - r.last_report < min_report_interval) :
    r.finished_frame id t = r.account_frame id t := by
  rw [finished_frame_eq, if_neg (not_le.2 h)]

theorem report_pass_logged (r : CompositorReport) (t : TimePoint) :
    (r.report_pass t).logged = r.logged ++ (log_all r.instances).1 := rfl

theorem report_pass_instances (r : CompositorReport) (t : TimePoint) :
    (r.report_pass t).instances = r.instances.map (fun e => (e.1, (e.2.log e.1).2)) :=
  log_all_map _

/-- C12, amended: `finished_frame` at clock sample `t` runs the report pass
when `t - last_report` is at least the minimum interval of one second, the
interval itself included: `last_report` becomes `t`, every record is rebased
and the lines of the pass are logged.  When less than the interval has
elapsed the call only accounts the frame: `last_report`, the log and the
`last_reported_*` values of every record are as before. -/
theorem finished_frame_pass (r : CompositorReport) (id : SubCompositorId) (t : TimePoint) :
    usec min_report_interval = 1000000 ∧
    (t - r.last_report ≥ min_report_interval →
      r.finished_frame id t = (r.account_frame id t).report_pass t ∧
      (r.finished_frame id t).last_report = t ∧
      (r.finished_frame id t).logged =
        r.logged ++ (log_all (r.account_frame id t).instances).1 ∧
      (r.finished_frame id t).instances =
        (r.account_frame id t).instances.map (fun e => (e.1, (e.2.log e.1).2))) ∧
    (t - r.last_report < min_report_interval →
      r.finished_frame id t = r.account_frame id t ∧
      (r.finished_frame id t).last_report = r.last_report ∧
      (r.finished_frame id t).logged = r.logged ∧
      ∀ other, (record (r.finished_frame id t).instances other).baselines =
        (record r.instances other).baselines) := by
  refine ⟨by decide, ?_, ?_⟩
  · intro h
    rw [finished_frame_due r id t h]
    exact ⟨rfl, rfl, rfl, log_all_map _⟩
  · intro h
    rw [finished_frame_not_due r id t h]
    refine ⟨rfl, rfl, rfl, fun other => ?_⟩
    exact find_store_baselines _ _ _ _ rfl

/-- C12, amended, at concrete reports: a frame finishing exactly one second
after the last report runs the pass, one finishing a tick earlier does not. -/
theorem finished_frame_pass_witness :
    ((CompositorReport.create 0).finished_frame 1 1000000000).last_report = 1000000000 ∧
    ((CompositorReport.create 0).finished_frame 1 999999999).last_report = 0 :=
  ⟨((finished_frame_pass (CompositorReport.create 0) 1 1000000000).2.1 (by decide)).2.1,
   ((finished_frame_pass (CompositorReport.create 0) 1 999999999).2.2 (by decide)).2.1⟩

/-- A report pass none of whose `log` calls throws: the map afterwards holds the
same outputs with the same accumulated sums as after the accounting of the
frame, and in every record, of `id` or not, each `last_reported_*` value equals
the accumulated value it is the baseline of. -/
theorem finished_frame_due_rebases (r : CompositorReport) (id : SubCompositorId) (t : TimePoint)
    (h : t - r.last_report ≥ min_report_interval) :
    (r.finished_frame id t).instances.map (fun e => (e.1, e.2.sums)) =
      (r.account_frame id t).instances.map (fun e => (e.1, e.2.sums)) ∧
    (∀ e ∈ (r.finished_frame id t).instances, e.2.baselines = e.2.sums) ∧
    (∀ other, (record (r.finished_frame id t).instances other).sums =
      (record (r.account_frame id t).instances other).sums) ∧
    (∀ other, other ≠ id → (record (r.finished_frame id t).instances other).sums =
      (record r.instances other).sums) ∧
    ∀ other inst, find (r.account_frame id t).instances other = some inst →
      ∃ inst1, find (r.finished_frame id t).instances other = some inst1 ∧
        inst1.baselines = inst.sums ∧ inst1.sums = inst.sums := by
  have hinst : (r.finished_frame id t).instances =
      (r.account_frame id t).instances.map (fun e => (e.1, (e.2.log e.1).2)) := by
    rw [finished_frame_due r id t h]
    exact report_pass_instances _ _
  have hfind : ∀ other, find (r.finished_frame id t).instances other =
      (find (r.account_frame id t).instances other).map (fun inst => (inst.log other).2) := by
    intro other
    rw [hinst]
    exact find_map_rebase _ _
  have hsums : ∀ other, (record (r.finished_frame id t).instances other).sums =
      (record (r.account_frame id t).instances other).sums := by
    intro other
    simp only [record, hfind]
    cases find (r.account_frame id t).instances other <;> rfl
  refine ⟨?_, ?_, hsums, ?_, ?_⟩
  · rw [hinst, List.map_map]
    rfl
  · intro e he
    rw [hinst, List.mem_map] at he
    obtain ⟨e0, -, rfl⟩ := he
    rfl
  · intro other ho
    rw [hsums other]
    simp only [record, find_account_frame_other r id other t ho]
  · intro other inst hf
    refine ⟨(inst.log other).2, ?_, rfl, rfl⟩
    rw [hfind, hf]
    rfl

theorem checked_div_eq (a b : Int) (h : b ≠ 0) : checked_div a b = some (Int.tdiv a b) := by
  simp [checked_div, h]

/-- C14: in `Instance::log` no division has a zero divisor, whatever the
record holds, and the values printed are: `frames_per_1000sec`, the quotient
of `dn * 1000000000` by `dt` when `dt` is not zero and 0 when it is;
`avg_frame_time_usec` and `avg_latency_usec`, the quotients of `df` and `dl`
by `dn` when `dn` is not zero and 0 when it is.  Here `dt`, `df`, `dl` are the
differences to the last reported values in whole microseconds and `dn` is the
difference of `nframes`; for positive `dt` and non-negative `dn` the quotient
is the largest integer whose product with `dt` is at most `dn * 1000000000`. -/
theorem summary_quotients (inst : Instance) (id : SubCompositorId) :
    inst.summary_checked id = some (inst.summary id) ∧
    inst.summary id =
      .display_averaged id
        (if usec (inst.total_time_sum - inst.last_reported_total_time_sum) = 0 then 0
          else Int.tdiv ((inst.nframes - inst.last_reported_nframes) * 1000000000)
            (usec (inst.total_time_sum - inst.last_reported_total_time_sum)))
        (if inst.nframes - inst.last_reported_nframes = 0 then 0
          else Int.tdiv (usec (inst.frame_time_sum - inst.last_reported_frame_time_sum))
            (inst.nframes - inst.last_reported_nframes))
        (if inst.nframes - inst.last_reported_nframes = 0 then 0
          else Int.tdiv (usec (inst.latency_sum - inst.last_reported_latency_sum))
            (inst.nframes - inst.last_reported_nframes))
        (inst.nframes - inst.last_reported_nframes)
        (Int.tdiv (usec (inst.total_time_sum - inst.last_reported_total_time_sum)) 1000) ∧
    ∀ dt dn : Int, 0 < dt → 0 ≤ dn →
      Int.tdiv (dn * 1000000000) dt * dt ≤ dn * 1000000000 ∧
      dn * 1000000000 < (Int.tdiv (dn * 1000000000) dt + 1) * dt := by
  refine ⟨?_, ?_, ?_⟩
  · have h1 : ticks_per_usec ≠ 0 := by decide
    have h2 : (1000 : Int) ≠ 0 := by decide
    simp only [Instance.summary_checked, Instance.summary, usec, checked_div_eq _ _ h1,
      checked_div_eq _ _ h2, Option.bind_eq_bind, Option.some_bind]
    by_cases hdt : Int.tdiv (inst.total_time_sum - inst.last_reported_total_time_sum)
        ticks_per_usec = 0
    · by_cases hdn : inst.nframes - inst.last_reported_nframes = 0
      · simp [hdt, hdn]
      · simp [hdt, hdn, checked_div_eq _ _ hdn]
    · by_cases hdn : inst.nframes - inst.last_reported_nframes = 0
      · simp [hdt, hdn, checked_div_eq _ _ hdt]
      · simp [hdt, hdn, checked_div_eq _ _ hdt, checked_div_eq _ _ hdn]
  · simp only [Instance.summary]
    by_cases hdt : usec (inst.total_time_sum - inst.last_reported_total_time_sum) = 0
    · by_cases hdn : inst.nframes - inst.last_reported_nframes = 0 <;> simp [hdt, hdn]
    · by_cases hdn : inst.nframes - inst.last_reported_nframes = 0 <;> simp [hdt, hdn]
  · intro dt dn hdt hdn
    have hnum : 0 ≤ dn * 1000000000 := by positivity
    rw [Int.tdiv_eq_ediv hnum (le_of_lt hdt)]
    exact ⟨Int.ediv_mul_le _ (ne_of_gt hdt), Int.lt_ediv_add_one_mul_self _ hdt⟩

theorem record_of_find {m : List (SubCompositorId × Instance)} {id : SubCompositorId}
    {inst : Instance} (h : find m id = some inst) : record m id = inst := by
  simp [record, h]

theorem find_store_record (m : List (SubCompositorId × Instance)) (id : SubCompositorId)
    (inst : Instance) : find (store m id inst) id = some (record (store m id inst) id) := by
  simp only [record, find_store_self, Option.getD_some]

theorem find_account_frame_self (r : CompositorReport) (id : SubCompositorId) (t : TimePoint) :
    find (r.account_frame id t).instances id =
      some (record (r.account_frame id t).instances id) :=
  find_store_record _ _ _

theorem log_all_join (m : List (SubCompositorId × Instance)) :
    (log_all m).1 = (m.map (fun e => (e.2.log e.1).1)).flatten := by
  induction m with
  | nil => rfl
  | cons e rest ih =>
    obtain ⟨k, inst⟩ := e
    simp [log_all, ih]

/-- With a logger whose `log` returns, a report pass logs, record by record, what
`Instance::log` logs.  For a record whose `last_reported_total_time_sum` is
still the zero time point it logs nothing; for a record whose baseline is a
time after the clock's epoch it logs one line, which depends on the record only
through the differences of its sums to their baselines.  In both cases the four
baselines are set to the current sums, and the sums are kept. -/
theorem instance_log_cases (inst : Instance) (id : SubCompositorId) :
    (∀ m : List (SubCompositorId × Instance),
      (log_all m).1 = (m.map (fun e => (e.2.log e.1).1)).flatten) ∧
    (inst.last_reported_total_time_sum = 0 → (inst.log id).1 = []) ∧
    (0 ≤ inst.last_reported_total_time_sum → inst.last_reported_total_time_sum ≠ 0 →
      (inst.log id).1 = [inst.summary id]) ∧
    (inst.log id).2.baselines = inst.sums ∧
    (inst.log id).2.sums = inst.sums ∧
    (∀ other : Instance,
      other.total_time_sum - other.last_reported_total_time_sum =
        inst.total_time_sum - inst.last_reported_total_time_sum →
      other.frame_time_sum - other.last_reported_frame_time_sum =
        inst.frame_time_sum - inst.last_reported_frame_time_sum →
      other.latency_sum - other.last_reported_latency_sum =
        inst.latency_sum - inst.last_reported_latency_sum →
      other.nframes - other.last_reported_nframes = inst.nframes - inst.last_reported_nframes →
      other.summary id = inst.summary id) := by
  refine ⟨log_all_join, ?_, ?_, rfl, rfl, ?_⟩
  · intro h
    simp [Instance.log, h]
  · intro h0 h1
    have : 0 < inst.last_reported_total_time_sum := lt_of_le_of_ne h0 (Ne.symm h1)
    simp [Instance.log, this]
  · intro other h1 h2 h3 h4
    simp only [Instance.summary, h1, h2, h3, h4]

theorem find_finished_frame_self (r : CompositorReport) (id : SubCompositorId) (t : TimePoint) :
    find (r.finished_frame id t).instances id =
      some (if t - r.last_report ≥ min_report_interval
        then ((record (r.account_frame id t).instances id).log id).2
        else record (r.account_frame id t).instances id) := by
  by_cases h : t - r.last_report ≥ min_report_interval
  · rw [if_pos h, finished_frame_due r id t h, report_pass_instances, find_map_rebase,
      find_account_frame_self]
    rfl
  · rw [if_neg h, finished_frame_not_due r id t (not_le.1 h)]
    exact find_account_frame_self r id t

/-- The record of an output that had none, after one frame of it begins at
`t1` and finishes at `t2`. -/
theorem first_frame_record (r : CompositorReport) (id : SubCompositorId) (t1 t2 : TimePoint)
    (h : find r.instances id = none) :
    record ((r.began_frame id t1).finished_frame id t2).instances id =
      if t2 - r.last_report ≥ min_report_interval then
        { start_of_frame := t1, end_of_frame := t2, total_time_sum := 0 + (t2 - 0),
          frame_time_sum := 0 + (t2 - t1), latency_sum := 0 + (t1 - r.last_scheduled),
          nframes := 0 + 1, last_reported_total_time_sum := 0 + (t2 - 0),
          last_reported_frame_time_sum := 0 + (t2 - t1),
          last_reported_latency_sum := 0 + (t1 - r.last_scheduled),
          last_reported_nframes := 0 + 1 }
      else
        { start_of_frame := t1, end_of_frame := t2, total_time_sum := 0 + (t2 - 0),
          frame_time_sum := 0 + (t2 - t1), latency_sum := 0 + (t1 - r.last_scheduled),
          nframes := 0 + 1 } := by
  have hr : record r.instances id = {} := by simp [record, h]
  have hb : record (r.began_frame id t1).instances id =
      { start_of_frame := t1, latency_sum := 0 + (t1 - r.last_scheduled) } := by
    rw [record_of_find (find_began_frame_self r id t1), hr]
  have ha : record ((r.began_frame id t1).account_frame id t2).instances id =
      { start_of_frame := t1, end_of_frame := t2, total_time_sum := 0 + (t2 - 0),
        frame_time_sum := 0 + (t2 - t1), latency_sum := 0 + (t1 - r.last_scheduled),
        nframes := 0 + 1 } := by
    have h1 : find ((r.began_frame id t1).account_frame id t2).instances id =
        some { record (r.began_frame id t1).instances id with
          total_time_sum := (record (r.began_frame id t1).instances id).total_time_sum +
            (t2 - (record (r.began_frame id t1).instances id).end_of_frame)
          frame_time_sum := (record (r.began_frame id t1).instances id).frame_time_sum +
            (t2 - (record (r.began_frame id t1).instances id).start_of_frame)
          end_of_frame := t2
          nframes := (record (r.began_frame id t1).instances id).nframes + 1 } :=
      find_store_self _ _ _
    rw [record_of_find h1, hb]
  rw [record_of_find (find_finished_frame_self (r.began_frame id t1) id t2), ha]
  rfl

/-- With a logger whose `log` returns, `stopped()` removes every record, and the
record that an output `X` gets from
`stopped(); started(); began_frame(X); finished_frame(X)` after any history is
the record that the same `began_frame` and `finished_frame`, with the same clock
samples, give an output `Y` the report has no record of, with or without the
`stopped(); started()` before them. -/
theorem stopped_then_first_frame (r : CompositorReport) (X Y : SubCompositorId)
    (t1 t2 : TimePoint) (hY : find r.instances Y = none) :
    r.stopped.instances = [] ∧
    (∀ id, find r.stopped.started.instances id = none) ∧
    record ((r.stopped.started.began_frame X t1).finished_frame X t2).instances X =
      record ((r.began_frame Y t1).finished_frame Y t2).instances Y ∧
    record ((r.stopped.started.began_frame X t1).finished_frame X t2).instances X =
      record ((r.stopped.started.began_frame Y t1).finished_frame Y t2).instances Y := by
  have hnone : ∀ id, find r.stopped.started.instances id = none := fun _ => rfl
  refine ⟨rfl, hnone, ?_, ?_⟩
  · rw [first_frame_record _ X t1 t2 (hnone X), first_frame_record r Y t1 t2 hY]
    rfl
  · rw [first_frame_record _ X t1 t2 (hnone X), first_frame_record _ Y t1 t2 (hnone Y)]

theorem mem_store (m : List (SubCompositorId × Instance)) (id : SubCompositorId)
    (inst : Instance) (e : SubCompositorId × Instance) (h : e ∈ store m id inst) :
    e ∈ m ∨ e = (id, inst) := by
  induction m with
  | nil =>
    simp only [store, List.mem_singleton] at h
    exact Or.inr h
  | cons e0 rest ih =>
    obtain ⟨k, old⟩ := e0
    by_cases hk : k = id
    · subst hk
      simp only [store, if_true, List.mem_cons] at h
      rcases h with h | h
      · exact Or.inr h
      · exact Or.inl (List.mem_cons_of_mem _ h)
    · simp only [store, hk, if_false, List.mem_cons] at h
      rcases h with h | h
      · exact Or.inl (h ▸ List.mem_cons_self _ _)
      · rcases ih h with h1 | h1
        · exact Or.inl (List.mem_cons_of_mem _ h1)
        · exact Or.inr h1

theorem find_mem (m : List (SubCompositorId × Instance)) (id : SubCompositorId)
    (inst : Instance) (h : find m id = some inst) : (id, inst) ∈ m := by
  induction m with
  | nil => simp [find] at h
  | cons e0 rest ih =>
    obtain ⟨k, old⟩ := e0
    by_cases hk : k = id
    · subst hk
      simp only [find, if_true, Option.some.injEq] at h
      subst h
      exact List.mem_cons_self _ _
    · simp only [find, hk, if_false] at h
      exact List.mem_cons_of_mem _ (ih h)

theorem Instance.consistent_later {now t : TimePoint} {inst : Instance}
    (h : inst.consistent now) (ht : now ≤ t) : inst.consistent t :=
  ⟨le_trans h.1 ht, le_trans h.2.1 ht, h.2.2⟩

theorem record_consistent {now : TimePoint} {r : CompositorReport} (h : r.consistent now)
    (id : SubCompositorId) : (record r.instances id).consistent now := by
  unfold record
  cases hf : find r.instances id with
  | none =>
    have h0 := h.1
    exact ⟨h0, h0, le_refl _, le_refl _, le_refl _, le_refl _⟩
  | some inst => exact h.2.2 _ (find_mem _ _ _ hf)

theorem account_frame_consistent {now : TimePoint} {r : CompositorReport}
    (h : r.consistent now) (id : SubCompositorId) (t : TimePoint) (ht : now ≤ t) :
    (r.account_frame id t).consistent t := by
  refine ⟨le_trans h.1 ht, le_trans h.2.1 ht, ?_⟩
  intro e he
  rcases mem_store _ _ _ _ he with h1 | h1
  · exact Instance.consistent_later (h.2.2 e h1) ht
  · obtain ⟨c1, c2, c3, c4, c5, c6⟩ := record_consistent h id
    rw [h1]
    refine ⟨le_trans c1 ht, le_refl _, ?_, ?_, c5, ?_⟩
    · show (record r.instances id).last_reported_total_time_sum ≤
        (record r.instances id).total_time_sum + (t - (record r.instances id).end_of_frame)
      linarith
    · show (record r.instances id).last_reported_frame_time_sum ≤
        (record r.instances id).frame_time_sum + (t - (record r.instances id).start_of_frame)
      linarith
    · show (record r.instances id).last_reported_nframes ≤ (record r.instances id).nframes + 1
      linarith

theorem report_pass_consistent {now : TimePoint} {r : CompositorReport}
    (h : r.consistent now) (t : TimePoint) : (r.report_pass t).consistent now := by
  refine ⟨h.1, h.2.1, ?_⟩
  intro e he
  have : (r.report_pass t).instances = r.instances.map (fun e => (e.1, (e.2.log e.1).2)) :=
    log_all_map _
  rw [this, List.mem_map] at he
  obtain ⟨e0, he0, rfl⟩ := he
  obtain ⟨c1, c2, -⟩ := h.2.2 e0 he0
  exact ⟨c1, c2, le_refl _, le_refl _, le_refl _, le_refl _⟩

theorem began_frame_consistent {now : TimePoint} {r : CompositorReport}
    (h : r.consistent now) (id : SubCompositorId) (t : TimePoint) (ht : now ≤ t) :
    (r.began_frame id t).consistent t := by
  refine ⟨le_trans h.1 ht, le_trans h.2.1 ht, ?_⟩
  intro e he
  rcases mem_store _ _ _ _ he with h1 | h1
  · exact Instance.consistent_later (h.2.2 e h1) ht
  · obtain ⟨c1, c2, c3, c4, c5, c6⟩ := record_consistent h id
    rw [h1]
    refine ⟨le_refl _, le_trans c2 ht, c3, c4, ?_, c6⟩
    show (record r.instances id).last_reported_latency_sum ≤
      (record r.instances id).latency_sum + (t - r.last_scheduled)
    have := h.2.1
    linarith

theorem finished_frame_consistent {now : TimePoint} {r : CompositorReport}
    (h : r.consistent now) (id : SubCompositorId) (t : TimePoint) (ht : now ≤ t) :
    (r.finished_frame id t).consistent t := by
  rw [finished_frame_eq]
  split
  · exact report_pass_consistent (account_frame_consistent h id t ht) t
  · exact account_frame_consistent h id t ht

/-- A call whose clock sample is not earlier than `now` keeps the report in
agreement with the clock. -/
theorem call_consistent {now : TimePoint} {r : CompositorReport} (h : r.consistent now)
    (c : Call) (hc : monotonic now [c]) : (r.call c).consistent (clock_after now [c]) := by
  cases c with
  | added_display width height x y id => exact h
  | began_frame id t => exact began_frame_consistent h id t hc.1
  | finished_frame id t => exact finished_frame_consistent h id t hc.1
  | started => exact h
  | stopped => exact ⟨h.1, h.2.1, fun e he => by cases he⟩
  | scheduled t => exact ⟨le_trans h.1 hc.1, le_refl _, fun e he =>
      Instance.consistent_later (h.2.2 e he) hc.1⟩

theorem monotonic_cons (now : TimePoint) (c : Call) (cs : List Call) :
    monotonic now (c :: cs) ↔ monotonic now [c] ∧ monotonic (clock_after now [c]) cs := by
  cases c <;> simp [monotonic, clock_after]

theorem clock_after_cons (now : TimePoint) (c : Call) (cs : List Call) :
    clock_after now (c :: cs) = clock_after (clock_after now [c]) cs := by
  cases c <;> simp [clock_after]

theorem calls_consistent : ∀ (cs : List Call) (now : TimePoint) (r : CompositorReport),
    r.consistent now → monotonic now cs → (r.calls cs).consistent (clock_after now cs) := by
  intro cs
  induction cs with
  | nil => intro now r h _; exact h
  | cons c rest ih =>
    intro now r h hm
    rw [monotonic_cons] at hm
    rw [clock_after_cons]
    exact ih _ _ (call_consistent h c hm.1) hm.2

theorem monotonic_append : ∀ (cs ds : List Call) (now : TimePoint),
    monotonic now (cs ++ ds) → monotonic now cs ∧ monotonic (clock_after now cs) ds := by
  intro cs
  induction cs with
  | nil => intro ds now h; exact ⟨trivial, h⟩
  | cons c rest ih =>
    intro ds now h
    rw [List.cons_append, monotonic_cons] at h
    obtain ⟨h1, h2⟩ := ih ds _ h.2
    rw [monotonic_cons]
    refine ⟨⟨h.1, h1⟩, ?_⟩
    rw [clock_after_cons]
    exact h2

theorem calls_append (r : CompositorReport) (cs ds : List Call) :
    r.calls (cs ++ ds) = (r.calls cs).calls ds := by
  simp [CompositorReport.calls, List.foldl_append]

theorem create_consistent (t0 : TimePoint) (h : 0 ≤ t0) :
    (CompositorReport.create t0).consistent t0 :=
  ⟨h, h, fun e he => by cases he⟩

theorem find_account_frame_eq (r : CompositorReport) (id : SubCompositorId) (t : TimePoint) :
    find (r.account_frame id t).instances id =
      some { record r.instances id with
        total_time_sum := (record r.instances id).total_time_sum +
          (t - (record r.instances id).end_of_frame)
        frame_time_sum := (record r.instances id).frame_time_sum +
          (t - (record r.instances id).start_of_frame)
        end_of_frame := t
        nframes := (record r.instances id).nframes + 1 } :=
  find_store_self _ _ _

theorem finished_frame_sums (r : CompositorReport) (id other : SubCompositorId) (t : TimePoint) :
    (record (r.finished_frame id t).instances other).sums =
      (record (r.account_frame id t).instances other).sums := by
  by_cases h : t - r.last_report ≥ min_report_interval
  · rw [finished_frame_due r id t h]
    simp only [record, report_pass_instances, find_map_rebase]
    cases find (r.account_frame id t).instances other <;> rfl
  · rw [finished_frame_not_due r id t (not_le.1 h)]

/-- A call other than `stopped()`, whose clock sample is not earlier than
`now`, lowers none of the sums of any record. -/
theorem call_sums {now : TimePoint} {r : CompositorReport} (h : r.consistent now)
    (c : Call) (hm : monotonic now [c]) (hc : c ≠ .stopped) (id : SubCompositorId) :
    (record r.instances id).total_time_sum ≤ (record (r.call c).instances id).total_time_sum ∧
    (record r.instances id).frame_time_sum ≤ (record (r.call c).instances id).frame_time_sum ∧
    (record r.instances id).latency_sum ≤ (record (r.call c).instances id).latency_sum ∧
    (record r.instances id).nframes ≤ (record (r.call c).instances id).nframes := by
  have same : ∀ r1 : CompositorReport, r1.instances = r.instances →
      (record r.instances id).total_time_sum ≤ (record r1.instances id).total_time_sum ∧
      (record r.instances id).frame_time_sum ≤ (record r1.instances id).frame_time_sum ∧
      (record r.instances id).latency_sum ≤ (record r1.instances id).latency_sum ∧
      (record r.instances id).nframes ≤ (record r1.instances id).nframes := by
    intro r1 e
    rw [e]
    exact ⟨le_refl _, le_refl _, le_refl _, le_refl _⟩
  obtain ⟨c1, c2, -⟩ := record_consistent h id
  cases c with
  | added_display width height x y i => exact same _ rfl
  | started => exact same _ rfl
  | stopped => exact absurd rfl hc
  | scheduled t => exact same _ rfl
  | began_frame i t =>
    by_cases hi : id = i
    · subst hi
      simp only [CompositorReport.call]
      rw [record_of_find (find_began_frame_self r id t)]
      refine ⟨le_refl _, le_refl _, ?_, le_refl _⟩
      show (record r.instances id).latency_sum ≤
        (record r.instances id).latency_sum + (t - r.last_scheduled)
      have := h.2.1
      have := hm.1
      linarith
    · simp only [CompositorReport.call, record, find_began_frame_other r i id t hi]
      exact ⟨le_refl _, le_refl _, le_refl _, le_refl _⟩
  | finished_frame i t =>
    have hs := finished_frame_sums r i id t
    have e1 : (record (r.finished_frame i t).instances id).total_time_sum =
        (record (r.account_frame i t).instances id).total_time_sum := congrArg Prod.fst hs
    have e2 : (record (r.finished_frame i t).instances id).frame_time_sum =
        (record (r.account_frame i t).instances id).frame_time_sum :=
      congrArg (fun x => x.2.1) hs
    have e3 : (record (r.finished_frame i t).instances id).latency_sum =
        (record (r.account_frame i t).instances id).latency_sum :=
      congrArg (fun x => x.2.2.1) hs
    have e4 : (record (r.finished_frame i t).instances id).nframes =
        (record (r.account_frame i t).instances id).nframes :=
      congrArg (fun x => x.2.2.2) hs
    simp only [CompositorReport.call]
    rw [e1, e2, e3, e4]
    by_cases hi : id = i
    · subst hi
      rw [record_of_find (find_account_frame_eq r id t)]
      have := hm.1
      refine ⟨?_, ?_, le_refl _, ?_⟩
      · show (record r.instances id).total_time_sum ≤
          (record r.instances id).total_time_sum + (t - (record r.instances id).end_of_frame)
        linarith
      · show (record r.instances id).frame_time_sum ≤
          (record r.instances id).frame_time_sum + (t - (record r.instances id).start_of_frame)
        linarith
      · show (record r.instances id).nframes ≤ (record r.instances id).nframes + 1
        linarith
    · simp only [record, find_account_frame_other r i id t hi]
      exact ⟨le_refl _, le_refl _, le_refl _, le_refl _⟩

theorem log_to_reliable (logger : Logger) (hl : ∀ m, logger.throws m = false) (inst : Instance)
    (id : SubCompositorId) : inst.log_to logger id = some (inst.log id) := by
  simp [Instance.log_to, hl]

theorem log_all_to_reliable (logger : Logger) (hl : ∀ m, logger.throws m = false)
    (l : List (SubCompositorId × Instance)) :
    log_all_to logger l = ((log_all l).1, (log_all l).2, false) := by
  induction l with
  | nil => rfl
  | cons e rest ih =>
    obtain ⟨k, inst⟩ := e
    simp only [log_all_to, log_to_reliable logger hl, ih, log_all]

theorem log_all_to_thrown (logger : Logger) (l : List (SubCompositorId × Instance)) :
    (log_all_to logger l).2.2 = true ↔
      ∃ e ∈ l, 0 < e.2.last_reported_total_time_sum ∧ logger.throws (e.2.summary e.1) = true := by
  induction l with
  | nil => simp [log_all_to]
  | cons e rest ih =>
    obtain ⟨k, inst⟩ := e
    by_cases hc : inst.last_reported_total_time_sum > 0 ∧ logger.throws (inst.summary k) = true
    · have h1 : inst.log_to logger k = none := by simp [Instance.log_to, hc]
      simp only [log_all_to, h1, true_iff]
      exact ⟨(k, inst), List.mem_cons_self _ _, hc.1, hc.2⟩
    · have h1 : inst.log_to logger k = some (inst.log k) := by simp [Instance.log_to, hc]
      simp only [log_all_to, h1, ih, List.mem_cons]
      constructor
      · rintro ⟨e, he, h2⟩
        exact ⟨e, Or.inr he, h2⟩
      · rintro ⟨e, he | he, h2⟩
        · subst he
          exact absurd h2 hc
        · exact ⟨e, he, h2⟩

theorem finished_frame_to_eq (logger : Logger) (r : CompositorReport) (id : SubCompositorId)
    (t : TimePoint) :
    r.finished_frame_to logger id t =
      if t - r.last_report ≥ min_report_interval then
        if (log_all_to logger (r.account_frame id t).instances).2.2 then
          .threw { r.account_frame id t with
            last_report := t
            instances := (log_all_to logger (r.account_frame id t).instances).2.1
            logged := r.logged ++ (log_all_to logger (r.account_frame id t).instances).1 }
        else
          .returned { r.account_frame id t with
            last_report := t
            instances := (log_all_to logger (r.account_frame id t).instances).2.1
            logged := r.logged ++ (log_all_to logger (r.account_frame id t).instances).1 }
      else .returned (r.account_frame id t) := rfl

/-- The counterexample to C20: the logger throws on every message and the
report holds the record of output 1; `started()` and `stopped()` are left by
the exception, and `stopped()` has not cleared the record. -/
theorem logging_failure_counterexample :
    (((CompositorReport.create 0).finished_frame 1 5).started_to ⟨fun _ => true⟩).has_thrown
      = true ∧
    (((CompositorReport.create 0).finished_frame 1 5).stopped_to ⟨fun _ => true⟩).has_thrown
      = true ∧
    (((CompositorReport.create 0).finished_frame 1 5).stopped_to
      ⟨fun _ => true⟩).report.instances ≠ [] := by
  decide

/-- C20, amended: the report does not handle a failure of the logger.  With a
logger whose `log` never throws, `added_display`, `started`, `stopped` and
`finished_frame` return, doing what they do in the model without a logger,
and `stopped()` clears every record.  With any logger, `added_display`,
`started` and `stopped` are left by an exception exactly when `log` throws on
their message, `stopped()` then leaving the report as it was, records
included; and `finished_frame` is left by an exception exactly when a report
pass is due and `log` throws on the line of a record of the pass. -/
theorem logging_failure_reaches_caller (logger : Logger) (r : CompositorReport)
    (id : SubCompositorId) (t : TimePoint) (width height x y : Int) :
    ((∀ m, logger.throws m = false) →
      r.added_display_to logger width height x y id =
        .returned (r.added_display width height x y id) ∧
      r.started_to logger = .returned r.started ∧
      r.stopped_to logger = .returned r.stopped ∧
      r.stopped.instances = [] ∧
      r.finished_frame_to logger id t = .returned (r.finished_frame id t)) ∧
    (r.added_display_to logger width height x y id).has_thrown =
      logger.throws (.added_display id width height x y) ∧
    (r.started_to logger).has_thrown = logger.throws .started ∧
    (r.stopped_to logger).has_thrown = logger.throws .stopped ∧
    (logger.throws .stopped = true → r.stopped_to logger = .threw r) ∧
    (logger.throws .stopped = false → (r.stopped_to logger).report.instances = []) ∧
    ((r.finished_frame_to logger id t).has_thrown = true ↔
      t - r.last_report ≥ min_report_interval ∧
        ∃ e ∈ (r.account_frame id t).instances,
          0 < e.2.last_reported_total_time_sum ∧ logger.throws (e.2.summary e.1) = true) := by
  refine ⟨?_, ?_, ?_, ?_, ?_, ?_, ?_⟩
  · intro hl
    refine ⟨?_, ?_, ?_, rfl, ?_⟩
    · simp [CompositorReport.added_display_to, Logger.log, hl, CompositorReport.added_display]
    · simp [CompositorReport.started_to, Logger.log, hl, CompositorReport.started]
    · simp [CompositorReport.stopped_to, Logger.log, hl, CompositorReport.stopped]
    · rw [finished_frame_to_eq, finished_frame_eq, log_all_to_reliable logger hl]
      by_cases h : t - r.last_report ≥ min_report_interval
      · simp only [h, if_true, Bool.false_eq_true, if_false]
        rfl
      · simp only [h, if_false]
  · cases hb : logger.throws (.added_display id width height x y) <;>
      simp [CompositorReport.added_display_to, Logger.log, hb, Completion.has_thrown]
  · cases hb : logger.throws .started <;>
      simp [CompositorReport.started_to, Logger.log, hb, Completion.has_thrown]
  · cases hb : logger.throws .stopped <;>
      simp [CompositorReport.stopped_to, Logger.log, hb, Completion.has_thrown]
  · intro hb
    simp [CompositorReport.stopped_to, Logger.log, hb]
  · intro hb
    simp [CompositorReport.stopped_to, Logger.log, hb, Completion.report]
  · rw [finished_frame_to_eq, ← log_all_to_thrown]
    by_cases h : t - r.last_report ≥ min_report_interval
    · cases hb : (log_all_to logger (r.account_frame id t).instances).2.2 <;>
        simp [h, hb, Completion.has_thrown]
    · simp [h, Completion.has_thrown]

/-- C20, amended, at a concrete report: with a logger that never throws,
`stopped()` returns and the record of output 1 is gone. -/
theorem logging_failure_reaches_caller_witness :
    (((CompositorReport.create 0).finished_frame 1 5).stopped_to ⟨fun _ => false⟩).has_thrown
      = false ∧
    (((CompositorReport.create 0).finished_frame 1 5).stopped_to
      ⟨fun _ => false⟩).report.instances = [] := by
  have h := ((logging_failure_reaches_caller ⟨fun _ => false⟩
    ((CompositorReport.create 0).finished_frame 1 5) 1 0 0 0 0 0).1 (fun _ => rfl)).2.2.1
  rw [h]
  exact ⟨rfl, rfl⟩

theorem record_in_step (m : List (SubCompositorId × Instance)) (id : SubCompositorId)
    (h : ∀ e ∈ m, e.2.in_step) : (record m id).in_step := by
  unfold record
  cases hf : find m id with
  | none => rfl
  | some inst => exact h _ (find_mem m id inst hf)

theorem account_frame_in_step (r : CompositorReport) (id : SubCompositorId) (t : TimePoint)
    (h : ∀ e ∈ r.instances, e.2.in_step) : ∀ e ∈ (r.account_frame id t).instances, e.2.in_step := by
  intro e he
  rcases mem_store _ _ _ _ he with hm | rfl
  · exact h e hm
  · have h0 := record_in_step r.instances id h
    unfold Instance.in_step at h0 ⊢
    simp only [h0]
    ring

theorem report_pass_in_step (r : CompositorReport) (t : TimePoint)
    (h : ∀ e ∈ r.instances, e.2.in_step) :
    ∀ e ∈ (r.report_pass t).instances,
      e.2.in_step ∧ e.2.last_reported_total_time_sum = e.2.end_of_frame := by
  intro e he
  rw [report_pass_instances, List.mem_map] at he
  obtain ⟨e0, he0, rfl⟩ := he
  exact ⟨h e0 he0, h e0 he0⟩

theorem call_in_step (r : CompositorReport) (c : Call)
    (h : ∀ e ∈ r.instances, e.2.in_step) : ∀ e ∈ (r.call c).instances, e.2.in_step := by
  cases c with
  | added_display width height x y id => exact h
  | began_frame id t =>
    intro e he
    rcases mem_store _ _ _ _ he with hm | rfl
    · exact h e hm
    · exact record_in_step r.instances id h
  | finished_frame id t =>
    show ∀ e ∈ (r.finished_frame id t).instances, e.2.in_step
    by_cases hd : t - r.last_report ≥ min_report_interval
    · rw [finished_frame_due r id t hd]
      intro e he
      exact (report_pass_in_step _ t (account_frame_in_step r id t h) e he).1
    · rw [finished_frame_not_due r id t (not_le.1 hd)]
      exact account_frame_in_step r id t h
  | started => exact h
  | stopped => intro e he; cases he
  | scheduled t => exact h

theorem calls_in_step : ∀ (cs : List Call) (r : CompositorReport),
    (∀ e ∈ r.instances, e.2.in_step) → ∀ e ∈ (r.calls cs).instances, e.2.in_step := by
  intro cs
  induction cs with
  | nil => intro r h; exact h
  | cons c rest ih => intro r h; exact ih (r.call c) (call_in_step r c h)

/-! ### The report with a logger that may throw -/

theorem log_to_none_iff (logger : Logger) (inst : Instance) (id : SubCompositorId) :
    inst.log_to logger id = none ↔
      0 < inst.last_reported_total_time_sum ∧ logger.throws (inst.summary id) = true := by
  unfold Instance.log_to
  split
  · rename_i hc
    exact ⟨fun _ => hc, fun _ => rfl⟩
  · rename_i hc
    exact ⟨fun h => (by cases h), fun h => absurd h hc⟩

theorem log_to_some (logger : Logger) (inst : Instance) (id : SubCompositorId)
    (h : ¬ (0 < inst.last_reported_total_time_sum ∧ logger.throws (inst.summary id) = true)) :
    inst.log_to logger id = some (inst.log id) := by
  unfold Instance.log_to
  rw [if_neg h]

/-- A loop over the records that no exception ends has done what the loop does
when `log` always returns. -/
theorem log_all_to_returned (logger : Logger) (l : List (SubCompositorId × Instance))
    (h : (log_all_to logger l).2.2 = false) :
    log_all_to logger l = ((log_all l).1, (log_all l).2, false) := by
  induction l with
  | nil => rfl
  | cons e rest ih =>
    obtain ⟨k, inst⟩ := e
    by_cases hc : 0 < inst.last_reported_total_time_sum ∧ logger.throws (inst.summary k) = true
    · have h1 : inst.log_to logger k = none := (log_to_none_iff logger inst k).2 hc
      simp [log_all_to, h1] at h
    · have h1 : inst.log_to logger k = some (inst.log k) := log_to_some logger inst k hc
      have h2 : (log_all_to logger rest).2.2 = false := by
        simpa [log_all_to, h1] using h
      simp only [log_all_to, h1, ih h2, log_all]

/-- A `finished_frame` that returns has done what it does when `log` always
returns. -/
theorem finished_frame_to_returned (logger : Logger) (r : CompositorReport)
    (id : SubCompositorId) (t : TimePoint)
    (h : (r.finished_frame_to logger id t).has_thrown = false) :
    r.finished_frame_to logger id t = .returned (r.finished_frame id t) := by
  rw [finished_frame_to_eq] at h ⊢
  rw [finished_frame_eq]
  by_cases hd : t - r.last_report ≥ min_report_interval
  · rw [if_pos hd] at h ⊢
    rw [if_pos hd]
    cases hb : (log_all_to logger (r.account_frame id t).instances).2.2 with
    | true => rw [hb] at h; simp [Completion.has_thrown] at h
    | false =>
      rw [log_all_to_returned logger _ hb]
      rfl
  · rw [if_neg hd, if_neg hd]

/-- The counterexample to C13: output 1 has been through a first pass at 1 s; at
2 s a frame of output 1 triggers the next pass, and the logger throws on the
line of output 1.  The pass has run, `last_report` has moved, but the baselines
of the record are still those of the first pass and differ from its sums. -/
theorem report_pass_counterexample :
    2000000000 - ((CompositorReport.create 0).finished_frame 1 1000000000).last_report ≥
      min_report_interval ∧
    (((CompositorReport.create 0).finished_frame 1 1000000000).finished_frame_to
      ⟨fun _ => true⟩ 1 2000000000).report.last_report = 2000000000 ∧
    (record (((CompositorReport.create 0).finished_frame 1 1000000000).finished_frame_to
      ⟨fun _ => true⟩ 1 2000000000).report.instances 1).baselines =
        (1000000000, 1000000000, 0, 1) ∧
    (record (((CompositorReport.create 0).finished_frame 1 1000000000).finished_frame_to
      ⟨fun _ => true⟩ 1 2000000000).report.instances 1).sums =
        (2000000000, 3000000000, 0, 2) := by
  decide

/-- C13, amended: when the report pass runs in `finished_frame(id)` and the call
returns, no call of the logger having thrown, the pass has covered every tracked
output and not only `id`: the map afterwards holds the same outputs with the
same accumulated sums as after the accounting of the frame (those of the other
outputs are the sums from before the call), and in every record each
`last_reported_*` value equals the accumulated value it is the baseline of. -/
theorem report_pass_covers_all (logger : Logger) (r : CompositorReport)
    (id : SubCompositorId) (t : TimePoint)
    (h : t - r.last_report ≥ min_report_interval)
    (hret : (r.finished_frame_to logger id t).has_thrown = false) :
    (r.finished_frame_to logger id t).report.instances.map (fun e => (e.1, e.2.sums)) =
      (r.account_frame id t).instances.map (fun e => (e.1, e.2.sums)) ∧
    (∀ e ∈ (r.finished_frame_to logger id t).report.instances, e.2.baselines = e.2.sums) ∧
    (∀ other, (record (r.finished_frame_to logger id t).report.instances other).sums =
      (record (r.account_frame id t).instances other).sums) ∧
    (∀ other, other ≠ id →
      (record (r.finished_frame_to logger id t).report.instances other).sums =
        (record r.instances other).sums) ∧
    (record (r.finished_frame_to logger id t).report.instances id).sums =
      ((record r.instances id).total_time_sum + (t - (record r.instances id).end_of_frame),
       (record r.instances id).frame_time_sum + (t - (record r.instances id).start_of_frame),
       (record r.instances id).latency_sum, (record r.instances id).nframes + 1) ∧
    (r.finished_frame_to logger id t).report.last_report = t := by
  have heq := finished_frame_to_returned logger r id t hret
  obtain ⟨h1, h2, h3, h4, -⟩ := finished_frame_due_rebases r id t h
  rw [heq]
  refine ⟨h1, h2, h3, h4, ?_, ?_⟩
  · show (record (r.finished_frame id t).instances id).sums = _
    rw [h3 id, record_of_find (find_account_frame_eq r id t)]
    rfl
  · show (r.finished_frame id t).last_report = t
    rw [finished_frame_due r id t h]
    rfl

/-- Witness for C13: output 1 has two frames and output 2 one when a frame of
output 1 triggers the pass, with a logger that throws on nothing; the baselines
of output 2 are rebased as well. -/
theorem report_pass_covers_all_witness :
    (((CompositorReport.create 0).finished_frame 1 100).finished_frame 2 200).instances.length
      = 2 ∧
    ∀ e ∈ ((((CompositorReport.create 0).finished_frame 1 100).finished_frame 2
        200).finished_frame_to ⟨fun _ => false⟩ 1 1000000000).report.instances,
      e.2.baselines = e.2.sums :=
  ⟨by decide,
   (report_pass_covers_all ⟨fun _ => false⟩
      (((CompositorReport.create 0).finished_frame 1 100).finished_frame 2 200) 1 1000000000
      (by decide) (by decide)).2.1⟩

/-- The counterexample to C16: the clock reads times before its epoch.  The
pass at -2 s is the first to reach output 1 and leaves it the baseline -2 s,
which is not the zero time point; the next pass, at -1 s, reaches the record
with that non-zero baseline and, the test being `> TimePoint()`, logs no line
for it, although the logger throws on nothing. -/
theorem later_report_silent_counterexample :
    (record ((CompositorReport.create (-3000000000)).finished_frame_to ⟨fun _ => false⟩ 1
      (-2000000000)).report.instances 1).last_reported_total_time_sum = -2000000000 ∧
    (-1000000000) - ((CompositorReport.create (-3000000000)).finished_frame_to
      ⟨fun _ => false⟩ 1 (-2000000000)).report.last_report ≥ min_report_interval ∧
    ((((CompositorReport.create (-3000000000)).finished_frame_to ⟨fun _ => false⟩ 1
      (-2000000000)).report.finished_frame_to ⟨fun _ => false⟩ 1
      (-1000000000)).has_thrown = false) ∧
    (((CompositorReport.create (-3000000000)).finished_frame_to ⟨fun _ => false⟩ 1
      (-2000000000)).report.finished_frame_to ⟨fun _ => false⟩ 1
      (-1000000000)).report.logged = [] := by
  decide

/-- C16, amended: what `Instance::log` does to a record a report pass reaches,
with any logger.  While `last_reported_total_time_sum` is still the zero time
point (or before it) the logger is not called, no line is logged, and the four
baselines are set to the current sums.  Once the baseline is a time after the
clock's epoch the logger is called with one line, which depends on the record
only through the differences of its sums to their baselines: when that call
returns the line is logged and the four baselines are set to the current sums,
when it throws the record is left as it was.  A pass that returns has logged,
record by record in the order of the map, exactly these lines. -/
theorem first_report_is_silent (logger : Logger) (inst : Instance) (id : SubCompositorId) :
    (inst.last_reported_total_time_sum ≤ 0 →
      inst.log_to logger id =
        some ([], { inst with
          last_reported_total_time_sum := inst.total_time_sum
          last_reported_frame_time_sum := inst.frame_time_sum
          last_reported_latency_sum := inst.latency_sum
          last_reported_nframes := inst.nframes })) ∧
    (0 < inst.last_reported_total_time_sum → logger.throws (inst.summary id) = false →
      inst.log_to logger id =
        some ([inst.summary id], { inst with
          last_reported_total_time_sum := inst.total_time_sum
          last_reported_frame_time_sum := inst.frame_time_sum
          last_reported_latency_sum := inst.latency_sum
          last_reported_nframes := inst.nframes })) ∧
    (0 < inst.last_reported_total_time_sum → logger.throws (inst.summary id) = true →
      inst.log_to logger id = none) ∧
    (∀ out, inst.log_to logger id = some out →
      out.2.baselines = inst.sums ∧ out.2.sums = inst.sums) ∧
    (∀ other : Instance,
      other.total_time_sum - other.last_reported_total_time_sum =
        inst.total_time_sum - inst.last_reported_total_time_sum →
      other.frame_time_sum - other.last_reported_frame_time_sum =
        inst.frame_time_sum - inst.last_reported_frame_time_sum →
      other.latency_sum - other.last_reported_latency_sum =
        inst.latency_sum - inst.last_reported_latency_sum →
      other.nframes - other.last_reported_nframes = inst.nframes - inst.last_reported_nframes →
      other.summary id = inst.summary id) ∧
    (∀ (r : CompositorReport) (t : TimePoint), t - r.last_report ≥ min_report_interval →
      (r.finished_frame_to logger id t).has_thrown = false →
      (r.finished_frame_to logger id t).report.logged =
        r.logged ++ ((r.account_frame id t).instances.map (fun e =>
          if 0 < e.2.last_reported_total_time_sum then [e.2.summary e.1] else [])).flatten) := by
  refine ⟨?_, ?_, ?_, ?_, ?_, ?_⟩
  · intro h
    rw [log_to_some logger inst id (fun hc => absurd hc.1 (not_lt.2 h))]
    simp [Instance.log, not_lt.2 h]
  · intro h hl
    rw [log_to_some logger inst id (fun hc => by rw [hl] at hc; cases hc.2)]
    simp [Instance.log, h]
  · intro h hl
    exact (log_to_none_iff logger inst id).2 ⟨h, hl⟩
  · intro out hout
    by_cases hc : 0 < inst.last_reported_total_time_sum ∧ logger.throws (inst.summary id) = true
    · rw [(log_to_none_iff logger inst id).2 hc] at hout
      cases hout
    · rw [log_to_some logger inst id hc] at hout
      cases hout
      exact ⟨rfl, rfl⟩
  · intro other h1 h2 h3 h4
    simp only [Instance.summary, h1, h2, h3, h4]
  · intro r t hd hret
    rw [finished_frame_to_returned logger r id t hret]
    show (r.finished_frame id t).logged = _
    rw [finished_frame_due r id t hd, report_pass_logged, log_all_join]
    rfl

/-- Witness for C16: a record at its first pass is rebased without a call of the
logger, here one that throws on every message; the pass at 1 s is the first to
reach output 1 and logs nothing, the pass at 2 s logs one line for it. -/
theorem first_report_is_silent_witness :
    (({ total_time_sum := 5 } : Instance).log_to ⟨fun _ => true⟩ 1) =
      some ([], { total_time_sum := 5, last_reported_total_time_sum := 5 }) ∧
    ((CompositorReport.create 0).finished_frame_to ⟨fun _ => false⟩ 1
      1000000000).report.logged = [] ∧
    (((CompositorReport.create 0).finished_frame_to ⟨fun _ => false⟩ 1
      1000000000).report.finished_frame_to ⟨fun _ => false⟩ 1 2000000000).report.logged =
      [.display_averaged 1 1000 2000000 0 1 1000] :=
  ⟨(first_report_is_silent ⟨fun _ => true⟩ { total_time_sum := 5 } 1).1 (by decide),
   by decide, by decide⟩

/-- The counterexample to C17: output 1 has a record with one frame, and the
logger throws on the message of `stopped()`.  The call is left by the exception
before the map is cleared, so the record stays; when the caller goes on with
`started(); began_frame(1); finished_frame(1)` the record of output 1 counts two
frames, where the same calls give the unused output 2 a record with one. -/
theorem stopped_keeps_outputs_counterexample :
    (((CompositorReport.create 0).finished_frame 1 5).stopped_to
      ⟨fun m => decide (m = .stopped)⟩).has_thrown = true ∧
    (((CompositorReport.create 0).finished_frame 1 5).stopped_to
      ⟨fun m => decide (m = .stopped)⟩).report.instances =
        ((CompositorReport.create 0).finished_frame 1 5).instances ∧
    (record ((((((CompositorReport.create 0).finished_frame 1 5).stopped_to
      ⟨fun m => decide (m = .stopped)⟩).report.started_to
      ⟨fun m => decide (m = .stopped)⟩).report.began_frame 1 10).finished_frame_to
      ⟨fun m => decide (m = .stopped)⟩ 1 20).report.instances 1).nframes = 2 ∧
    (record ((((((CompositorReport.create 0).finished_frame 1 5).stopped_to
      ⟨fun m => decide (m = .stopped)⟩).report.started_to
      ⟨fun m => decide (m = .stopped)⟩).report.began_frame 2 10).finished_frame_to
      ⟨fun m => decide (m = .stopped)⟩ 2 20).report.instances 2).nframes = 1 := by
  decide

theorem stopped_to_returned (logger : Logger) (r : CompositorReport)
    (hs : logger.throws .stopped = false) :
    r.stopped_to logger = .returned { r with logged := r.logged ++ [.stopped], instances := [] } := by
  simp [CompositorReport.stopped_to, Logger.log, hs]

theorem started_to_report (logger : Logger) (r : CompositorReport) :
    (r.started_to logger).report.instances = r.instances ∧
    (r.started_to logger).report.last_scheduled = r.last_scheduled ∧
    (r.started_to logger).report.last_report = r.last_report := by
  cases hb : logger.throws .started <;>
    simp [CompositorReport.started_to, Logger.log, hb, Completion.report]

/-- The first frame of an output the report has no record of, with any logger:
no line is due for the new record, so the call returns if the logger returns on
the lines of the other records. -/
theorem first_frame_to_record (logger : Logger) (r : CompositorReport) (id : SubCompositorId)
    (t1 t2 : TimePoint) (h : r.instances = []) :
    ((r.began_frame id t1).finished_frame_to logger id t2).has_thrown = false ∧
    record ((r.began_frame id t1).finished_frame_to logger id t2).report.instances id =
      if t2 - r.last_report ≥ min_report_interval then
        { start_of_frame := t1, end_of_frame := t2, total_time_sum := 0 + (t2 - 0),
          frame_time_sum := 0 + (t2 - t1), latency_sum := 0 + (t1 - r.last_scheduled),
          nframes := 0 + 1, last_reported_total_time_sum := 0 + (t2 - 0),
          last_reported_frame_time_sum := 0 + (t2 - t1),
          last_reported_latency_sum := 0 + (t1 - r.last_scheduled),
          last_reported_nframes := 0 + 1 }
      else
        { start_of_frame := t1, end_of_frame := t2, total_time_sum := 0 + (t2 - 0),
          frame_time_sum := 0 + (t2 - t1), latency_sum := 0 + (t1 - r.last_scheduled),
          nframes := 0 + 1 } := by
  have hnone : find r.instances id = none := by rw [h]; rfl
  have hret : ((r.began_frame id t1).finished_frame_to logger id t2).has_thrown = false := by
    rw [finished_frame_to_eq]
    by_cases hd : t2 - (r.began_frame id t1).last_report ≥ min_report_interval
    · rw [if_pos hd]
      have hno : (log_all_to logger ((r.began_frame id t1).account_frame id t2).instances).2.2 =
          false := by
        rw [Bool.eq_false_iff]
        intro hth
        obtain ⟨e, he, hpos, -⟩ := (log_all_to_thrown logger _).1 hth
        have hr : record r.instances id = {} := by simp [record, hnone]
        have hb : record (r.began_frame id t1).instances id =
            { start_of_frame := t1, latency_sum := 0 + (t1 - r.last_scheduled) } := by
          rw [record_of_find (find_began_frame_self r id t1), hr]
        have hzero : e.2.last_reported_total_time_sum = 0 := by
          rcases mem_store _ _ _ _ he with hm | rfl
          · rcases mem_store _ _ _ _ hm with hm2 | rfl
            · rw [h] at hm2
              cases hm2
            · show (record r.instances id).last_reported_total_time_sum = 0
              rw [hr]
          · show (record (r.began_frame id t1).instances id).last_reported_total_time_sum = 0
            rw [hb]
        rw [hzero] at hpos
        exact absurd hpos (by decide)
      rw [hno]
      rfl
    · rw [if_neg hd]
      rfl
  refine ⟨hret, ?_⟩
  rw [finished_frame_to_returned logger _ id t2 hret]
  exact first_frame_record r id t1 t2 hnone

/-- C17, amended: when the logger returns on the message of `stopped()`, the
call removes every per-output record; and then, whatever the history and the
logger do otherwise, the record that a previously used output `X` gets from
`stopped(); started(); began_frame(X); finished_frame(X)` is the record that the
same calls with the same clock samples give any other output `Y`: the record of
a first frame, which depends only on the two clock samples and on the
report-wide `last_scheduled` and `last_report`.  The `finished_frame` of that
sequence returns, no line being due for a record at its first pass. -/
theorem stopped_forgets_outputs (logger : Logger) (r : CompositorReport)
    (X Y : SubCompositorId) (t1 t2 : TimePoint) (hs : logger.throws .stopped = false) :
    r.stopped_to logger =
      .returned { r with logged := r.logged ++ [.stopped], instances := [] } ∧
    (r.stopped_to logger).report.instances = [] ∧
    (∀ id, find ((r.stopped_to logger).report.started_to logger).report.instances id = none) ∧
    (((((r.stopped_to logger).report.started_to logger).report.began_frame X
      t1).finished_frame_to logger X t2).has_thrown = false) ∧
    record (((((r.stopped_to logger).report.started_to logger).report.began_frame X
        t1).finished_frame_to logger X t2).report.instances) X =
      (if t2 - r.last_report ≥ min_report_interval then
        { start_of_frame := t1, end_of_frame := t2, total_time_sum := 0 + (t2 - 0),
          frame_time_sum := 0 + (t2 - t1), latency_sum := 0 + (t1 - r.last_scheduled),
          nframes := 0 + 1, last_reported_total_time_sum := 0 + (t2 - 0),
          last_reported_frame_time_sum := 0 + (t2 - t1),
          last_reported_latency_sum := 0 + (t1 - r.last_scheduled),
          last_reported_nframes := 0 + 1 }
      else
        { start_of_frame := t1, end_of_frame := t2, total_time_sum := 0 + (t2 - 0),
          frame_time_sum := 0 + (t2 - t1), latency_sum := 0 + (t1 - r.last_scheduled),
          nframes := 0 + 1 }) ∧
    record (((((r.stopped_to logger).report.started_to logger).report.began_frame X
        t1).finished_frame_to logger X t2).report.instances) X =
      record (((((r.stopped_to logger).report.started_to logger).report.began_frame Y
        t1).finished_frame_to logger Y t2).report.instances) Y := by
  have hst := stopped_to_returned logger r hs
  have h0 : (r.stopped_to logger).report.instances = [] := by rw [hst]; rfl
  have hls : (r.stopped_to logger).report.last_scheduled = r.last_scheduled := by rw [hst]; rfl
  have hlr : (r.stopped_to logger).report.last_report = r.last_report := by rw [hst]; rfl
  obtain ⟨h1, h2, h3⟩ := started_to_report logger (r.stopped_to logger).report
  have hempty : ((r.stopped_to logger).report.started_to logger).report.instances = [] := by
    rw [h1, h0]
  have hX := first_frame_to_record logger _ X t1 t2 hempty
  have hY := first_frame_to_record logger _ Y t1 t2 hempty
  rw [h2, h3, hls, hlr] at hX hY
  refine ⟨hst, h0, fun id => by rw [hempty]; rfl, hX.1, hX.2, ?_⟩
  rw [hX.2, hY.2]

/-- Witness for C17: output 1 has accumulated two frames and a baseline; the
logger returns on the message of `stopped()` and throws on every other one.
After the stop the next frame of output 1 gives it the record that the same
frame gives the unused output 2. -/
theorem stopped_forgets_outputs_witness :
    (record (((CompositorReport.create 0).finished_frame 1 1000000000).finished_frame 1
      1500000000).instances 1).nframes = 2 ∧
    (record ((((((((CompositorReport.create 0).finished_frame 1 1000000000).finished_frame 1
        1500000000).stopped_to ⟨fun m => decide (m ≠ .stopped)⟩).report.started_to
        ⟨fun m => decide (m ≠ .stopped)⟩).report.began_frame 1 1600000000).finished_frame_to
        ⟨fun m => decide (m ≠ .stopped)⟩ 1 1700000000).report.instances) 1).nframes = 1 ∧
    record ((((((((CompositorReport.create 0).finished_frame 1 1000000000).finished_frame 1
        1500000000).stopped_to ⟨fun m => decide (m ≠ .stopped)⟩).report.started_to
        ⟨fun m => decide (m ≠ .stopped)⟩).report.began_frame 1 1600000000).finished_frame_to
        ⟨fun m => decide (m ≠ .stopped)⟩ 1 1700000000).report.instances) 1 =
      record ((((((((CompositorReport.create 0).finished_frame 1 1000000000).finished_frame 1
        1500000000).stopped_to ⟨fun m => decide (m ≠ .stopped)⟩).report.started_to
        ⟨fun m => decide (m ≠ .stopped)⟩).report.began_frame 2 1600000000).finished_frame_to
        ⟨fun m => decide (m ≠ .stopped)⟩ 2 1700000000).report.instances) 2 :=
  ⟨by decide, by decide,
   (stopped_forgets_outputs ⟨fun m => decide (m ≠ .stopped)⟩
     (((CompositorReport.create 0).finished_frame 1 1000000000).finished_frame 1 1500000000)
     1 2 1600000000 1700000000 (by decide)).2.2.2.2.2⟩

/-! ### The total time of a record and the end of its last frame -/

theorem log_report_instances (logger : Logger) (r : CompositorReport) (m : Message) :
    (logger.log r m).report.instances = r.instances ∧
    (logger.log r m).report.last_report = r.last_report := by
  cases hb : logger.throws m <;> simp [Logger.log, hb, Completion.report]

theorem record_account_frame_self (r : CompositorReport) (id : SubCompositorId) (t : TimePoint) :
    record (r.account_frame id t).instances id =
      { record r.instances id with
        total_time_sum := (record r.instances id).total_time_sum +
          (t - (record r.instances id).end_of_frame)
        frame_time_sum := (record r.instances id).frame_time_sum +
          (t - (record r.instances id).start_of_frame)
        end_of_frame := t
        nframes := (record r.instances id).nframes + 1 } :=
  record_of_find (find_account_frame_eq r id t)

theorem wrap64_of_in64 {x : Int} (h : in64 x = true) : wrap64 x = x := by
  simp only [in64, Bool.and_eq_true, decide_eq_true_eq] at h
  unfold wrap64
  omega

theorem in64_lt {x : Int} (h : in64 x = true) : x < 9223372036854775808 := by
  simp only [in64, Bool.and_eq_true, decide_eq_true_eq] at h
  exact h.2

theorem began_frame64_eq (r : CompositorReport) (id : SubCompositorId) (t : TimePoint)
    (h : r.fits (.began_frame id t) = true) : r.began_frame64 id t = r.began_frame id t := by
  simp only [CompositorReport.fits, Bool.and_eq_true] at h
  simp only [CompositorReport.began_frame64, CompositorReport.began_frame,
    wrap64_of_in64 h.1, wrap64_of_in64 h.2]

theorem log64_to_eq_some (logger : Logger) (inst : Instance) (id : SubCompositorId)
    (out : List Message × Instance) (h : inst.log64_to logger id = some out) :
    out.2 = (inst.log id).2 := by
  unfold Instance.log64_to at h
  split at h
  · split at h
    · cases h
    · cases h; rfl
  · cases h; rfl

theorem mem_log_all64_to (logger : Logger) (m : List (SubCompositorId × Instance)) :
    ∀ e ∈ (log_all64_to logger m).2.1,
      ∃ e0 ∈ m, e.1 = e0.1 ∧ (e.2 = e0.2 ∨ e.2 = (e0.2.log e0.1).2) := by
  induction m with
  | nil => intro e he; simp [log_all64_to] at he
  | cons e1 rest ih =>
    obtain ⟨k, inst⟩ := e1
    intro e he
    cases hl : inst.log64_to logger k with
    | none =>
      simp only [log_all64_to, hl] at he
      exact ⟨e, he, rfl, Or.inl rfl⟩
    | some out =>
      have ho := log64_to_eq_some logger inst k out hl
      simp only [log_all64_to, hl, List.mem_cons] at he
      rcases he with rfl | he
      · exact ⟨(k, inst), List.mem_cons_self _ _, rfl, Or.inr ho⟩
      · obtain ⟨e0, h0, h1, h2⟩ := ih e he
        exact ⟨e0, List.mem_cons_of_mem _ h0, h1, h2⟩

theorem find_log_all64_to (logger : Logger) (m : List (SubCompositorId × Instance))
    (j : SubCompositorId) :
    find (log_all64_to logger m).2.1 j = find m j ∨
    ∃ inst, find m j = some inst ∧
      find (log_all64_to logger m).2.1 j = some (inst.log j).2 := by
  induction m with
  | nil => exact Or.inl rfl
  | cons e rest ih =>
    obtain ⟨k, inst⟩ := e
    cases hl : inst.log64_to logger k with
    | none =>
      left
      simp only [log_all64_to, hl]
    | some out =>
      have ho := log64_to_eq_some logger inst k out hl
      by_cases hk : k = j
      · subst hk
        right
        exact ⟨inst, by simp [find], by simp [log_all64_to, hl, find, ho]⟩
      · rcases ih with h | ⟨i2, h1, h2⟩
        · left
          simp [log_all64_to, hl, find, hk, h]
        · right
          exact ⟨i2, by simp [find, hk, h1], by simp [log_all64_to, hl, find, hk, h2]⟩

/-- The member `finished_frame` in 64-bit arithmetic, when the call is free of
signed overflow: the records after it are those after the accounting of the
frame, passed through the loop over the records when a pass is due. -/
theorem finished_frame64_to_instances (logger : Logger) (r : CompositorReport)
    (id : SubCompositorId) (t : TimePoint) (h : r.fits (.finished_frame id t) = true) :
    (r.finished_frame64_to logger id t).report.instances =
      (if t - r.last_report ≥ min_report_interval
        then (log_all64_to logger (r.account_frame id t).instances).2.1
        else (r.account_frame id t).instances) ∧
    (r.finished_frame64_to logger id t).report.last_scheduled = r.last_scheduled := by
  simp only [CompositorReport.fits, Bool.and_eq_true] at h
  obtain ⟨⟨⟨⟨⟨h1, h2⟩, h3⟩, h4⟩, h5⟩, h6⟩ := h
  simp only [CompositorReport.finished_frame64_to, CompositorReport.account_frame,
    wrap64_of_in64 h1, wrap64_of_in64 h2, wrap64_of_in64 h3, wrap64_of_in64 h4,
    wrap64_of_in64 h5, wrap64_of_in64 h6]
  by_cases hd : t - r.last_report ≥ min_report_interval
  · simp only [hd, if_true]
    split <;> exact ⟨rfl, rfl⟩
  · simp only [hd, if_false]
    exact ⟨rfl, rfl⟩

theorem record_finished_frame64_to (logger : Logger) (r : CompositorReport)
    (id j : SubCompositorId) (t : TimePoint) (h : r.fits (.finished_frame id t) = true) :
    record (r.finished_frame64_to logger id t).report.instances j =
        record (r.account_frame id t).instances j ∨
    record (r.finished_frame64_to logger id t).report.instances j =
        ((record (r.account_frame id t).instances j).log j).2 := by
  rw [(finished_frame64_to_instances logger r id t h).1]
  by_cases hd : t - r.last_report ≥ min_report_interval
  · rw [if_pos hd]
    rcases find_log_all64_to logger (r.account_frame id t).instances j with h | ⟨inst, h1, h2⟩
    · left
      simp only [record, h]
    · right
      simp only [record, h1, h2, Option.getD_some]
  · rw [if_neg hd]
    exact Or.inl rfl

theorem log_report_last_scheduled (logger : Logger) (r : CompositorReport) (m : Message) :
    (logger.log r m).report.last_scheduled = r.last_scheduled := by
  cases hb : logger.throws m <;> simp [Logger.log, hb, Completion.report]

theorem stopped_to_report (logger : Logger) (r : CompositorReport) :
    ((r.stopped_to logger).report.instances = r.instances ∨
      (r.stopped_to logger).report.instances = []) ∧
    (r.stopped_to logger).report.last_scheduled = r.last_scheduled := by
  cases hb : logger.throws .stopped <;>
    simp [CompositorReport.stopped_to, Logger.log, hb, Completion.report]

theorem Instance.consistent_log {now : TimePoint} {inst : Instance} (h : inst.consistent now)
    (id : SubCompositorId) : (inst.log id).2.consistent now :=
  ⟨h.1, h.2.1, le_refl _, le_refl _, le_refl _, le_refl _⟩

theorem record_bounded (m : List (SubCompositorId × Instance)) (id : SubCompositorId)
    (h : ∀ e ∈ m, e.2.bounded) : (record m id).bounded := by
  unfold record
  cases hf : find m id with
  | none => exact ⟨le_refl _, le_refl _, le_refl _, le_refl _,
      by decide, by decide, by decide, by decide⟩
  | some inst => exact h _ (find_mem m id inst hf)

theorem account_frame_bounded (r : CompositorReport) (id : SubCompositorId) (t : TimePoint)
    (hb : ∀ e ∈ r.instances, e.2.bounded) (hf : r.fits (.finished_frame id t) = true) :
    ∀ e ∈ (r.account_frame id t).instances, e.2.bounded := by
  simp only [CompositorReport.fits, Bool.and_eq_true] at hf
  obtain ⟨⟨⟨⟨⟨-, h2⟩, -⟩, h4⟩, h5⟩, -⟩ := hf
  intro e he
  rcases mem_store _ _ _ _ he with h1 | h1
  · exact hb e h1
  · obtain ⟨b1, b2, b3, b4, -, -, b7, -⟩ := record_bounded r.instances id hb
    rw [h1]
    exact ⟨b1, b2, b3, b4, in64_lt h2, in64_lt h4, b7, in64_lt h5⟩

theorem Instance.bounded_log {now : TimePoint} {inst : Instance} (h : inst.consistent now)
    (hb : inst.bounded) (id : SubCompositorId) : (inst.log id).2.bounded := by
  obtain ⟨-, -, c3, c4, c5, c6⟩ := h
  obtain ⟨b1, b2, b3, b4, b5, b6, b7, b8⟩ := hb
  exact ⟨le_trans b1 c3, le_trans b2 c4, le_trans b3 c5, le_trans b4 c6, b5, b6, b7, b8⟩

/-- A call in 64-bit arithmetic that is free of signed overflow, and whose clock
sample is not earlier than `now`, keeps the report in agreement with the clock
and its records bounded, whatever the logger does. -/
theorem call64_to_invariant {now : TimePoint} {r : CompositorReport} (logger : Logger)
    (h : r.consistent now) (hb : ∀ e ∈ r.instances, e.2.bounded) (c : Call)
    (hm : monotonic now [c]) (hf : r.fits c = true) :
    (r.call64_to logger c).report.consistent (clock_after now [c]) ∧
    ∀ e ∈ (r.call64_to logger c).report.instances, e.2.bounded := by
  have same : ∀ r1 : CompositorReport, r1.instances = r.instances →
      r1.last_scheduled = r.last_scheduled →
      r1.consistent now ∧ ∀ e ∈ r1.instances, e.2.bounded := by
    intro r1 e1 e2
    refine ⟨⟨h.1, by rw [e2]; exact h.2.1, ?_⟩, ?_⟩
    · rw [e1]; exact h.2.2
    · rw [e1]; exact hb
  cases c with
  | added_display width height x y id =>
    exact same _ (log_report_instances logger r _).1 (log_report_last_scheduled logger r _)
  | started =>
    exact same _ (log_report_instances logger r _).1 (log_report_last_scheduled logger r _)
  | stopped =>
    obtain ⟨h1 | h1, h2⟩ := stopped_to_report logger r
    · exact same _ h1 h2
    · refine ⟨⟨h.1, ?_, ?_⟩, ?_⟩
      · show (r.stopped_to logger).report.last_scheduled ≤ now
        rw [h2]; exact h.2.1
      · show ∀ e ∈ (r.stopped_to logger).report.instances, e.2.consistent now
        rw [h1]; intro e he; cases he
      · show ∀ e ∈ (r.stopped_to logger).report.instances, e.2.bounded
        rw [h1]; intro e he; cases he
  | scheduled t =>
    exact ⟨⟨le_trans h.1 hm.1, le_refl _, fun e he =>
      Instance.consistent_later (h.2.2 e he) hm.1⟩, hb⟩
  | began_frame id t =>
    have he := began_frame64_eq r id t hf
    refine ⟨?_, ?_⟩
    · show (r.began_frame64 id t).consistent t
      rw [he]
      exact began_frame_consistent h id t hm.1
    · show ∀ e ∈ (r.began_frame64 id t).instances, e.2.bounded
      rw [he]
      simp only [CompositorReport.fits, Bool.and_eq_true] at hf
      intro e hmem
      rcases mem_store _ _ _ _ hmem with h1 | h1
      · exact hb e h1
      · obtain ⟨b1, b2, b3, b4, b5, b6, -, b8⟩ := record_bounded r.instances id hb
        rw [h1]
        exact ⟨b1, b2, b3, b4, b5, b6, in64_lt hf.2, b8⟩
  | finished_frame id t =>
    have hacc := account_frame_consistent h id t hm.1
    have hbacc := account_frame_bounded r id t hb hf
    obtain ⟨hi, hs⟩ := finished_frame64_to_instances logger r id t hf
    have hrec : ∀ e ∈ (r.finished_frame64_to logger id t).report.instances,
        e.2.consistent t ∧ e.2.bounded := by
      intro e he
      rw [hi] at he
      by_cases hd : t - r.last_report ≥ min_report_interval
      · rw [if_pos hd] at he
        obtain ⟨e0, h0, -, h2 | h2⟩ := mem_log_all64_to logger _ e he
        · rw [h2]; exact ⟨hacc.2.2 e0 h0, hbacc e0 h0⟩
        · rw [h2]
          exact ⟨Instance.consistent_log (hacc.2.2 e0 h0) _,
            Instance.bounded_log (hacc.2.2 e0 h0) (hbacc e0 h0) _⟩
      · rw [if_neg hd] at he
        exact ⟨hacc.2.2 e he, hbacc e he⟩
    refine ⟨⟨hacc.1, ?_, fun e he => (hrec e he).1⟩, fun e he => (hrec e he).2⟩
    show (r.finished_frame64_to logger id t).report.last_scheduled ≤ t
    rw [hs]
    exact le_trans h.2.1 hm.1

theorem calls64_to_cons (logger : Logger) (r : CompositorReport) (c : Call) (cs : List Call) :
    r.calls64_to logger (c :: cs) = ((r.call64_to logger c).report).calls64_to logger cs := rfl

theorem calls64_to_append (logger : Logger) (r : CompositorReport) (cs ds : List Call) :
    r.calls64_to logger (cs ++ ds) = (r.calls64_to logger cs).calls64_to logger ds := by
  simp [CompositorReport.calls64_to, List.foldl_append]

theorem fits_all_append (logger : Logger) : ∀ (cs ds : List Call) (r : CompositorReport),
    r.fits_all logger (cs ++ ds) = true →
    r.fits_all logger cs = true ∧ (r.calls64_to logger cs).fits_all logger ds = true := by
  intro cs
  induction cs with
  | nil => intro ds r h; exact ⟨rfl, h⟩
  | cons c rest ih =>
    intro ds r h
    simp only [List.cons_append, CompositorReport.fits_all, Bool.and_eq_true] at h ⊢
    obtain ⟨h1, h2⟩ := ih ds _ h.2
    exact ⟨⟨h.1, h1⟩, h2⟩

theorem calls64_to_invariant (logger : Logger) :
    ∀ (cs : List Call) (now : TimePoint) (r : CompositorReport),
    r.consistent now → (∀ e ∈ r.instances, e.2.bounded) → monotonic now cs →
    r.fits_all logger cs = true →
    (r.calls64_to logger cs).consistent (clock_after now cs) ∧
    ∀ e ∈ (r.calls64_to logger cs).instances, e.2.bounded := by
  intro cs
  induction cs with
  | nil => intro now r h hb _ _; exact ⟨h, hb⟩
  | cons c rest ih =>
    intro now r h hb hm hf
    rw [monotonic_cons] at hm
    simp only [CompositorReport.fits_all, Bool.and_eq_true] at hf
    rw [clock_after_cons, calls64_to_cons]
    obtain ⟨h1, h2⟩ := call64_to_invariant logger h hb c hm.1 hf.1
    exact ih _ _ h1 h2 hm.2 hf.2

/-- The sums of a record after a call in 64-bit arithmetic that is free of
signed overflow are the sums after the call in exact arithmetic. -/
theorem call64_to_sums (logger : Logger) (r : CompositorReport) (c : Call)
    (hf : r.fits c = true) (hc : c ≠ .stopped) (id : SubCompositorId) :
    (record (r.call64_to logger c).report.instances id).sums =
      (record (r.call c).instances id).sums := by
  cases c with
  | added_display width height x y i =>
    rw [show (r.call64_to logger (.added_display width height x y i)).report.instances =
      r.instances from (log_report_instances logger r _).1]
    rfl
  | started =>
    rw [show (r.call64_to logger .started).report.instances = r.instances from
      (log_report_instances logger r _).1]
    rfl
  | stopped => exact absurd rfl hc
  | scheduled t => rfl
  | began_frame i t =>
    show (record (r.began_frame64 i t).instances id).sums = _
    rw [began_frame64_eq r i t hf]
    rfl
  | finished_frame i t =>
    show (record (r.finished_frame64_to logger i t).report.instances id).sums =
      (record (r.finished_frame i t).instances id).sums
    rw [finished_frame_sums]
    rcases record_finished_frame64_to logger r i id t hf with h | h <;> rw [h]
    rfl

theorem wrap64_of_bounds {x : Int} (h1 : 0 ≤ x) (h2 : x < 9223372036854775808) :
    wrap64 x = x := by
  unfold wrap64
  omega

/-- The counterexample to C18, twice, with a monotonic clock and the members in
64-bit arithmetic.  First the clock starts before its epoch, at -10000 ticks,
and no call overflows: `began_frame(1)` at -5000 adds `-5000 - last_scheduled`,
which is -5000, to a `latency_sum` of 0.  Then the clock starts at its epoch:
`began_frame(1)` twice at 5000000000000000000 ticks adds that much to
`latency_sum` twice, and the second sum does not fit in 64 bits. -/
theorem sums_decrease_counterexample :
    monotonic (-10000) [.began_frame 1 (-5000)] ∧
    (CompositorReport.create (-10000)).fits_all ⟨fun _ => false⟩
      [.began_frame 1 (-5000)] = true ∧
    (record (CompositorReport.create (-10000)).instances 1).latency_sum = 0 ∧
    (record ((CompositorReport.create (-10000)).calls64_to ⟨fun _ => false⟩
      [.began_frame 1 (-5000)]).instances 1).latency_sum = -5000 ∧
    (0 : Int) ≤ 0 ∧
    monotonic 0 [.began_frame 1 5000000000000000000, .began_frame 1 5000000000000000000] ∧
    (record ((CompositorReport.create 0).calls64_to ⟨fun _ => false⟩
      [.began_frame 1 5000000000000000000]).instances 1).latency_sum =
        5000000000000000000 ∧
    (record ((CompositorReport.create 0).calls64_to ⟨fun _ => false⟩
      [.began_frame 1 5000000000000000000,
        .began_frame 1 5000000000000000000]).instances 1).latency_sum =
        -8446744073709551616 :=
  ⟨⟨by decide, trivial⟩, by decide, by decide, by decide, by decide,
    ⟨by decide, by decide, trivial⟩, by decide, by decide⟩

/-- C18, amended: the clock is monotonic, no sample earlier than the one before
it, and none of its samples is earlier than its epoch, the zero time point.
The members compute in 64-bit arithmetic and log to any logger.  In a run of
calls since construction in which no sum or difference that `began_frame` or
`finished_frame` stores or tests overflows, a call other than `stopped()`, so
in particular `scheduled()`, `began_frame(id)` or `finished_frame(id)`, leaves
each of `total_time_sum`, `frame_time_sum`, `latency_sum` and `nframes` of the
record of every output at least as large as it was before the call:
`began_frame(i)` at clock sample `t` sets `start_of_frame` to `t` and adds
`t - last_scheduled` to `latency_sum` of the record of `i`, and
`finished_frame(i)` sets `end_of_frame` to `t`, adds `t - end_of_frame` to
`total_time_sum`, `t - start_of_frame` to `frame_time_sum` and 1 to `nframes`. -/
theorem sums_never_decrease (logger : Logger) (t0 : TimePoint) (h0 : 0 ≤ t0) (cs : List Call)
    (c : Call) (id : SubCompositorId) (hm : monotonic t0 (cs ++ [c]))
    (hfit : (CompositorReport.create t0).fits_all logger (cs ++ [c]) = true)
    (hc : c ≠ .stopped) :
    (record ((CompositorReport.create t0).calls64_to logger cs).instances id).total_time_sum ≤
      (record ((CompositorReport.create t0).calls64_to logger
        (cs ++ [c])).instances id).total_time_sum ∧
    (record ((CompositorReport.create t0).calls64_to logger cs).instances id).frame_time_sum ≤
      (record ((CompositorReport.create t0).calls64_to logger
        (cs ++ [c])).instances id).frame_time_sum ∧
    (record ((CompositorReport.create t0).calls64_to logger cs).instances id).latency_sum ≤
      (record ((CompositorReport.create t0).calls64_to logger
        (cs ++ [c])).instances id).latency_sum ∧
    (record ((CompositorReport.create t0).calls64_to logger cs).instances id).nframes ≤
      (record ((CompositorReport.create t0).calls64_to logger
        (cs ++ [c])).instances id).nframes ∧
    (∀ i t, c = .began_frame i t →
      (record ((CompositorReport.create t0).calls64_to logger
        (cs ++ [c])).instances i).start_of_frame = t ∧
      (record ((CompositorReport.create t0).calls64_to logger
        (cs ++ [c])).instances i).latency_sum =
        (record ((CompositorReport.create t0).calls64_to logger cs).instances i).latency_sum +
          (t - ((CompositorReport.create t0).calls64_to logger cs).last_scheduled)) ∧
    (∀ i t, c = .finished_frame i t →
      (record ((CompositorReport.create t0).calls64_to logger
        (cs ++ [c])).instances i).end_of_frame = t ∧
      (record ((CompositorReport.create t0).calls64_to logger
        (cs ++ [c])).instances i).sums =
        ((record ((CompositorReport.create t0).calls64_to logger cs).instances i).total_time_sum +
          (t - (record ((CompositorReport.create t0).calls64_to logger
            cs).instances i).end_of_frame),
         (record ((CompositorReport.create t0).calls64_to logger cs).instances i).frame_time_sum +
          (t - (record ((CompositorReport.create t0).calls64_to logger
            cs).instances i).start_of_frame),
         (record ((CompositorReport.create t0).calls64_to logger cs).instances i).latency_sum,
         (record ((CompositorReport.create t0).calls64_to logger cs).instances i).nframes +
          1)) := by
  obtain ⟨hm1, hm2⟩ := monotonic_append cs [c] t0 hm
  obtain ⟨hf1, hf2⟩ := fits_all_append logger cs [c] _ hfit
  have hcons := (calls64_to_invariant logger cs t0 _ (create_consistent t0 h0)
    (fun e he => by cases he) hm1 hf1).1
  have hfc : ((CompositorReport.create t0).calls64_to logger cs).fits c = true := by
    simpa [CompositorReport.fits_all] using hf2
  have hs := call64_to_sums logger _ c hfc hc id
  have hexact := call_sums hcons c hm2 hc id
  rw [calls64_to_append]
  have e1 := congrArg Prod.fst hs
  have e2 := congrArg (fun x => x.2.1) hs
  have e3 := congrArg (fun x => x.2.2.1) hs
  have e4 := congrArg (fun x => x.2.2.2) hs
  simp only [Instance.sums] at e1 e2 e3 e4
  generalize (CompositorReport.create t0).calls64_to logger cs = r at hfc hs hexact e1 e2 e3 e4 ⊢
  have h4 : (record r.instances id).total_time_sum ≤
        (record (r.call64_to logger c).report.instances id).total_time_sum ∧
      (record r.instances id).frame_time_sum ≤
        (record (r.call64_to logger c).report.instances id).frame_time_sum ∧
      (record r.instances id).latency_sum ≤
        (record (r.call64_to logger c).report.instances id).latency_sum ∧
      (record r.instances id).nframes ≤
        (record (r.call64_to logger c).report.instances id).nframes := by
    rw [e1, e2, e3, e4]
    exact hexact
  refine ⟨h4.1, h4.2.1, h4.2.2.1, h4.2.2.2, ?_, ?_⟩
  · intro i t hci
    subst hci
    show (record (r.began_frame64 i t).instances i).start_of_frame = t ∧
      (record (r.began_frame64 i t).instances i).latency_sum = _
    rw [began_frame64_eq r i t hfc, record_of_find (find_began_frame_self r i t)]
    exact ⟨rfl, rfl⟩
  · intro i t hci
    subst hci
    have hsi := call64_to_sums logger r (.finished_frame i t) hfc hc i
    refine ⟨?_, ?_⟩
    · show (record (r.finished_frame64_to logger i t).report.instances i).end_of_frame = t
      rcases record_finished_frame64_to logger r i i t hfc with h | h <;>
        rw [h, record_account_frame_self] <;> rfl
    · show (record (r.finished_frame64_to logger i t).report.instances i).sums = _
      have hsi2 : (record (r.finished_frame64_to logger i t).report.instances i).sums =
          (record (r.finished_frame i t).instances i).sums := hsi
      rw [hsi2, finished_frame_sums, record_account_frame_self]
      rfl

/-- Witness for C18: the clock starts at 5; output 1 begins a frame at 10 and
finishes it at 20, and its next frame begins at 30. -/
theorem sums_never_decrease_witness :
    (record ((CompositorReport.create 5).calls64_to ⟨fun _ => false⟩
        [.scheduled 7, .began_frame 1 10, .finished_frame 1 20]).instances 1).latency_sum ≤
      (record ((CompositorReport.create 5).calls64_to ⟨fun _ => false⟩
        ([.scheduled 7, .began_frame 1 10, .finished_frame 1 20] ++
          [.began_frame 1 30])).instances 1).latency_sum :=
  (sums_never_decrease ⟨fun _ => false⟩ 5 (by decide)
    [.scheduled 7, .began_frame 1 10, .finished_frame 1 20] (.began_frame 1 30) 1
    ⟨by decide, by decide, by decide, by decide, trivial⟩ (by decide) (by decide)).2.2.1

theorem log_all64_to_returned (logger : Logger) (m : List (SubCompositorId × Instance))
    (h : (log_all64_to logger m).2.2 = false) :
    ∀ e ∈ (log_all64_to logger m).2.1, e.2.baselines = e.2.sums := by
  induction m with
  | nil => intro e he; simp [log_all64_to] at he
  | cons e1 rest ih =>
    obtain ⟨k, inst⟩ := e1
    cases hl : inst.log64_to logger k with
    | none => simp [log_all64_to, hl] at h
    | some out =>
      have ho := log64_to_eq_some logger inst k out hl
      simp only [log_all64_to, hl] at h ⊢
      intro e he
      rcases List.mem_cons.1 he with rfl | he
      · show out.2.baselines = out.2.sums
        rw [ho]
        rfl
      · exact ih h e he

/-- A report pass in 64-bit arithmetic that returns leaves every record with
its baselines equal to its sums. -/
theorem finished_frame64_to_rebases (logger : Logger) (r : CompositorReport)
    (id : SubCompositorId) (t : TimePoint)
    (hd : wrap64 (t - r.last_report) ≥ min_report_interval)
    (hret : (r.finished_frame64_to logger id t).has_thrown = false) :
    (r.finished_frame64_to logger id t).report.last_report = t ∧
    ∀ e ∈ (r.finished_frame64_to logger id t).report.instances, e.2.baselines = e.2.sums := by
  unfold CompositorReport.finished_frame64_to at hret ⊢
  simp only [] at hret ⊢
  rw [if_pos hd] at hret ⊢
  split at hret
  · simp [Completion.has_thrown] at hret
  · rename_i hflag
    rw [if_neg hflag]
    exact ⟨rfl, log_all64_to_returned logger _ (by simpa using hflag)⟩

/-- The counterexample to C19, twice, with a monotonic clock and the members in
64-bit arithmetic.  First the clock starts before its epoch, at -10000 ticks,
and no call overflows: after `began_frame(1)` at -5000 the record of output 1
has `latency_sum = -5000` below its baseline 0, and the `dl` of a pass would be
-5.  Then the clock starts at its epoch: after `began_frame(1)` twice at
5000000000000000000 ticks `latency_sum` has wrapped around to a negative
value, below its baseline 0. -/
theorem baselines_exceed_sums_counterexample :
    monotonic (-10000) [.began_frame 1 (-5000)] ∧
    (CompositorReport.create (-10000)).fits_all ⟨fun _ => false⟩
      [.began_frame 1 (-5000)] = true ∧
    ((CompositorReport.create (-10000)).calls64_to ⟨fun _ => false⟩
      [.began_frame 1 (-5000)]).instances =
        [(1, { start_of_frame := -5000, latency_sum := -5000,
               last_reported_latency_sum := 0 })] ∧
    ({ start_of_frame := -5000, latency_sum := -5000,
       last_reported_latency_sum := 0 } : Instance).dl64 = -5 ∧
    (0 : Int) ≤ 0 ∧
    monotonic 0 [.began_frame 1 5000000000000000000, .began_frame 1 5000000000000000000] ∧
    ((CompositorReport.create 0).calls64_to ⟨fun _ => false⟩
      [.began_frame 1 5000000000000000000, .began_frame 1 5000000000000000000]).instances =
        [(1, { start_of_frame := 5000000000000000000, latency_sum := -8446744073709551616,
               last_reported_latency_sum := 0 })] :=
  ⟨⟨by decide, trivial⟩, by decide, by decide, by decide, by decide,
    ⟨by decide, by decide, trivial⟩, by decide⟩

/-- C19, amended: the clock is monotonic, no sample earlier than the one before
it, and none of its samples is earlier than its epoch.  The members compute in
64-bit arithmetic and log to any logger.  In every state reached from
construction by calls of the member functions in which no sum or difference
that `began_frame` or `finished_frame` stores or tests overflows, every record
has each `last_reported_*` value at most the sum it is the baseline of; the
differences of the sums to their baselines that a report pass computes do not
overflow, and `dt`, `df`, `dl` in whole microseconds and `dn` are not
negative.  A report pass that returns sets `last_report` to its clock sample
and leaves every record with each `last_reported_*` value equal to the sum it
is the baseline of. -/
theorem baselines_never_exceed_sums (logger : Logger) (t0 : TimePoint) (h0 : 0 ≤ t0)
    (cs : List Call) (hm : monotonic t0 cs)
    (hfit : (CompositorReport.create t0).fits_all logger cs = true) :
    (∀ e ∈ ((CompositorReport.create t0).calls64_to logger cs).instances,
      e.2.last_reported_total_time_sum ≤ e.2.total_time_sum ∧
      e.2.last_reported_frame_time_sum ≤ e.2.frame_time_sum ∧
      e.2.last_reported_latency_sum ≤ e.2.latency_sum ∧
      e.2.last_reported_nframes ≤ e.2.nframes ∧
      e.2.dt64 = usec (e.2.total_time_sum - e.2.last_reported_total_time_sum) ∧
      e.2.df64 = usec (e.2.frame_time_sum - e.2.last_reported_frame_time_sum) ∧
      e.2.dl64 = usec (e.2.latency_sum - e.2.last_reported_latency_sum) ∧
      e.2.dn64 = e.2.nframes - e.2.last_reported_nframes ∧
      0 ≤ e.2.dt64 ∧ 0 ≤ e.2.df64 ∧ 0 ≤ e.2.dl64 ∧ 0 ≤ e.2.dn64) ∧
    ∀ (id : SubCompositorId) (t : TimePoint),
      wrap64 (t - ((CompositorReport.create t0).calls64_to logger cs).last_report) ≥
        min_report_interval →
      (((CompositorReport.create t0).calls64_to logger cs).finished_frame64_to logger id
        t).has_thrown = false →
      (((CompositorReport.create t0).calls64_to logger cs).finished_frame64_to logger id
        t).report.last_report = t ∧
      ∀ e ∈ (((CompositorReport.create t0).calls64_to logger cs).finished_frame64_to logger id
          t).report.instances,
        e.2.last_reported_total_time_sum = e.2.total_time_sum ∧
        e.2.last_reported_frame_time_sum = e.2.frame_time_sum ∧
        e.2.last_reported_latency_sum = e.2.latency_sum ∧
        e.2.last_reported_nframes = e.2.nframes := by
  refine ⟨?_, fun id t hd hret => ?_⟩
  swap
  · obtain ⟨h1, h2⟩ := finished_frame64_to_rebases logger _ id t hd hret
    refine ⟨h1, fun e he => ?_⟩
    have hb := h2 e he
    simp only [Instance.baselines, Instance.sums, Prod.mk.injEq] at hb
    exact hb
  intro e he
  obtain ⟨hcons, hb⟩ := calls64_to_invariant logger cs t0 _ (create_consistent t0 h0)
    (fun e he => by cases he) hm hfit
  obtain ⟨-, -, c3, c4, c5, c6⟩ := hcons.2.2 e he
  obtain ⟨b1, b2, b3, b4, b5, b6, b7, b8⟩ := hb e he
  have ht : (0 : Int) ≤ ticks_per_usec := by decide
  have w1 : wrap64 (e.2.total_time_sum - e.2.last_reported_total_time_sum) =
      e.2.total_time_sum - e.2.last_reported_total_time_sum :=
    wrap64_of_bounds (by linarith) (by linarith)
  have w2 : wrap64 (e.2.frame_time_sum - e.2.last_reported_frame_time_sum) =
      e.2.frame_time_sum - e.2.last_reported_frame_time_sum :=
    wrap64_of_bounds (by linarith) (by linarith)
  have w3 : wrap64 (e.2.latency_sum - e.2.last_reported_latency_sum) =
      e.2.latency_sum - e.2.last_reported_latency_sum :=
    wrap64_of_bounds (by linarith) (by linarith)
  have w4 : wrap64 (e.2.nframes - e.2.last_reported_nframes) =
      e.2.nframes - e.2.last_reported_nframes :=
    wrap64_of_bounds (by linarith) (by linarith)
  simp only [Instance.dt64, Instance.df64, Instance.dl64, Instance.dn64, w1, w2, w3, w4]
  refine ⟨c3, c4, c5, c6, trivial, trivial, trivial, trivial, ?_, ?_, ?_, ?_⟩
  · exact Int.tdiv_nonneg (by linarith) ht
  · exact Int.tdiv_nonneg (by linarith) ht
  · exact Int.tdiv_nonneg (by linarith) ht
  · linarith

/-- Witness for C19: after a pass at 1 s, a stop and two more frames, the one
record has its baselines below its sums. -/
theorem baselines_never_exceed_sums_witness :
    ((CompositorReport.create 0).calls64_to ⟨fun _ => false⟩
      [.finished_frame 1 1000000000, .stopped, .started, .scheduled 1000000001,
        .began_frame 1 1000000002, .finished_frame 1 1000000003]).instances.length = 1 ∧
    ∀ e ∈ ((CompositorReport.create 0).calls64_to ⟨fun _ => false⟩
      [.finished_frame 1 1000000000, .stopped, .started, .scheduled 1000000001,
        .began_frame 1 1000000002, .finished_frame 1 1000000003]).instances,
      e.2.last_reported_total_time_sum ≤ e.2.total_time_sum ∧ 0 ≤ e.2.dt64 :=
  ⟨by decide, fun e he =>
    ⟨((baselines_never_exceed_sums ⟨fun _ => false⟩ 0 (by decide)
      [.finished_frame 1 1000000000, .stopped, .started, .scheduled 1000000001,
        .began_frame 1 1000000002, .finished_frame 1 1000000003]
      ⟨by decide, by decide, by decide, by decide, trivial⟩ (by decide)).1 e he).1,
     ((baselines_never_exceed_sums ⟨fun _ => false⟩ 0 (by decide)
      [.finished_frame 1 1000000000, .stopped, .started, .scheduled 1000000001,
        .began_frame 1 1000000002, .finished_frame 1 1000000003]
      ⟨by decide, by decide, by decide, by decide, trivial⟩ (by decide)).1 e he).2.2.2.2.2.2.2.2.1⟩⟩

end logging

/-! ## Theorems: DRM formats -/

namespace graphics

/-- C28: in the table `formats` every key equals the `format` field of its
entry and no key occurs twice, but the alpha flag does not agree with the
equivalents in every entry.  The entry of `DRM_FORMAT_BGRX5551` has
`has_alpha = true` although the format is its own `opaque_equivalent` and its
`alpha_equivalent` is the other format `DRM_FORMAT_BGRA5551`; it is the only
entry whose flag disagrees. -/
theorem formats_BGRX5551_has_alpha :
    (∀ e ∈ formats, e.1 = e.2.format) ∧
    (formats.map Prod.fst).Nodup ∧
    formats.lookup .DRM_FORMAT_BGRX5551 =
      some { format := .DRM_FORMAT_BGRX5551, has_alpha := true,
             opaque_equivalent := .DRM_FORMAT_BGRX5551,
             alpha_equivalent := .DRM_FORMAT_BGRA5551 } ∧
    formats.filter (fun e => !e.2.flag_agrees) =
      [(.DRM_FORMAT_BGRX5551,
        { format := .DRM_FORMAT_BGRX5551, has_alpha := true,
          opaque_equivalent := .DRM_FORMAT_BGRX5551,
          alpha_equivalent := .DRM_FORMAT_BGRA5551 })] := by
  refine ⟨by decide, by decide, by decide, by decide⟩

theorem parse_loop_stays (red green blue : Int) (alpha : Option Int) (spec : List Nat)
    (num : Int) (q n : Nat) (hq : char_at spec q ≠ 0) (hc : parse_count spec q = .ok (n, q)) :
    ∀ (fuel : Nat) (info : RGBComponentInfo),
      parse_loop red green blue alpha spec num fuel q info = .unfinished := by
  intro fuel
  induction fuel with
  | zero => intro info; rfl
  | succ k ih =>
    intro info
    rw [parse_loop, if_neg hq, hc]
    exact ih _

theorem parse_count_eq (spec : List Nat) (q : Nat) :
    parse_count spec q =
      if to_uint32 ((char_at spec q : Int) - ('0'.toNat : Int)) = 1 ∧
          char_at spec (q + 1) ≠ 0 then
        if char_at spec (q + 1) = '5'.toNat then
          .ok (to_uint32 ((char_at spec q : Int) - ('0'.toNat : Int)), q)
        else if char_at spec (q + 1) = '0'.toNat ∨ char_at spec (q + 1) = '6'.toNat then
          .ok (to_uint32 ((to_uint32
                ((to_uint32 ((char_at spec q : Int) - ('0'.toNat : Int)) : Int) * 10) : Int) +
              ((char_at spec (q + 1) : Int) - ('0'.toNat : Int))),
            q + 1)
        else
          .error .logic_error
      else
        .ok (to_uint32 ((char_at spec q : Int) - ('0'.toNat : Int)), q) := rfl

theorem parse_count_cases (spec : List Nat) (q : Nat) :
    (∃ n, parse_count spec q = .ok (n, q)) ∨
    parse_count spec q = .error .logic_error ∨
    (∃ n m, parse_count spec q = .ok (n, q + 1) ∧ char_at spec (q + 1) ≠ 0 ∧
      parse_count spec (q + 1) = .ok (m, q + 1)) := by
  rw [parse_count_eq spec q, parse_count_eq spec (q + 1)]
  by_cases h1 : to_uint32 ((char_at spec q : Int) - ('0'.toNat : Int)) = 1 ∧
      char_at spec (q + 1) ≠ 0
  · rw [if_pos h1]
    by_cases h5 : char_at spec (q + 1) = '5'.toNat
    · rw [if_pos h5]
      exact Or.inl ⟨_, rfl⟩
    · rw [if_neg h5]
      by_cases h06 : char_at spec (q + 1) = '0'.toNat ∨ char_at spec (q + 1) = '6'.toNat
      · rw [if_pos h06]
        have hne : ¬ (to_uint32 ((char_at spec (q + 1) : Int) - ('0'.toNat : Int)) = 1 ∧
            char_at spec (q + 1 + 1) ≠ 0) := by
          rintro ⟨h, _⟩
          rcases h06 with h0 | h6
          · rw [h0] at h; revert h; decide
          · rw [h6] at h; revert h; decide
        rw [if_neg hne]
        exact Or.inr (Or.inr ⟨_, _, rfl, h1.2, rfl⟩)
      · rw [if_neg h06]
        exact Or.inr (Or.inl rfl)
  · rw [if_neg h1]
    exact Or.inl ⟨_, rfl⟩

theorem parse_loop_not_returned (red green blue : Int) (alpha : Option Int) (spec : List Nat)
    (num : Int) (q : Nat) (hq : char_at spec q ≠ 0) (fuel : Nat) (info0 info : RGBComponentInfo) :
    parse_loop red green blue alpha spec num fuel q info0 ≠ .returned info := by
  cases fuel with
  | zero => intro h; cases h
  | succ k =>
    rw [parse_loop, if_neg hq]
    rcases parse_count_cases spec q with ⟨n, h⟩ | h | ⟨n, m, h, hq1, h1⟩
    · rw [h]
      show parse_loop red green blue alpha spec num k q _ ≠ _
      rw [parse_loop_stays red green blue alpha spec num q n hq h]
      intro h; cases h
    · rw [h]
      intro h; cases h
    · rw [h]
      show parse_loop red green blue alpha spec num k (q + 1) _ ≠ _
      rw [parse_loop_stays red green blue alpha spec num (q + 1) m hq1 h1]
      intro h; cases h

theorem info_from_specifier_unfinished (fuel : Nat) (spec : List Nat) (r g b : Nat)
    (hr : component_index 'R'.toNat spec = some r)
    (hg : component_index 'G'.toNat spec = some g)
    (hb : component_index 'B'.toNat spec = some b)
    (hy : component_index 'Y'.toNat spec = none)
    (hu : component_index 'U'.toNat spec = none)
    (hv : component_index 'V'.toNat spec = none)
    (n : Nat)
    (hq : char_at spec (skip_component_names spec) ≠ 0)
    (hc : parse_count spec (skip_component_names spec) = .ok (n, skip_component_names spec)) :
    info_from_specifier fuel spec = .unfinished := by
  unfold info_from_specifier
  simp only [hr, hg, hb, hy, hu, hv, Option.isSome_none, Bool.or_false, Bool.and_false,
    Bool.false_eq_true, if_false]
  unfold parse_rgb_component_sizes
  rw [parse_loop_stays _ _ _ _ spec 0 (skip_component_names spec) n hq hc]

/-- C30: `parse_rgb_component_sizes` does not return for a specifier with a
digit list.  Its second loop moves neither `component` nor `component_num`
forward at the end of the body, so it reads the same digit again and again:
whatever the number of iterations allowed, `info_from_specifier` is still
running on `"XRGB8888"`, `"RGB565"` and `"XRGB2101010"`, and
`parse_rgb_component_sizes` returns, for any indexes and any specifier, only
when no character follows the component names. -/
theorem parse_rgb_component_sizes_never_returns (fuel : Nat) :
    info_from_specifier fuel (chars "XRGB8888") = .unfinished ∧
    info_from_specifier fuel (chars "RGB565") = .unfinished ∧
    info_from_specifier fuel (chars "XRGB2101010") = .unfinished ∧
    ∀ (red_index green_index blue_index : Int) (alpha_index : Option Int)
      (specifier : List Nat) (info : RGBComponentInfo),
      parse_rgb_component_sizes fuel red_index green_index blue_index alpha_index specifier =
          .returned info →
        char_at specifier (skip_component_names specifier) = 0 := by
  refine ⟨?_, ?_, ?_, ?_⟩
  · exact info_from_specifier_unfinished fuel _ 1 2 3 (by decide) (by decide) (by decide)
      (by decide) (by decide) (by decide) 8 (by decide) rfl
  · exact info_from_specifier_unfinished fuel _ 0 1 2 (by decide) (by decide) (by decide)
      (by decide) (by decide) (by decide) 5 (by decide) rfl
  · exact info_from_specifier_unfinished fuel _ 1 2 3 (by decide) (by decide) (by decide)
      (by decide) (by decide) (by decide) 2 (by decide) rfl
  · intro red green blue alpha spec info h
    by_contra hq
    exact parse_loop_not_returned red green blue alpha spec 0 _ hq fuel {} info h

end graphics

/-! ## Theorems: Wayland wrapper generator -/

namespace generator

theorem toupper_eq_underscore (c : Nat) : toupper c = underscore ↔ c = underscore := by
  have ha : 'a'.toNat = 97 := rfl
  have hz : 'z'.toNat = 122 := rfl
  have hu : underscore = 95 := rfl
  unfold toupper
  rw [ha, hz, hu]
  split <;> omega

theorem string_find_append (c : Nat) (p s : List Nat) (k : Nat) :
    string_find c (p ++ s) (p.length + k) = (string_find c s k).map (· + p.length) := by
  induction p with
  | nil => simp
  | cons x rest ih =>
    have : (x :: rest).length + k = (rest.length + k) + 1 := by simp; omega
    rw [List.cons_append, this, string_find, ih, Option.map_map]
    congr 1

theorem string_find_append_zero (c : Nat) (p s : List Nat) :
    string_find c (p ++ s) p.length = (string_find c s 0).map (· + p.length) := by
  have := string_find_append c p s 0
  simpa using this

theorem camel_case_spec_toupper (t : Nat) (rest : List Nat) :
    camel_case_spec false (toupper t :: rest) = camel_case_spec true (t :: rest) := by
  by_cases h : t = underscore
  · have h2 : toupper t = underscore := (toupper_eq_underscore t).2 h
    have e1 : camel_case_spec false (toupper t :: rest) = camel_case_spec true rest := by
      simp only [camel_case_spec, if_pos h2]
    have e2 : camel_case_spec true (t :: rest) = camel_case_spec true rest := by
      simp only [camel_case_spec, if_pos h]
    rw [e1, e2]
  · have h2 : ¬ toupper t = underscore := fun e => h ((toupper_eq_underscore t).1 e)
    simp [camel_case_spec, h, h2]

theorem getLast_toupper (t : Nat) (rest : List Nat) :
    (toupper t :: rest).getLast? = some underscore ↔ (t :: rest).getLast? = some underscore := by
  cases rest with
  | nil => simp [toupper_eq_underscore]
  | cons x xs => simp [List.getLast?_cons_cons]

/-- The loop of `camel_case_string` on a name whose first `p.length` characters
hold no underscore, started at the first underscore from there on. -/
theorem camel_case_loop_spec : ∀ (fuel : Nat) (s p : List Nat), s.length < fuel →
    camel_case_loop fuel (p ++ s) (string_find underscore (p ++ s) p.length) =
      if s.getLast? = some underscore then .threw .out_of_range
      else .returned (p ++ camel_case_spec false s) := by
  intro fuel
  induction fuel with
  | zero => intro s p h; omega
  | succ k ih =>
    intro s
    induction s with
    | nil =>
      intro p _
      rw [string_find_append_zero]
      simp [string_find, camel_case_loop, camel_case_spec]
    | cons c rest ihs =>
      intro p hlen
      by_cases hc : c = underscore
      · subst hc
        have hfind : string_find underscore (p ++ underscore :: rest) p.length =
            some p.length := by
          rw [string_find_append_zero]
          simp [string_find]
        rw [hfind, camel_case_loop]
        have hlt : p.length < (p ++ underscore :: rest).length := by simp
        rw [if_pos hlt]
        cases rest with
        | nil =>
          have : substr (p ++ [underscore]) (p.length + 2) = .error .out_of_range := by
            simp [substr]
          rw [this]
          simp
        | cons t rest2 =>
          have hsub : substr (p ++ underscore :: t :: rest2) (p.length + 2) = .ok rest2 := by
            have hd : List.drop (p.length + 2) (p ++ underscore :: t :: rest2) = rest2 := by
              rw [List.drop_append]
              rfl
            simp [substr, hd]
          have htake : List.take p.length (p ++ underscore :: t :: rest2) = p := by
            simp
          have hat : char_at (p ++ underscore :: t :: rest2) (p.length + 1) = t := by
            unfold char_at
            rw [List.getD_eq_getElem?_getD, List.getElem?_append_right (by omega)]
            simp
          rw [hsub]
          simp only [htake, hat]
          have hcat : p ++ [toupper t] ++ rest2 = p ++ (toupper t :: rest2) := by simp
          rw [hcat]
          have hlen2 : (toupper t :: rest2).length < k := by
            simp only [List.length_cons] at hlen ⊢
            omega
          rw [ih (toupper t :: rest2) p hlen2, camel_case_spec_toupper]
          have hspec : camel_case_spec false (underscore :: t :: rest2) =
              camel_case_spec true (t :: rest2) := by
            simp [camel_case_spec]
          rw [hspec]
          have hlast : (underscore :: t :: rest2).getLast? = (t :: rest2).getLast? :=
            List.getLast?_cons_cons
          rw [hlast]
          by_cases hl : (t :: rest2).getLast? = some underscore
          · rw [if_pos hl, if_pos ((getLast_toupper t rest2).2 hl)]
          · rw [if_neg hl, if_neg (fun e => hl ((getLast_toupper t rest2).1 e))]
      · have hskip : string_find underscore (p ++ c :: rest) p.length =
            string_find underscore ((p ++ [c]) ++ rest) (p ++ [c]).length := by
          rw [string_find_append_zero, string_find_append_zero]
          simp only [string_find, if_neg hc, Option.map_map, List.length_append,
            List.length_singleton]
          congr 1
          funext x
          simp only [Function.comp]
          omega
        have happ : p ++ c :: rest = (p ++ [c]) ++ rest := by simp
        rw [hskip, happ]
        have hlen2 : rest.length < k + 1 := by
          simp only [List.length_cons] at hlen
          omega
        rw [ihs (p ++ [c]) hlen2]
        have hspec : camel_case_spec false (c :: rest) = c :: camel_case_spec false rest := by
          simp [camel_case_spec, hc]
        rw [hspec]
        have hlast : (c :: rest).getLast? = some underscore ↔ rest.getLast? = some underscore := by
          cases rest with
          | nil => simp [hc]
          | cons x xs => simp [List.getLast?_cons_cons]
        by_cases hl : rest.getLast? = some underscore
        · rw [if_pos hl, if_pos (hlast.2 hl)]
        · rw [if_neg hl, if_neg (fun e => hl (hlast.1 e))]
          simp

theorem camel_case_spec_no_underscore (upper : Bool) (s : List Nat) :
    underscore ∉ camel_case_spec upper s := by
  induction s generalizing upper with
  | nil => simp [camel_case_spec]
  | cons c rest ih =>
    by_cases hc : c = underscore
    · simp only [camel_case_spec, if_pos hc]
      exact ih true
    · simp only [camel_case_spec, if_neg hc, List.mem_cons, not_or]
      refine ⟨?_, ih false⟩
      cases upper
      · simpa using fun e => hc e.symm
      · simp only [if_true]
        exact fun e => hc ((toupper_eq_underscore c).1 e.symm)

theorem camel_case_spec_length (upper : Bool) (s : List Nat) :
    (camel_case_spec upper s).length + s.count underscore = s.length := by
  induction s generalizing upper with
  | nil => simp [camel_case_spec]
  | cons c rest ih =>
    by_cases hc : c = underscore
    · subst hc
      simp only [camel_case_spec, if_true, List.count_cons_self, List.length_cons]
      have := ih true
      omega
    · simp only [camel_case_spec, if_neg hc, List.length_cons]
      rw [List.count_cons_of_ne (fun e => hc e.symm)]
      have := ih false
      omega

/-- C29: `camel_case_string`, given more loop iterations than the name has
characters, fails with `std::out_of_range` for the empty name and for a name
that ends in an underscore, and returns for every other name the camel-cased
name of the specification: the underscores left out, the first character and
each character that followed an underscore upper-cased, the others unchanged.
That result holds no underscore and is shorter than the name by the number of
its underscores. -/
theorem camel_case_string_spec (fuel : Nat) (name : List Nat) (h : name.length < fuel) :
    camel_case_string fuel name =
      (if name = [] ∨ name.getLast? = some underscore then .threw .out_of_range
       else .returned (camel_case_spec true name)) ∧
    underscore ∉ camel_case_spec true name ∧
    (camel_case_spec true name).length = name.length - name.count underscore := by
  refine ⟨?_, camel_case_spec_no_underscore true name, ?_⟩
  · cases name with
    | nil => simp [camel_case_string, substr]
    | cons c rest =>
      have hsub : substr (c :: rest) 1 = .ok rest := by simp [substr]
      have hat : char_at (c :: rest) 0 = c := rfl
      have hfind : string_find underscore (c :: rest) 0 =
          string_find underscore (toupper c :: rest) 0 := by
        by_cases hc : c = underscore
        · simp only [string_find, if_pos hc, if_pos ((toupper_eq_underscore c).2 hc)]
        · simp only [string_find, if_neg hc,
            if_neg (fun e => hc ((toupper_eq_underscore c).1 e))]
      have hloop := camel_case_loop_spec fuel (toupper c :: rest) []
        (by simpa using h)
      simp only [List.nil_append, List.length_nil] at hloop
      unfold camel_case_string
      rw [hsub]
      simp only [hat, List.singleton_append]
      rw [hfind, hloop, camel_case_spec_toupper]
      by_cases hl : (c :: rest).getLast? = some underscore
      · rw [if_pos ((getLast_toupper c rest).2 hl), if_pos (Or.inr hl)]
      · rw [if_neg (fun e => hl ((getLast_toupper c rest).1 e)), if_neg]
        rintro (h0 | h1)
        · cases h0
        · exact hl h1
  · have := camel_case_spec_length true name
    omega

/-- Witness for C29: `text_input_v3` becomes `TextInputV3`, also when
`name_transform` first cuts the prefix `zwp_`; the empty name and the name `a_`
fail. -/
theorem camel_case_string_spec_witness :
    camel_case_string 14 (chars "text_input_v3") = .returned (chars "TextInputV3") ∧
    name_transform 14 (chars "zwp_") (chars "zwp_text_input_v3") =
      .returned (chars "TextInputV3") ∧
    camel_case_string 1 (chars "") = .threw .out_of_range ∧
    camel_case_string 3 (chars "a_") = .threw .out_of_range :=
  ⟨(camel_case_string_spec 14 (chars "text_input_v3") (by decide)).1.trans (by decide),
   by decide,
   (camel_case_string_spec 1 (chars "") (by decide)).1.trans (by decide),
   (camel_case_string_spec 3 (chars "a_") (by decide)).1.trans (by decide)⟩

end generator

/-! ## Theorems: compositor stream -/

namespace compositor

theorem stream_calls_cons (s : Stream) (c : Call) (cs : List Call) :
    s.calls (c :: cs) = (s.call c).calls cs := rfl

theorem stream_calls_append (s : Stream) (cs ds : List Call) :
    s.calls (cs ++ ds) = (s.calls cs).calls ds := by
  simp [Stream.calls, List.foldl_append]

theorem lock_compositor_buffer_cons (s : Stream) (b : Buffer) (rest : List Buffer)
    (h : s.queue = b :: rest) :
    s.lock_compositor_buffer =
      ({ s with queue := rest, current := some b, acquired := s.acquired ++ [b] }, some b) := by
  unfold Stream.lock_compositor_buffer
  rw [h]

theorem lock_compositor_buffer_nil (s : Stream) (h : s.queue = []) :
    s.lock_compositor_buffer = (s, s.current) := by
  unfold Stream.lock_compositor_buffer
  rw [h]

theorem call_coherent (s : Stream) (c : Call) (h : s.coherent) : (s.call c).coherent := by
  cases c with
  | submit_buffer b =>
    by_cases hd : s.framedropping = true
    · refine ⟨h.current_eq, ?_, ?_⟩
      · simp only [Stream.call, Stream.submit_buffer, hd, if_true]
        exact List.Sublist.append
          ((List.sublist_append_left s.acquired s.queue).trans h.sublist) (List.Sublist.refl _)
      · simp [Stream.call, Stream.submit_buffer, hd]
    · refine ⟨h.current_eq, ?_, ?_⟩
      · simp only [Stream.call, Stream.submit_buffer, hd, Bool.false_eq_true, if_false]
        rw [← List.append_assoc]
        exact List.Sublist.append h.sublist (List.Sublist.refl _)
      · simp only [Stream.call, Stream.submit_buffer, hd, Bool.false_eq_true, if_false]
        rw [← List.append_assoc]
        simp
  | lock_compositor_buffer =>
    cases hq : s.queue with
    | nil =>
      simp only [Stream.call, lock_compositor_buffer_nil s hq]
      exact h
    | cons b rest =>
      simp only [Stream.call, lock_compositor_buffer_cons s b rest hq]
      refine ⟨by simp, ?_, ?_⟩
      · have := h.sublist
        rw [hq] at this
        simpa using this
      · have := h.last_eq
        rw [hq] at this
        simpa using this
  | allow_framedropping d => exact ⟨h.current_eq, h.sublist, h.last_eq⟩

theorem calls_coherent : ∀ (cs : List Call) (s : Stream), s.coherent → (s.calls cs).coherent := by
  intro cs
  induction cs with
  | nil => intro s h; exact h
  | cons c rest ih => intro s h; exact ih _ (call_coherent s c h)

theorem create_coherent (d : Bool) : (Stream.create.allow_framedropping d).coherent :=
  ⟨rfl, List.Sublist.refl _, rfl⟩

theorem calls_submitted : ∀ (cs : List Call) (s : Stream),
    (s.calls cs).submitted = s.submitted ++ submissions cs := by
  intro cs
  induction cs with
  | nil => intro s; simp [Stream.calls, submissions]
  | cons c rest ih =>
    intro s
    rw [stream_calls_cons, ih]
    cases c with
    | submit_buffer b => simp [Stream.call, Stream.submit_buffer, submissions]
    | lock_compositor_buffer =>
      cases hq : s.queue with
      | nil => simp [Stream.call, lock_compositor_buffer_nil s hq, submissions]
      | cons b q => simp [Stream.call, lock_compositor_buffer_cons s b q hq, submissions]
    | allow_framedropping d => simp [Stream.call, Stream.allow_framedropping, submissions]

/-- With framedropping disabled throughout, nothing submitted is lost: the
buffers handed out followed by the buffers waiting are the buffers submitted. -/
theorem calls_queueing : ∀ (cs : List Call) (s : Stream),
    (∀ c ∈ cs, c ≠ .allow_framedropping true) → s.framedropping = false →
    s.acquired ++ s.queue = s.submitted →
    (s.calls cs).framedropping = false ∧
    (s.calls cs).acquired ++ (s.calls cs).queue = (s.calls cs).submitted := by
  intro cs
  induction cs with
  | nil => intro s _ hf h; exact ⟨hf, h⟩
  | cons c rest ih =>
    intro s hcs hf h
    rw [stream_calls_cons]
    have hrest : ∀ c ∈ rest, c ≠ .allow_framedropping true :=
      fun c hc => hcs c (List.mem_cons_of_mem _ hc)
    cases c with
    | submit_buffer b =>
      apply ih _ hrest
      · exact hf
      · simp only [Stream.call, Stream.submit_buffer, hf, Bool.false_eq_true, if_false]
        rw [← List.append_assoc, h]
    | lock_compositor_buffer =>
      cases hq : s.queue with
      | nil =>
        simp only [Stream.call, lock_compositor_buffer_nil s hq]
        exact ih _ hrest hf h
      | cons b q =>
        simp only [Stream.call, lock_compositor_buffer_cons s b q hq]
        refine ih _ hrest ?_ ?_
        · exact hf
        · rw [hq] at h
          simpa using h
    | allow_framedropping d =>
      have hd : d = false := by
        cases d with
        | false => rfl
        | true => exact absurd rfl (hcs _ (List.mem_cons_self _ _))
      subst hd
      exact ih _ hrest rfl h

theorem drain_acquired : ∀ (n : Nat) (s : Stream), s.queue.length = n →
    (s.calls (List.replicate n .lock_compositor_buffer)).acquired = s.acquired ++ s.queue ∧
    (s.calls (List.replicate n .lock_compositor_buffer)).queue = [] := by
  intro n
  induction n with
  | zero =>
    intro s h
    have hq : s.queue = [] := List.length_eq_zero.1 h
    simp [Stream.calls, hq]
  | succ k ih =>
    intro s h
    cases hq : s.queue with
    | nil => rw [hq] at h; cases h
    | cons b q =>
      rw [List.replicate_succ, stream_calls_cons]
      have hk : (s.call .lock_compositor_buffer).queue.length = k := by
        simp only [Stream.call, lock_compositor_buffer_cons s b q hq]
        rw [hq] at h
        simpa using h
      obtain ⟨h1, h2⟩ := ih _ hk
      rw [h1, h2]
      simp [Stream.call, lock_compositor_buffer_cons s b q hq]

theorem lock_returns_last_acquired (s : Stream) (h : s.coherent) :
    s.lock_compositor_buffer.2 = s.lock_compositor_buffer.1.acquired.getLast? := by
  cases hq : s.queue with
  | nil =>
    rw [lock_compositor_buffer_nil s hq]
    exact h.current_eq
  | cons b q =>
    rw [lock_compositor_buffer_cons s b q hq]
    simp

theorem lock_submitted (s : Stream) : s.lock_compositor_buffer.1.submitted = s.submitted := by
  cases hq : s.queue with
  | nil => rw [lock_compositor_buffer_nil s hq]
  | cons b q => rw [lock_compositor_buffer_cons s b q hq]

/-- C21: a `Stream` with framedropping disabled hands out every submitted
buffer, in submission order.  After any calls of `submit_buffer` and
`lock_compositor_buffer` (and `allow_framedropping(false)`), the buffers handed
out as new frames, followed by the buffers still waiting, are exactly the
buffers submitted; `lock_compositor_buffer` returns the buffer handed out last
(again, when nothing waits); and once the compositor has asked once for every
waiting buffer, the buffers handed out are exactly the submitted sequence. -/
theorem queueing_stream_hands_out_every_buffer (cs : List Call)
    (h : ∀ c ∈ cs, c ≠ .allow_framedropping true) :
    ((Stream.create.allow_framedropping false).calls cs).submitted = submissions cs ∧
    ((Stream.create.allow_framedropping false).calls cs).acquired ++
        ((Stream.create.allow_framedropping false).calls cs).queue = submissions cs ∧
    ((Stream.create.allow_framedropping false).calls cs).lock_compositor_buffer.2 =
      ((Stream.create.allow_framedropping false).calls
        cs).lock_compositor_buffer.1.acquired.getLast? ∧
    ((Stream.create.allow_framedropping false).calls cs).drain.acquired = submissions cs ∧
    ((Stream.create.allow_framedropping false).calls cs).drain.queue = [] := by
  have hsub : ((Stream.create.allow_framedropping false).calls cs).submitted =
      submissions cs := by
    rw [calls_submitted]
    rfl
  obtain ⟨_, hq⟩ := calls_queueing cs (Stream.create.allow_framedropping false) h rfl rfl
  obtain ⟨hd1, hd2⟩ := drain_acquired _ ((Stream.create.allow_framedropping false).calls cs) rfl
  refine ⟨hsub, hq.trans hsub, ?_, ?_, hd2⟩
  · exact lock_returns_last_acquired _ (calls_coherent cs _ (create_coherent false))
  · exact hd1.trans (hq.trans hsub)

/-- Witness for C21: buffers 1, 2 and 3 are submitted while the compositor asks
twice for a buffer; after three more requests it has been handed 1, 2 and 3. -/
theorem queueing_stream_hands_out_every_buffer_witness :
    ((Stream.create.allow_framedropping false).calls
      [.submit_buffer 1, .lock_compositor_buffer, .lock_compositor_buffer, .submit_buffer 2,
       .submit_buffer 3]).drain.acquired = [1, 2, 3] :=
  (queueing_stream_hands_out_every_buffer
    [.submit_buffer 1, .lock_compositor_buffer, .lock_compositor_buffer, .submit_buffer 2,
     .submit_buffer 3] (by decide)).2.2.2.1

/-- With framedropping enabled throughout, at most one buffer waits. -/
theorem calls_dropping : ∀ (cs : List Call) (s : Stream),
    (∀ c ∈ cs, c ≠ .allow_framedropping false) → s.framedropping = true →
    s.queue.length ≤ 1 →
    (s.calls cs).framedropping = true ∧ (s.calls cs).queue.length ≤ 1 := by
  intro cs
  induction cs with
  | nil => intro s _ hf h; exact ⟨hf, h⟩
  | cons c rest ih =>
    intro s hcs hf h
    rw [stream_calls_cons]
    have hrest : ∀ c ∈ rest, c ≠ .allow_framedropping false :=
      fun c hc => hcs c (List.mem_cons_of_mem _ hc)
    cases c with
    | submit_buffer b =>
      refine ih _ hrest ?_ ?_
      · exact hf
      · simp [Stream.call, Stream.submit_buffer, hf]
    | lock_compositor_buffer =>
      cases hq : s.queue with
      | nil =>
        simp only [Stream.call, lock_compositor_buffer_nil s hq]
        exact ih _ hrest hf h
      | cons b q =>
        simp only [Stream.call, lock_compositor_buffer_cons s b q hq]
        refine ih _ hrest ?_ ?_
        · exact hf
        · rw [hq] at h
          simp only [List.length_cons] at h
          show q.length ≤ 1
          omega
    | allow_framedropping d =>
      have hd : d = true := by
        cases d with
        | true => rfl
        | false => exact absurd rfl (hcs _ (List.mem_cons_self _ _))
      subst hd
      exact ih _ hrest rfl h

/-- C22: a `Stream` with framedropping enabled keeps the submission order and
ends at the last buffer.  After any calls of `submit_buffer` and
`lock_compositor_buffer` (and `allow_framedropping(true)`), the buffers handed
out as new frames are a subsequence of the buffers submitted, in submission
order; and the next `lock_compositor_buffer` returns the last buffer submitted,
so that once the producer has finished the last buffer returned is the last one
it submitted. -/
theorem dropping_stream_keeps_order (cs : List Call)
    (h : ∀ c ∈ cs, c ≠ .allow_framedropping false) :
    ((Stream.create.allow_framedropping true).calls cs).submitted = submissions cs ∧
    (((Stream.create.allow_framedropping true).calls cs).acquired).Sublist (submissions cs) ∧
    ((Stream.create.allow_framedropping true).calls cs).lock_compositor_buffer.2 =
      (submissions cs).getLast? ∧
    (((Stream.create.allow_framedropping true).calls
      cs).lock_compositor_buffer.1.acquired).Sublist (submissions cs) := by
  have hsub : ((Stream.create.allow_framedropping true).calls cs).submitted =
      submissions cs := by
    rw [calls_submitted]
    rfl
  have hco := calls_coherent cs _ (create_coherent true)
  obtain ⟨_, hlen⟩ := calls_dropping cs (Stream.create.allow_framedropping true) h rfl
    (by decide)
  have hco2 := call_coherent _ .lock_compositor_buffer hco
  refine ⟨hsub, ?_, ?_, ?_⟩
  · rw [← hsub]
    exact (List.sublist_append_left _ _).trans hco.sublist
  · rw [← hsub, ← hco.last_eq]
    cases hq : ((Stream.create.allow_framedropping true).calls cs).queue with
    | nil =>
      rw [lock_compositor_buffer_nil _ hq, List.append_nil]
      exact hco.current_eq
    | cons b q =>
      rw [hq] at hlen
      have hq0 : q = [] := by
        cases q with
        | nil => rfl
        | cons x xs => simp at hlen
      subst hq0
      rw [lock_compositor_buffer_cons _ b [] hq]
      simp
  · have h3 : (((Stream.create.allow_framedropping true).calls
          cs).lock_compositor_buffer.1.acquired ++
        ((Stream.create.allow_framedropping true).calls
          cs).lock_compositor_buffer.1.queue).Sublist
        ((Stream.create.allow_framedropping true).calls
          cs).lock_compositor_buffer.1.submitted := hco2.sublist
    rw [lock_submitted, hsub] at h3
    exact (List.sublist_append_left _ _).trans h3

/-- Witness for C22: of the buffers 1, 2, 3 the compositor is handed 2 and 3, a
strict subsequence, and the request after the last submission returns 3. -/
theorem dropping_stream_keeps_order_witness :
    ((Stream.create.allow_framedropping true).calls
      [.submit_buffer 1, .submit_buffer 2, .lock_compositor_buffer,
       .submit_buffer 3]).lock_compositor_buffer.2 = some 3 ∧
    ((Stream.create.allow_framedropping true).calls
      [.submit_buffer 1, .submit_buffer 2, .lock_compositor_buffer,
       .submit_buffer 3]).lock_compositor_buffer.1.acquired = [2, 3] :=
  ⟨(dropping_stream_keeps_order
    [.submit_buffer 1, .submit_buffer 2, .lock_compositor_buffer, .submit_buffer 3]
    (by decide)).2.2.1.trans (by decide), by decide⟩

end compositor


end Mir
